import Mathlib

/-!
# Wavefront edit-distance alignment (`wfa_edit_alignment_cpu.c`, `wfa_edit_alignment_fpga.c`)

Shallow embedding of the two storage variants of the wavefront edit-distance
aligner and proofs of the properties its specification states.

Conventions of the embedding.

* `int` values (lengths, diagonals `k`, coordinates `v`, `h`) are unbounded integers;
  the generation counter `distance`, which the source only ever counts upwards from `0`,
  is a natural number.
* Every store into an `ewf_offset_t` (`int16_t`) object goes through `to_offset`,
  the reduction to the 16-bit signed range.
* Arrays are total maps from their index to the stored value: a generation's `offsets`
  is a map from the diagonal `k`, the dense buffer is a map from the flat index.
  Which indices an operation touches is stated by separate definitions.
* `pattern` and `text` are lists of `char`; `pattern_length` and `text_length` are passed
  along exactly as in the source and are instantiated with the list lengths.
* Loops whose trip count is bounded by their own header are total functions that recurse on
  that bound; the backtrace loop, whose header gives no bound, takes a fuel argument and
  returns `none` when the fuel does not suffice.
-/

namespace WFA

/-! ## Macros and the offset type -/

/-- Value of an `int` after it is stored into an `ewf_offset_t` (`int16_t`). -/
def to_offset (x : Int) : Int := (x + 32768) % 65536 - 32768

/-- Source macro `MAX(a,b)`. -/
def MAX (a b : Int) : Int := if a ≥ b then a else b

/-- Source macro `ABS(a)`. -/
def ABS (a : Int) : Int := if a ≥ 0 then a else -a

/-- Source macro `EWAVEFRONT_V(k,offset)`. -/
def EWAVEFRONT_V (k offset : Int) : Int := offset - k

/-- Source macro `EWAVEFRONT_H(k,offset)`. -/
def EWAVEFRONT_H (_k offset : Int) : Int := offset

/-- Source macro `EWAVEFRONT_DIAGONAL(h,v)`. -/
def EWAVEFRONT_DIAGONAL (h v : Int) : Int := h - v

/-- Source macro `EWAVEFRONT_OFFSET(h,v)`. -/
def EWAVEFRONT_OFFSET (h _v : Int) : Int := h

/-- Read of `s[i]` for a `char` array given as a list; `none` outside the array. -/
def char_at (s : List Char) (i : Int) : Option Char :=
  if 0 ≤ i then s[i.toNat]? else none

/-! ## Loops that are textually identical in both source files -/

/-- Inner `while` of `edit_wavefronts_extend_wavefront` for one diagonal: `v`, `h` are the
running `int` coordinates, `offset` the cell `offsets[k]`, incremented in place.  The first
argument bounds the trip count; `text_length - h` iterations always suffice. -/
def extend_while (pattern : List Char) (pattern_length : Int) (text : List Char)
    (text_length : Int) : Nat → Int → Int → Int → Int
  | 0, _, _, offset => offset
  | fuel + 1, v, h, offset =>
    if v < pattern_length ∧ h < text_length ∧ char_at pattern v = char_at text h then
      extend_while pattern pattern_length text text_length fuel (v + 1) (h + 1)
        (to_offset (offset + 1))
    else offset

/-- The trailing `while (offset > 0)` loop of `edit_wavefronts_backtrace`: the symbols it
appends.  The trip count is bounded by the value of `offset`. -/
def backtrace_matches : Nat → Int → List Char
  | 0, _ => []
  | fuel + 1, offset =>
    if offset > 0 then 'M' :: backtrace_matches fuel (to_offset (offset - 1)) else []


/-! ## Amortized-growth variant (`wfa_edit_alignment_cpu.c`) -/

namespace CPU

/-- One generation: `lo`, `hi` and the accessor `offsets`, addressed by the diagonal. -/
structure edit_wavefront_t where
  lo : Int
  hi : Int
  offsets : Int → Int

/-- The wavefront set with its CIGAR buffer. -/
structure edit_wavefronts_t where
  pattern_length : Int
  text_length : Int
  max_distance : Int
  wavefronts : Nat → edit_wavefront_t
  wavefronts_allocated : Int
  edit_cigar : List Char
  edit_cigar_length : Int

/-- A zeroed `edit_wavefront_t` slot, as left by `calloc`. -/
def wavefront_zero : edit_wavefront_t := { lo := 0, hi := 0, offsets := fun _ => 0 }

/-- Source function `edit_wavefronts_init`. -/
def edit_wavefronts_init (pattern_length text_length : Int) : edit_wavefronts_t :=
  { pattern_length := pattern_length
    text_length := text_length
    max_distance := pattern_length + text_length
    wavefronts := fun _ => wavefront_zero
    wavefronts_allocated := 0
    edit_cigar := []
    edit_cigar_length := 0 }

/-- Source function `edit_wavefronts_allocate_wavefront`: slot `distance` gets the range
`[lo_base, hi_base]` and a zeroed offsets buffer centred at `k = 0`. -/
def edit_wavefronts_allocate_wavefront (edit_wavefronts : edit_wavefronts_t)
    (distance : Nat) (lo_base hi_base : Int) : edit_wavefronts_t :=
  { edit_wavefronts with
    wavefronts := Function.update edit_wavefronts.wavefronts distance
      { lo := lo_base, hi := hi_base, offsets := fun _ => 0 }
    wavefronts_allocated := edit_wavefronts.wavefronts_allocated + 1 + 1 }

/-- Body of the `for (k=k_min;k<=k_max;++k)` loop of `edit_wavefronts_extend_wavefront`. -/
def extend_diagonal (pattern : List Char) (pattern_length : Int) (text : List Char)
    (text_length : Int) (offsets : Int → Int) (k : Int) : Int → Int :=
  let v := EWAVEFRONT_V k (offsets k)
  let h := EWAVEFRONT_H k (offsets k)
  Function.update offsets k
    (extend_while pattern pattern_length text text_length (text_length - h).toNat v h (offsets k))

/-- The `for (k=k_min;k<=k_max;++k)` loop: `count` diagonals starting at `k`. -/
def extend_for (pattern : List Char) (pattern_length : Int) (text : List Char)
    (text_length : Int) : Nat → Int → (Int → Int) → (Int → Int)
  | 0, _, offsets => offsets
  | count + 1, k, offsets =>
    extend_for pattern pattern_length text text_length count (k + 1)
      (extend_diagonal pattern pattern_length text text_length offsets k)

/-- Source function `edit_wavefronts_extend_wavefront` (amortized-growth variant). -/
def edit_wavefronts_extend_wavefront (wavefronts : edit_wavefronts_t)
    (pattern : List Char) (pattern_length : Int) (text : List Char) (text_length : Int)
    (distance : Nat) : edit_wavefronts_t :=
  let wavefront := wavefronts.wavefronts distance
  let k_min := wavefront.lo
  let k_max := wavefront.hi
  { wavefronts with
    wavefronts := Function.update wavefronts.wavefronts distance
      { wavefront with
        offsets := extend_for pattern pattern_length text text_length
          (k_max - k_min + 1).toNat k_min wavefront.offsets } }

/-- The `for (k=lo+1;k<=hi-1;++k)` loop of `edit_wavefronts_compute_wavefront`. -/
def compute_for (offsets : Int → Int) : Nat → Int → (Int → Int) → (Int → Int)
  | 0, _, next_offsets => next_offsets
  | count + 1, k, next_offsets =>
    let max_ins_sub := to_offset (MAX (offsets k) (offsets (k - 1)) + 1)
    compute_for offsets count (k + 1)
      (Function.update next_offsets k (to_offset (MAX max_ins_sub (offsets (k + 1)))))

/-- Source function `edit_wavefronts_compute_wavefront` (amortized-growth variant);
`distance` is the generation being filled, `distance - 1` the one read. -/
def edit_wavefronts_compute_wavefront (wavefronts : edit_wavefronts_t) (distance : Nat) :
    edit_wavefronts_t :=
  let wavefront := wavefronts.wavefronts (distance - 1)
  let hi := wavefront.hi
  let lo := wavefront.lo
  let wavefronts1 := edit_wavefronts_allocate_wavefront wavefronts distance (lo - 1) (hi + 1)
  let next_wavefront := wavefronts1.wavefronts distance
  let offsets := wavefront.offsets
  let next_offsets := next_wavefront.offsets
  -- Loop peeling (k=lo-1)
  let next_offsets := Function.update next_offsets (lo - 1) (to_offset (offsets lo))
  -- Loop peeling (k=lo)
  let bottom_upper_del := to_offset (if lo + 1 ≤ hi then offsets (lo + 1) else -1)
  let next_offsets :=
    Function.update next_offsets lo (to_offset (MAX (offsets lo + 1) bottom_upper_del))
  -- Compute next wavefront starting point
  let next_offsets := compute_for offsets (hi - 1 - (lo + 1) + 1).toNat (lo + 1) next_offsets
  -- Loop peeling (k=hi)
  let top_lower_ins := to_offset (if lo ≤ hi - 1 then offsets (hi - 1) else -1)
  let next_offsets :=
    Function.update next_offsets hi (to_offset (MAX (offsets hi) top_lower_ins + 1))
  -- Loop peeling (k=hi+1)
  let next_offsets := Function.update next_offsets (hi + 1) (to_offset (offsets hi + 1))
  { wavefronts1 with
    wavefronts := Function.update wavefronts1.wavefronts distance
      { next_wavefront with offsets := next_offsets } }

/-- The `while (distance > 0)` loop of `edit_wavefronts_backtrace` followed by the trailing
loop: the symbols written to `edit_cigar[0]`, `edit_cigar[1]`, ... in this order.
`none` when `fuel` iterations do not bring `distance` to `0`. -/
def backtrace_while (wavefronts : edit_wavefronts_t) : Nat → Int → Int → Nat →
    Option (List Char)
  | _, _, offset, 0 => some (backtrace_matches offset.toNat offset)
  | 0, _, _, _ + 1 => none
  | fuel + 1, k, offset, distance_minus_one + 1 =>
    let wavefront := wavefronts.wavefronts distance_minus_one
    let offsets := wavefront.offsets
    if wavefront.lo ≤ k + 1 ∧ k + 1 ≤ wavefront.hi ∧ offset = offsets (k + 1) then
      (backtrace_while wavefronts fuel (k + 1) offset distance_minus_one).map ('D' :: ·)
    else if wavefront.lo ≤ k - 1 ∧ k - 1 ≤ wavefront.hi ∧ offset = offsets (k - 1) + 1 then
      (backtrace_while wavefronts fuel (k - 1) (to_offset (offset - 1))
        distance_minus_one).map ('I' :: ·)
    else if wavefront.lo ≤ k ∧ k ≤ wavefront.hi ∧ offset = offsets k + 1 then
      (backtrace_while wavefronts fuel k (to_offset (offset - 1))
        distance_minus_one).map ('X' :: ·)
    else
      (backtrace_while wavefronts fuel k (to_offset (offset - 1))
        (distance_minus_one + 1)).map ('M' :: ·)

/-- Source function `edit_wavefronts_backtrace` (amortized-growth variant): the written
prefix of `edit_cigar`; its length is the returned CIGAR length. -/
def edit_wavefronts_backtrace (fuel : Nat) (wavefronts : edit_wavefronts_t)
    (target_k : Int) (target_distance : Nat) : Option (List Char) :=
  let k := target_k
  let distance := target_distance
  let offset := to_offset ((wavefronts.wavefronts distance).offsets k)
  backtrace_while wavefronts fuel k offset distance

/-- The `for (distance=0;distance<max_distance;++distance)` loop of `edit_wavefronts_align`;
the first argument is `max_distance - distance`.  Returns the final `distance`. -/
def align_for (pattern : List Char) (pattern_length : Int) (text : List Char)
    (text_length : Int) (target_k target_k_abs target_offset : Int) :
    Nat → Nat → edit_wavefronts_t → Nat × edit_wavefronts_t
  | 0, distance, wavefronts => (distance, wavefronts)
  | remaining + 1, distance, wavefronts =>
    -- Extend diagonally each wavefront point
    let wavefronts :=
      edit_wavefronts_extend_wavefront wavefronts pattern pattern_length text text_length distance
    -- Exit condition
    if target_k_abs ≤ distance ∧
        (wavefronts.wavefronts distance).offsets target_k = target_offset then
      (distance, wavefronts)
    else
      -- Compute next wavefront starting point
      align_for pattern pattern_length text text_length target_k target_k_abs target_offset
        remaining (distance + 1) (edit_wavefronts_compute_wavefront wavefronts (distance + 1))

/-- Source function `edit_wavefronts_align` (amortized-growth variant): the final store and
the score; `fuel` bounds the iterations of the backtrace loop. -/
def edit_wavefronts_align (fuel : Nat) (wavefronts : edit_wavefronts_t)
    (pattern : List Char) (pattern_length : Int) (text : List Char) (text_length : Int) :
    Option (edit_wavefronts_t × Nat) :=
  let max_distance := pattern_length + text_length
  let target_k := EWAVEFRONT_DIAGONAL text_length pattern_length
  let target_k_abs := ABS target_k
  let target_offset := to_offset (EWAVEFRONT_OFFSET text_length pattern_length)
  -- Init wavefronts
  let wavefronts := edit_wavefronts_allocate_wavefront wavefronts 0 0 0
  let wavefronts :=
    { wavefronts with
      wavefronts := Function.update wavefronts.wavefronts 0
        { wavefronts.wavefronts 0 with
          offsets := Function.update (wavefronts.wavefronts 0).offsets 0 0 } }
  -- Compute wavefronts for increasing distance
  let r := align_for pattern pattern_length text text_length target_k target_k_abs
    target_offset max_distance.toNat 0 wavefronts
  let distance := r.1
  let wavefronts := r.2
  -- Backtrace wavefronts
  (edit_wavefronts_backtrace fuel wavefronts target_k distance).map fun cigar =>
    ({ wavefronts with edit_cigar := cigar, edit_cigar_length := cigar.length }, distance)

/-- One repetition of the driver of `wfa_edit_alignment_cpu.c`: `edit_wavefronts_init` for the
two lengths, then `edit_wavefronts_align`; the pair of the score and the CIGAR written. -/
def wfa_edit_alignment_cpu (fuel : Nat) (pattern text : List Char) : Option (Nat × List Char) :=
  (edit_wavefronts_align fuel (edit_wavefronts_init pattern.length text.length)
    pattern pattern.length text text.length).map fun r => (r.2, r.1.edit_cigar)

end CPU

/-! ## Dense-preallocated variant (`wfa_edit_alignment_fpga.c`) -/

namespace FPGA

/-- Source macro `LO_IDX(distance)`. -/
def LO_IDX (distance : Int) : Int := -distance

/-- Source macro `HI_IDX(distance)`. -/
def HI_IDX (distance : Int) : Int := distance

/-- Source macro `OFFSET_IDX(distance, k)`. -/
def OFFSET_IDX (distance k : Int) : Int := distance * (distance + 1) + k

/-- Body of the `for (k=k_min;k<=k_max;++k)` loop of `edit_wavefronts_extend_wavefront`;
`offsets` is the index of `offsets_wavefronts + OFFSET_IDX(distance,0)`. -/
def extend_diagonal (pattern : List Char) (pattern_length : Int) (text : List Char)
    (text_length : Int) (offsets : Int) (offsets_wavefronts : Int → Int) (k : Int) : Int → Int :=
  let v := EWAVEFRONT_V k (offsets_wavefronts (offsets + k))
  let h := EWAVEFRONT_H k (offsets_wavefronts (offsets + k))
  Function.update offsets_wavefronts (offsets + k)
    (extend_while pattern pattern_length text text_length (text_length - h).toNat v h
      (offsets_wavefronts (offsets + k)))

/-- The `for (k=k_min;k<=k_max;++k)` loop: `count` diagonals starting at `k`. -/
def extend_for (pattern : List Char) (pattern_length : Int) (text : List Char)
    (text_length : Int) (offsets : Int) : Nat → Int → (Int → Int) → (Int → Int)
  | 0, _, offsets_wavefronts => offsets_wavefronts
  | count + 1, k, offsets_wavefronts =>
    extend_for pattern pattern_length text text_length offsets count (k + 1)
      (extend_diagonal pattern pattern_length text text_length offsets offsets_wavefronts k)

/-- Source function `edit_wavefronts_extend_wavefront` (dense variant). -/
def edit_wavefronts_extend_wavefront (offsets_wavefronts : Int → Int)
    (pattern : List Char) (pattern_length : Int) (text : List Char) (text_length : Int)
    (distance : Nat) : Int → Int :=
  let offsets := OFFSET_IDX distance 0
  let k_min := LO_IDX distance
  let k_max := HI_IDX distance
  extend_for pattern pattern_length text text_length offsets
    (k_max - k_min + 1).toNat k_min offsets_wavefronts

/-- The `for (k=lo+1;k<=hi-1;++k)` loop of `edit_wavefronts_compute_wavefront`; `offsets` and
`next_offsets` are the indices of the two generations' `k = 0` cells in the one buffer. -/
def compute_for (offsets next_offsets : Int) : Nat → Int → (Int → Int) → (Int → Int)
  | 0, _, offsets_wavefronts => offsets_wavefronts
  | count + 1, k, offsets_wavefronts =>
    let max_ins_sub :=
      to_offset (MAX (offsets_wavefronts (offsets + k)) (offsets_wavefronts (offsets + (k - 1))) + 1)
    compute_for offsets next_offsets count (k + 1)
      (Function.update offsets_wavefronts (next_offsets + k)
        (to_offset (MAX max_ins_sub (offsets_wavefronts (offsets + (k + 1))))))

/-- Source function `edit_wavefronts_compute_wavefront` (dense variant). -/
def edit_wavefronts_compute_wavefront (offsets_wavefronts : Int → Int) (distance : Nat) :
    Int → Int :=
  let distance_minus_one : Int := (distance : Int) - 1
  -- Fetch lo and hi
  let lo := LO_IDX distance_minus_one
  let hi := HI_IDX distance_minus_one
  -- Fetch offsets
  let offsets := OFFSET_IDX distance_minus_one 0
  let next_offsets := OFFSET_IDX distance 0
  -- Loop peeling (k=lo-1)
  let mem := Function.update offsets_wavefronts (next_offsets + (lo - 1))
    (to_offset (offsets_wavefronts (offsets + lo)))
  -- Loop peeling (k=lo)
  let bottom_upper_del := to_offset (if lo + 1 ≤ hi then mem (offsets + (lo + 1)) else -1)
  let mem := Function.update mem (next_offsets + lo)
    (to_offset (MAX (mem (offsets + lo) + 1) bottom_upper_del))
  -- Compute next wavefront starting point
  let mem := compute_for offsets next_offsets (hi - 1 - (lo + 1) + 1).toNat (lo + 1) mem
  -- Loop peeling (k=hi)
  let top_lower_ins := to_offset (if lo ≤ hi - 1 then mem (offsets + (hi - 1)) else -1)
  let mem := Function.update mem (next_offsets + hi)
    (to_offset (MAX (mem (offsets + hi)) top_lower_ins + 1))
  -- Loop peeling (k=hi+1)
  Function.update mem (next_offsets + (hi + 1)) (to_offset (mem (offsets + hi) + 1))

/-- The `while (distance > 0)` loop of `edit_wavefronts_backtrace` (dense variant) followed by
the trailing loop: the symbols written to `edit_cigar[0]`, `edit_cigar[1]`, ... in this order.
`none` when `fuel` iterations do not bring `distance` to `0`. -/
def backtrace_while (offsets_wavefronts : Int → Int) : Nat → Int → Int → Nat →
    Option (List Char)
  | _, _, offset, 0 => some (backtrace_matches offset.toNat offset)
  | 0, _, _, _ + 1 => none
  | fuel + 1, k, offset, distance_minus_one + 1 =>
    let distance : Int := (distance_minus_one : Int) + 1
    let offsets := OFFSET_IDX (distance - 1) 0
    let lo := LO_IDX distance
    let hi := HI_IDX distance
    if lo ≤ k + 1 ∧ k + 1 ≤ hi ∧ offset = offsets_wavefronts (offsets + (k + 1)) then
      (backtrace_while offsets_wavefronts fuel (k + 1) offset distance_minus_one).map ('D' :: ·)
    else if lo ≤ k - 1 ∧ k - 1 ≤ hi ∧ offset = offsets_wavefronts (offsets + (k - 1)) + 1 then
      (backtrace_while offsets_wavefronts fuel (k - 1) (to_offset (offset - 1))
        distance_minus_one).map ('I' :: ·)
    else if lo ≤ k ∧ k ≤ hi ∧ offset = offsets_wavefronts (offsets + k) + 1 then
      (backtrace_while offsets_wavefronts fuel k (to_offset (offset - 1))
        distance_minus_one).map ('X' :: ·)
    else
      (backtrace_while offsets_wavefronts fuel k (to_offset (offset - 1))
        (distance_minus_one + 1)).map ('M' :: ·)

/-- Source function `edit_wavefronts_backtrace` (dense variant): the written prefix of
`edit_cigar`; its length is the returned CIGAR length. -/
def edit_wavefronts_backtrace (fuel : Nat) (offsets_wavefronts : Int → Int)
    (target_k : Int) (target_distance : Nat) : Option (List Char) :=
  let k := target_k
  let distance := target_distance
  let offset := to_offset (offsets_wavefronts (OFFSET_IDX distance k))
  backtrace_while offsets_wavefronts fuel k offset distance

/-- The `for (distance=0;distance<max_distance;++distance)` loop of `edit_wavefronts_align`;
the first argument is `max_distance - distance`.  Returns the final `distance`. -/
def align_for (pattern : List Char) (pattern_length : Int) (text : List Char)
    (text_length : Int) (target_k target_k_abs target_offset : Int) :
    Nat → Nat → (Int → Int) → Nat × (Int → Int)
  | 0, distance, offsets_wavefronts => (distance, offsets_wavefronts)
  | remaining + 1, distance, offsets_wavefronts =>
    -- Extend diagonally each wavefront point
    let offsets_wavefronts := edit_wavefronts_extend_wavefront offsets_wavefronts
      pattern pattern_length text text_length distance
    -- Exit condition
    if target_k_abs ≤ distance ∧
        offsets_wavefronts (OFFSET_IDX distance target_k) = target_offset then
      (distance, offsets_wavefronts)
    else
      -- Compute next wavefront starting point
      align_for pattern pattern_length text text_length target_k target_k_abs target_offset
        remaining (distance + 1)
        (edit_wavefronts_compute_wavefront offsets_wavefronts (distance + 1))

/-- Source function `edit_wavefronts_align` (dense variant): the final buffer, the CIGAR
written and the score; `fuel` bounds the iterations of the backtrace loop. -/
def edit_wavefronts_align (fuel : Nat) (offsets_wavefronts : Int → Int)
    (pattern : List Char) (pattern_length : Int) (text : List Char) (text_length : Int)
    (max_distance : Int) : Option ((Int → Int) × List Char × Nat) :=
  let target_k := EWAVEFRONT_DIAGONAL text_length pattern_length
  let target_k_abs := ABS target_k
  let target_offset := to_offset (EWAVEFRONT_OFFSET text_length pattern_length)
  -- Init wavefronts
  let offsets_wavefronts := Function.update offsets_wavefronts 0 0
  -- Compute wavefronts for increasing distance
  let r := align_for pattern pattern_length text text_length target_k target_k_abs
    target_offset max_distance.toNat 0 offsets_wavefronts
  let distance := r.1
  let offsets_wavefronts := r.2
  -- Backtrace
  (edit_wavefronts_backtrace fuel offsets_wavefronts target_k distance).map fun cigar =>
    (offsets_wavefronts, cigar, distance)

/-- One repetition of the driver of `wfa_edit_alignment_fpga.c` on a buffer with the initial
content `offsets_wavefronts`: `edit_wavefronts_align` with `max_distance` the sum of the two
lengths; the pair of the score and the CIGAR written. -/
def wfa_edit_alignment_fpga (fuel : Nat) (offsets_wavefronts : Int → Int)
    (pattern text : List Char) : Option (Nat × List Char) :=
  (edit_wavefronts_align fuel offsets_wavefronts pattern pattern.length text text.length
    ((pattern.length : Int) + text.length)).map fun r => (r.2.2, r.2.1)

end FPGA

/-! ## Reference notions: edit distance, edit paths, furthest offsets, script walks -/

/-- The Levenshtein edit distance with unit costs: the least number of single-symbol
insertions, deletions and substitutions that turn `xs` into `ys`. -/
def lev (xs ys : List Char) : Nat := levenshtein Levenshtein.defaultCost xs ys

/-- Edit paths from `(0,0)` on the unbounded grid of pattern position `v` and text position
`h`: `Reach P T d v h` says `(v,h)` is reached with exactly `d` edit operations.  A diagonal
step across equal symbols inside the rectangle is free; a substitution, an insertion
(`h` advances) and a deletion (`v` advances) cost one each. -/
inductive Reach (P T : List Char) : Nat → Nat → Nat → Prop
  | start : Reach P T 0 0 0
  | mtch {d v h : Nat} : Reach P T d v h → v < P.length → h < T.length → P[v]? = T[h]? →
      Reach P T d (v + 1) (h + 1)
  | sub {d v h : Nat} : Reach P T d v h → Reach P T (d + 1) (v + 1) (h + 1)
  | ins {d v h : Nat} : Reach P T d v h → Reach P T (d + 1) v (h + 1)
  | del {d v h : Nat} : Reach P T d v h → Reach P T (d + 1) (v + 1) h

/-- Greedy run along diagonal `k` from offset `o` in unbounded arithmetic: the offset
where the run of equal symbols stops. -/
def ext_run (P T : List Char) : Nat → Int → Int → Int
  | 0, _, o => o
  | fuel + 1, k, o =>
    if o - k < P.length ∧ o < T.length ∧ char_at P (o - k) = char_at T o then
      ext_run P T fuel k (o + 1)
    else o

/-- Offset reached from `o` on diagonal `k` by the greedy run. -/
def ext (P T : List Char) (k o : Int) : Int := ext_run P T ((T.length : Int) - o).toNat k o

/-- The recurrence of the compute step in unbounded arithmetic: the start offset of
diagonal `k` in generation `d + 1` from the offsets `w` of generation `d`, whose diagonals
are `-d .. d`; an absent neighbour contributes `-1`. -/
def next_start (w : Int → Int) (d : Nat) (k : Int) : Int :=
  max (max (if -(d : Int) ≤ k - 1 ∧ k - 1 ≤ d then w (k - 1) + 1 else -1)
           (if -(d : Int) ≤ k ∧ k ≤ d then w k + 1 else -1))
      (if -(d : Int) ≤ k + 1 ∧ k + 1 ≤ d then w (k + 1) else -1)

/-- Offset of diagonal `k` in generation `d` before the extend step. -/
def furthest_start (P T : List Char) : Nat → Int → Int
  | 0, _ => 0
  | d + 1, k => next_start (fun j => ext P T j (furthest_start P T d j)) d k

/-- Offset of diagonal `k` in generation `d` after the extend step. -/
def furthest (P T : List Char) (d : Nat) (k : Int) : Int := ext P T k (furthest_start P T d k)

/-- Walk of a script from `(v,h)` towards the origin: `'M'` and `'X'` move both coordinates
back by one, `'I'` moves `h` back, `'D'` moves `v` back.  Every step must start and end
inside the rectangle `[0,m] × [0,n]`, `'M'` must land on equal symbols, `'X'` on different
ones, and no other symbol may occur.  Returns the position where the walk ends. -/
def walk_back (pattern text : List Char) : List Char → Nat → Nat → Option (Nat × Nat)
  | [], v, h => some (v, h)
  | c :: s, v, h =>
    if c = 'M' then
      if 0 < v ∧ v ≤ pattern.length ∧ 0 < h ∧ h ≤ text.length ∧
          pattern[v - 1]? = text[h - 1]? then
        walk_back pattern text s (v - 1) (h - 1) else none
    else if c = 'X' then
      if 0 < v ∧ v ≤ pattern.length ∧ 0 < h ∧ h ≤ text.length ∧
          pattern[v - 1]? ≠ text[h - 1]? then
        walk_back pattern text s (v - 1) (h - 1) else none
    else if c = 'I' then
      if v ≤ pattern.length ∧ 0 < h ∧ h ≤ text.length then
        walk_back pattern text s v (h - 1) else none
    else if c = 'D' then
      if 0 < v ∧ v ≤ pattern.length ∧ h ≤ text.length then
        walk_back pattern text s (v - 1) h else none
    else none

/-- Replay of a script from `(v,h)` forwards: `'M'` and `'X'` advance both coordinates,
`'I'` advances `h`, `'D'` advances `v`.  `'M'` must stand on equal symbols, `'X'` on different
ones, and no step may leave the rectangle.  Returns the position where the replay ends. -/
def replay (pattern text : List Char) : List Char → Nat → Nat → Option (Nat × Nat)
  | [], v, h => some (v, h)
  | c :: s, v, h =>
    if c = 'M' then
      if v < pattern.length ∧ h < text.length ∧ pattern[v]? = text[h]? then
        replay pattern text s (v + 1) (h + 1) else none
    else if c = 'X' then
      if v < pattern.length ∧ h < text.length ∧ pattern[v]? ≠ text[h]? then
        replay pattern text s (v + 1) (h + 1) else none
    else if c = 'I' then
      if h < text.length then replay pattern text s v (h + 1) else none
    else if c = 'D' then
      if v < pattern.length then replay pattern text s (v + 1) h else none
    else none

/-- Number of symbols of a script other than `'M'`. -/
def non_match_count (s : List Char) : Nat := (s.filter (fun c => c ≠ 'M')).length

/-- One single-symbol edit of a sequence: the insertion of a symbol, the deletion of a
symbol, or the substitution of a symbol by another, at any position. -/
inductive edit_step : List Char → List Char → Prop
  | ins (a b : List Char) (c : Char) : edit_step (a ++ b) (a ++ c :: b)
  | del (a b : List Char) (c : Char) : edit_step (a ++ c :: b) (a ++ b)
  | sub (a b : List Char) (c c' : Char) : edit_step (a ++ c :: b) (a ++ c' :: b)

/-- `edit_chain n xs ys`: `n` single-symbol edits turn `xs` into `ys`. -/
inductive edit_chain : Nat → List Char → List Char → Prop
  | refl (xs : List Char) : edit_chain 0 xs xs
  | step {n : Nat} {xs ys zs : List Char} : edit_step xs ys → edit_chain n ys zs →
      edit_chain (n + 1) xs zs

/-! ## Predicates on the two stores -/

/-- The generation slot `wf` has the range `[-d, d]` and holds the offsets `w` on it. -/
def CPU.gen_holds (wf : CPU.edit_wavefront_t) (d : Nat) (w : Int → Int) : Prop :=
  wf.lo = -(d : Int) ∧ wf.hi = d ∧ ∀ k : Int, -(d : Int) ≤ k → k ≤ d → wf.offsets k = w k

/-- The dense buffer holds the offsets `w` in the cells of generation `d`. -/
def FPGA.gen_holds (offsets_wavefronts : Int → Int) (d : Nat) (w : Int → Int) : Prop :=
  ∀ k : Int, -(d : Int) ≤ k → k ≤ d → offsets_wavefronts (FPGA.OFFSET_IDX d k) = w k

/-- The amortized-growth run returns `score` and `cigar`: every sufficient amount of fuel for
the backtrace loop gives this result. -/
def CPU.returns (pattern text : List Char) (score : Nat) (cigar : List Char) : Prop :=
  ∃ fuel0 : Nat, ∀ fuel : Nat, fuel0 ≤ fuel →
    CPU.wfa_edit_alignment_cpu fuel pattern text = some (score, cigar)

/-- The dense run on a buffer with initial content `offsets_wavefronts` returns `score` and
`cigar`: every sufficient amount of fuel for the backtrace loop gives this result. -/
def FPGA.returns (offsets_wavefronts : Int → Int) (pattern text : List Char) (score : Nat)
    (cigar : List Char) : Prop :=
  ∃ fuel0 : Nat, ∀ fuel : Nat, fuel0 ≤ fuel →
    FPGA.wfa_edit_alignment_fpga fuel offsets_wavefronts pattern text = some (score, cigar)

/-- Every cell of the buffer holds a value of the 16-bit offset type. -/
def FPGA.cells_in_range (offsets_wavefronts : Int → Int) : Prop :=
  ∀ i : Int, -32768 ≤ offsets_wavefronts i ∧ offsets_wavefronts i ≤ 32767

/-- The state in which `edit_wavefronts_align` (amortized-growth variant, on a store fresh
from `edit_wavefronts_init`) leaves its driver loop: the final `distance` and the store. -/
def CPU.driver_loop (pattern text : List Char) : Nat × CPU.edit_wavefronts_t :=
  let wavefronts := CPU.edit_wavefronts_allocate_wavefront
    (CPU.edit_wavefronts_init pattern.length text.length) 0 0 0
  CPU.align_for pattern pattern.length text text.length
    (EWAVEFRONT_DIAGONAL text.length pattern.length)
    (ABS (EWAVEFRONT_DIAGONAL text.length pattern.length))
    (to_offset (EWAVEFRONT_OFFSET text.length pattern.length))
    ((pattern.length : Int) + text.length).toNat 0
    { wavefronts with
      wavefronts := Function.update wavefronts.wavefronts 0
        { wavefronts.wavefronts 0 with
          offsets := Function.update (wavefronts.wavefronts 0).offsets 0 0 } }

/-- The state in which `edit_wavefronts_align` (dense variant, on a buffer with the initial
content `offsets_wavefronts`) leaves its driver loop: the final `distance` and the buffer. -/
def FPGA.driver_loop (offsets_wavefronts : Int → Int) (pattern text : List Char) :
    Nat × (Int → Int) :=
  FPGA.align_for pattern pattern.length text text.length
    (EWAVEFRONT_DIAGONAL text.length pattern.length)
    (ABS (EWAVEFRONT_DIAGONAL text.length pattern.length))
    (to_offset (EWAVEFRONT_OFFSET text.length pattern.length))
    ((pattern.length : Int) + text.length).toNat 0 (Function.update offsets_wavefronts 0 0)

/-! ## Cell accessors, backtrace reads, extend steps and common prefixes -/

/-- The cell `wavefronts->wavefronts[distance].offsets[k]` of the amortized-growth store. -/
def CPU.offset_of (wavefronts : CPU.edit_wavefronts_t) (distance : Nat) (k : Int) : Int :=
  (wavefronts.wavefronts distance).offsets k

/-- The cell `offsets_wavefronts[OFFSET_IDX(distance,k)]` of the dense buffer. -/
def FPGA.offset_of (offsets_wavefronts : Int → Int) (distance : Nat) (k : Int) : Int :=
  offsets_wavefronts (FPGA.OFFSET_IDX distance k)

/-- Indices of `offsets_wavefronts` read by the `while (distance > 0)` loop of
`edit_wavefronts_backtrace` (dense variant), in the order of the reads.  In each test
`lo <= j && j <= hi && offset == offsets[j]` the cell is read only when the two range tests
before it hold. -/
def FPGA.backtrace_reads (offsets_wavefronts : Int → Int) : Nat → Int → Int → Nat → List Int
  | _, _, _, 0 => []
  | 0, _, _, _ + 1 => []
  | fuel + 1, k, offset, distance_minus_one + 1 =>
    let distance : Int := (distance_minus_one : Int) + 1
    let offsets := FPGA.OFFSET_IDX (distance - 1) 0
    let lo := FPGA.LO_IDX distance
    let hi := FPGA.HI_IDX distance
    let reads_d := if lo ≤ k + 1 ∧ k + 1 ≤ hi then [offsets + (k + 1)] else []
    let reads_i := if lo ≤ k - 1 ∧ k - 1 ≤ hi then [offsets + (k - 1)] else []
    let reads_x := if lo ≤ k ∧ k ≤ hi then [offsets + k] else []
    if lo ≤ k + 1 ∧ k + 1 ≤ hi ∧ offset = offsets_wavefronts (offsets + (k + 1)) then
      reads_d ++ FPGA.backtrace_reads offsets_wavefronts fuel (k + 1) offset distance_minus_one
    else if lo ≤ k - 1 ∧ k - 1 ≤ hi ∧ offset = offsets_wavefronts (offsets + (k - 1)) + 1 then
      reads_d ++ reads_i ++
        FPGA.backtrace_reads offsets_wavefronts fuel (k - 1) (to_offset (offset - 1))
          distance_minus_one
    else if lo ≤ k ∧ k ≤ hi ∧ offset = offsets_wavefronts (offsets + k) + 1 then
      reads_d ++ reads_i ++ reads_x ++
        FPGA.backtrace_reads offsets_wavefronts fuel k (to_offset (offset - 1))
          distance_minus_one
    else
      reads_d ++ reads_i ++ reads_x ++
        FPGA.backtrace_reads offsets_wavefronts fuel k (to_offset (offset - 1))
          (distance_minus_one + 1)

/-- Indices of `offsets_wavefronts` read by `edit_wavefronts_backtrace` (dense variant) within
`fuel` iterations of its first loop: the cell of the target, then the reads of the loop. -/
def FPGA.edit_wavefronts_backtrace_reads (fuel : Nat) (offsets_wavefronts : Int → Int)
    (target_k : Int) (target_distance : Nat) : List Int :=
  FPGA.OFFSET_IDX target_distance target_k ::
    FPGA.backtrace_reads offsets_wavefronts fuel target_k
      (to_offset (offsets_wavefronts (FPGA.OFFSET_IDX target_distance target_k)))
      target_distance

/-- The calls of `edit_wavefronts_extend_wavefront` made by the driver loop of
`edit_wavefronts_align` (amortized-growth variant): for each iteration the generation
`distance`, the store before the call and the store after it. -/
def CPU.align_for_extends (pattern : List Char) (pattern_length : Int) (text : List Char)
    (text_length : Int) (target_k target_k_abs target_offset : Int) :
    Nat → Nat → CPU.edit_wavefronts_t →
      List (Nat × CPU.edit_wavefronts_t × CPU.edit_wavefronts_t)
  | 0, _, _ => []
  | remaining + 1, distance, wavefronts =>
    let extended :=
      CPU.edit_wavefronts_extend_wavefront wavefronts pattern pattern_length text text_length
        distance
    (distance, wavefronts, extended) ::
      if target_k_abs ≤ distance ∧
          (extended.wavefronts distance).offsets target_k = target_offset then
        []
      else
        CPU.align_for_extends pattern pattern_length text text_length target_k target_k_abs
          target_offset remaining (distance + 1)
          (CPU.edit_wavefronts_compute_wavefront extended (distance + 1))

/-- The extend steps of one run of `edit_wavefronts_align` (amortized-growth variant) on a
store fresh from `edit_wavefronts_init`. -/
def CPU.extend_steps (pattern text : List Char) :
    List (Nat × CPU.edit_wavefronts_t × CPU.edit_wavefronts_t) :=
  let wavefronts := CPU.edit_wavefronts_allocate_wavefront
    (CPU.edit_wavefronts_init pattern.length text.length) 0 0 0
  CPU.align_for_extends pattern pattern.length text text.length
    (EWAVEFRONT_DIAGONAL text.length pattern.length)
    (ABS (EWAVEFRONT_DIAGONAL text.length pattern.length))
    (to_offset (EWAVEFRONT_OFFSET text.length pattern.length))
    ((pattern.length : Int) + text.length).toNat 0
    { wavefronts with
      wavefronts := Function.update wavefronts.wavefronts 0
        { wavefronts.wavefronts 0 with
          offsets := Function.update (wavefronts.wavefronts 0).offsets 0 0 } }

/-- Length of the longest common prefix of two sequences. -/
def lcp : List Char → List Char → Nat
  | a :: s, b :: t => if a = b then lcp s t + 1 else 0
  | _, _ => 0

/-- Stated from the specification: the recurrence with its boundary rules, relating the
offsets `cur` of a generation with range `[lo, hi]` to the offsets `next` of the following
generation.  An absent neighbour is never selected by `max`; for `lo = hi` both boundary
rules give `next lo = cur lo + 1`. -/
def spec_recurrence (cur next : Int → Int) (lo hi : Int) : Prop :=
  next (lo - 1) = cur lo ∧
  next lo = (if lo + 1 ≤ hi then max (cur lo + 1) (cur (lo + 1)) else cur lo + 1) ∧
  (∀ k : Int, lo < k → k < hi →
    next k = max (max (cur k + 1) (cur (k - 1) + 1)) (cur (k + 1))) ∧
  next hi = (if hi - 1 ≥ lo then max (cur hi) (cur (hi - 1)) else cur hi) + 1 ∧
  next (hi + 1) = cur hi + 1

/-! ## Result files and the environment flags of the drivers -/

/-- Library function `strcmp` on strings given as lists of `char`: `0` exactly when the two
strings are equal, otherwise the sign of the first difference. -/
def strcmp : List Char → List Char → Int
  | [], [] => 0
  | [], _ :: _ => -1
  | _ :: _, [] => 1
  | a :: s, b :: t => if a = b then strcmp s t else if a.toNat < b.toNat then -1 else 1

/-- The `ALIGNED` block of `main` (dense variant).  `saligned` is the result of
`getenv("ALIGNED")`, `none` for a null pointer.  The result is `none` when `main` returns
`usage(name)` and otherwise the value given to `aligned`. -/
def FPGA.main_aligned (saligned : Option (List Char)) : Option Bool :=
  let aux_aligned := true
  match saligned with
  | none => some aux_aligned
  | some saligned =>
    if strcmp saligned ['0'] ≠ 0 then some false
    else if strcmp saligned ['1'] ≠ 0 then some true
    else none

/-- The `DEBUG` block of `main` (dense variant), written with `!strcmp`: `none` when `main`
returns `usage(name)` and otherwise the value given to `debug`. -/
def FPGA.main_debug (sdebug : Option (List Char)) : Option Bool :=
  let aux_debug := false
  match sdebug with
  | none => some aux_debug
  | some sdebug =>
    if strcmp sdebug ['0'] = 0 then some false
    else if strcmp sdebug ['1'] = 0 then some true
    else none

/-- Library function `isspace`: the characters that the `%d` conversion skips. -/
def isspace (c : Char) : Bool :=
  c = ' ' || c = '\t' || c = '\n' || c = '\r' || c.toNat = 11 || c.toNat = 12

/-- The run of decimal digits at the head of the unread content: the value accumulated and
the content left unread. -/
def scan_digits : List Char → Nat → Nat × List Char
  | [], acc => (acc, [])
  | c :: rest, acc =>
    if c.isDigit then scan_digits rest (10 * acc + (c.toNat - 48)) else (acc, c :: rest)

/-- A non-empty run of decimal digits at the head of the unread content. -/
def scan_number (content : List Char) : Option (Nat × List Char) :=
  match content with
  | [] => none
  | c :: _ => if c.isDigit then some (scan_digits content 0) else none

/-- Library call `fscanf(ref_file, "%d", &score_ref)` on the unread content of the file:
white space is skipped, then an optional sign and a non-empty run of digits are read.  `none`
when the call does not return `1`, else the integer read and the content left unread. -/
def fscanf_d (content : List Char) : Option (Int × List Char) :=
  match content.dropWhile isspace with
  | [] => none
  | c :: rest =>
    if c = '-' then (scan_number rest).map fun r => (-(r.1 : Int), r.2)
    else if c = '+' then (scan_number rest).map fun r => ((r.1 : Int), r.2)
    else (scan_number (c :: rest)).map fun r => ((r.1 : Int), r.2)

/-- Library call `fgetc(ref_file)`: the next character, `none` for `EOF`, and the content
left unread. -/
def fgetc : List Char → Option Char × List Char
  | [] => (none, [])
  | c :: rest => (some c, rest)

/-- Library call `fprintf(result_file, "%d", score)`: the characters written. -/
def fprintf_d (score : Int) : List Char :=
  if score < 0 then '-' :: Nat.toDigits 10 score.natAbs else Nat.toDigits 10 score.natAbs

/-- The `while` loop of `edit_wavefronts_check` on the unread content of the reference file.
`none` when the body returns `false`; otherwise the values of `ref_ch` (`none` for `EOF`) and
of `i` with which the loop is left.  The body never changes `i`. -/
def check_while (cigar : List Char) (cigar_length : Int) (i : Int) :
    List Char → Option (Option Char × Int)
  | [] => some (none, i)
  | ref_ch :: rest =>
    if ref_ch ≠ '\n' ∧ i < cigar_length then
      if some ref_ch ≠ char_at cigar i then none
      else check_while cigar cigar_length i rest
    else some (some ref_ch, i)

/-- Source function `edit_wavefronts_check` (the same text in both source files).
`ref_file` is the content of the file `filename`, `none` when `fopen` fails. -/
def edit_wavefronts_check (cigar : List Char) (cigar_length : Int) (score : Int)
    (ref_file : Option (List Char)) : Bool :=
  match ref_file with
  | none => false
  | some content =>
    -- Read reference score
    match fscanf_d content with
    | none => false
    | some (score_ref, content) =>
      -- Check score
      if score ≠ score_ref then false
      else
        -- Skip newline
        let content := (fgetc content).2
        match check_while cigar cigar_length 0 content with
        | none => false
        | some (ref_ch, i) =>
          -- Check CIGAR length
          if ref_ch ≠ none ∨ i ≠ cigar_length then false else true

/-- Source function `edit_wavefronts_write_result` (the same text in both source files) when
`fopen` succeeds: the content written to the file `filename`. -/
def edit_wavefronts_write_result (cigar : List Char) (cigar_length : Int) (score : Int) :
    List Char :=
  fprintf_d score ++ ['\n'] ++ cigar.take cigar_length.toNat

/-! ## Compute steps, dense extend steps, predecessors consulted, and the drivers -/

/-- The calls of `edit_wavefronts_compute_wavefront` made by the driver loop of
`edit_wavefronts_align` (amortized-growth variant): for each the value of `distance` in that
iteration (the call computes generation `distance + 1`), the store before the call, which is
the store left by the extend step of generation `distance`, and the store after it. -/
def CPU.align_for_computes (pattern : List Char) (pattern_length : Int) (text : List Char)
    (text_length : Int) (target_k target_k_abs target_offset : Int) :
    Nat → Nat → CPU.edit_wavefronts_t →
      List (Nat × CPU.edit_wavefronts_t × CPU.edit_wavefronts_t)
  | 0, _, _ => []
  | remaining + 1, distance, wavefronts =>
    let extended :=
      CPU.edit_wavefronts_extend_wavefront wavefronts pattern pattern_length text text_length
        distance
    if target_k_abs ≤ distance ∧
        (extended.wavefronts distance).offsets target_k = target_offset then
      []
    else
      (distance, extended, CPU.edit_wavefronts_compute_wavefront extended (distance + 1)) ::
        CPU.align_for_computes pattern pattern_length text text_length target_k target_k_abs
          target_offset remaining (distance + 1)
          (CPU.edit_wavefronts_compute_wavefront extended (distance + 1))

/-- The compute steps of one run of `edit_wavefronts_align` (amortized-growth variant) on a
store fresh from `edit_wavefronts_init`. -/
def CPU.compute_steps (pattern text : List Char) :
    List (Nat × CPU.edit_wavefronts_t × CPU.edit_wavefronts_t) :=
  let wavefronts := CPU.edit_wavefronts_allocate_wavefront
    (CPU.edit_wavefronts_init pattern.length text.length) 0 0 0
  CPU.align_for_computes pattern pattern.length text text.length
    (EWAVEFRONT_DIAGONAL text.length pattern.length)
    (ABS (EWAVEFRONT_DIAGONAL text.length pattern.length))
    (to_offset (EWAVEFRONT_OFFSET text.length pattern.length))
    ((pattern.length : Int) + text.length).toNat 0
    { wavefronts with
      wavefronts := Function.update wavefronts.wavefronts 0
        { wavefronts.wavefronts 0 with
          offsets := Function.update (wavefronts.wavefronts 0).offsets 0 0 } }

/-- The calls of `edit_wavefronts_extend_wavefront` made by the driver loop of
`edit_wavefronts_align` (dense variant): for each iteration the generation `distance`, the
buffer before the call and the buffer after it. -/
def FPGA.align_for_extends (pattern : List Char) (pattern_length : Int) (text : List Char)
    (text_length : Int) (target_k target_k_abs target_offset : Int) :
    Nat → Nat → (Int → Int) → List (Nat × (Int → Int) × (Int → Int))
  | 0, _, _ => []
  | remaining + 1, distance, offsets_wavefronts =>
    let extended :=
      FPGA.edit_wavefronts_extend_wavefront offsets_wavefronts pattern pattern_length text
        text_length distance
    (distance, offsets_wavefronts, extended) ::
      if target_k_abs ≤ distance ∧
          extended (FPGA.OFFSET_IDX distance target_k) = target_offset then
        []
      else
        FPGA.align_for_extends pattern pattern_length text text_length target_k target_k_abs
          target_offset remaining (distance + 1)
          (FPGA.edit_wavefronts_compute_wavefront extended (distance + 1))

/-- The extend steps of one run of `edit_wavefronts_align` (dense variant) on a buffer with
the initial content `offsets_wavefronts`. -/
def FPGA.extend_steps (offsets_wavefronts : Int → Int) (pattern text : List Char) :
    List (Nat × (Int → Int) × (Int → Int)) :=
  FPGA.align_for_extends pattern pattern.length text text.length
    (EWAVEFRONT_DIAGONAL text.length pattern.length)
    (ABS (EWAVEFRONT_DIAGONAL text.length pattern.length))
    (to_offset (EWAVEFRONT_OFFSET text.length pattern.length))
    ((pattern.length : Int) + text.length).toNat 0 (Function.update offsets_wavefronts 0 0)

/-- The predecessors consulted by the `while (distance > 0)` loop of
`edit_wavefronts_backtrace` (amortized-growth variant), in order: for each cell
`offsets[j]` of generation `distance - 1` that a rule reads, the pair of that generation and
the diagonal `j`.  A rule reads its cell only when its two range tests hold. -/
def CPU.backtrace_consults (wavefronts : CPU.edit_wavefronts_t) :
    Nat → Int → Int → Nat → List (Nat × Int)
  | _, _, _, 0 => []
  | 0, _, _, _ + 1 => []
  | fuel + 1, k, offset, distance_minus_one + 1 =>
    let wavefront := wavefronts.wavefronts distance_minus_one
    let offsets := wavefront.offsets
    let reads_d :=
      if wavefront.lo ≤ k + 1 ∧ k + 1 ≤ wavefront.hi then [(distance_minus_one, k + 1)] else []
    let reads_i :=
      if wavefront.lo ≤ k - 1 ∧ k - 1 ≤ wavefront.hi then [(distance_minus_one, k - 1)] else []
    let reads_x :=
      if wavefront.lo ≤ k ∧ k ≤ wavefront.hi then [(distance_minus_one, k)] else []
    if wavefront.lo ≤ k + 1 ∧ k + 1 ≤ wavefront.hi ∧ offset = offsets (k + 1) then
      reads_d ++ CPU.backtrace_consults wavefronts fuel (k + 1) offset distance_minus_one
    else if wavefront.lo ≤ k - 1 ∧ k - 1 ≤ wavefront.hi ∧ offset = offsets (k - 1) + 1 then
      reads_d ++ reads_i ++
        CPU.backtrace_consults wavefronts fuel (k - 1) (to_offset (offset - 1))
          distance_minus_one
    else if wavefront.lo ≤ k ∧ k ≤ wavefront.hi ∧ offset = offsets k + 1 then
      reads_d ++ reads_i ++ reads_x ++
        CPU.backtrace_consults wavefronts fuel k (to_offset (offset - 1)) distance_minus_one
    else
      reads_d ++ reads_i ++ reads_x ++
        CPU.backtrace_consults wavefronts fuel k (to_offset (offset - 1))
          (distance_minus_one + 1)

/-- The predecessors consulted by the `while (distance > 0)` loop of
`edit_wavefronts_backtrace` (dense variant), in order: for each cell `offsets[j]` of
generation `distance - 1` that a rule reads, the pair of that generation and the diagonal
`j`.  A rule reads its cell only when its two range tests hold. -/
def FPGA.backtrace_consults (offsets_wavefronts : Int → Int) :
    Nat → Int → Int → Nat → List (Nat × Int)
  | _, _, _, 0 => []
  | 0, _, _, _ + 1 => []
  | fuel + 1, k, offset, distance_minus_one + 1 =>
    let distance : Int := (distance_minus_one : Int) + 1
    let offsets := FPGA.OFFSET_IDX (distance - 1) 0
    let lo := FPGA.LO_IDX distance
    let hi := FPGA.HI_IDX distance
    let reads_d := if lo ≤ k + 1 ∧ k + 1 ≤ hi then [(distance_minus_one, k + 1)] else []
    let reads_i := if lo ≤ k - 1 ∧ k - 1 ≤ hi then [(distance_minus_one, k - 1)] else []
    let reads_x := if lo ≤ k ∧ k ≤ hi then [(distance_minus_one, k)] else []
    if lo ≤ k + 1 ∧ k + 1 ≤ hi ∧ offset = offsets_wavefronts (offsets + (k + 1)) then
      reads_d ++ FPGA.backtrace_consults offsets_wavefronts fuel (k + 1) offset
        distance_minus_one
    else if lo ≤ k - 1 ∧ k - 1 ≤ hi ∧ offset = offsets_wavefronts (offsets + (k - 1)) + 1 then
      reads_d ++ reads_i ++
        FPGA.backtrace_consults offsets_wavefronts fuel (k - 1) (to_offset (offset - 1))
          distance_minus_one
    else if lo ≤ k ∧ k ≤ hi ∧ offset = offsets_wavefronts (offsets + k) + 1 then
      reads_d ++ reads_i ++ reads_x ++
        FPGA.backtrace_consults offsets_wavefronts fuel k (to_offset (offset - 1))
          distance_minus_one
    else
      reads_d ++ reads_i ++ reads_x ++
        FPGA.backtrace_consults offsets_wavefronts fuel k (to_offset (offset - 1))
          (distance_minus_one + 1)

/-- The predecessors consulted by one backtrace of the amortized-growth variant from the
state in which its driver loop stops, within `fuel` iterations. -/
def CPU.run_backtrace_consults (fuel : Nat) (pattern text : List Char) : List (Nat × Int) :=
  CPU.backtrace_consults (CPU.driver_loop pattern text).2 fuel
    (EWAVEFRONT_DIAGONAL text.length pattern.length)
    (to_offset (((CPU.driver_loop pattern text).2.wavefronts
      (CPU.driver_loop pattern text).1).offsets (EWAVEFRONT_DIAGONAL text.length pattern.length)))
    (CPU.driver_loop pattern text).1

/-- The predecessors consulted by one backtrace of the dense variant from the state in which
its driver loop stops, within `fuel` iterations. -/
def FPGA.run_backtrace_consults (fuel : Nat) (offsets_wavefronts : Int → Int)
    (pattern text : List Char) : List (Nat × Int) :=
  FPGA.backtrace_consults (FPGA.driver_loop offsets_wavefronts pattern text).2 fuel
    (EWAVEFRONT_DIAGONAL text.length pattern.length)
    (to_offset ((FPGA.driver_loop offsets_wavefronts pattern text).2
      (FPGA.OFFSET_IDX (FPGA.driver_loop offsets_wavefronts pattern text).1
        (EWAVEFRONT_DIAGONAL text.length pattern.length))))
    (FPGA.driver_loop offsets_wavefronts pattern text).1

/-- Library constant `EXIT_SUCCESS`. -/
def EXIT_SUCCESS : Int := 0

/-- Library constant `EXIT_FAILURE`. -/
def EXIT_FAILURE : Int := 1

/-- The wavefront set of the dense variant as far as `edit_wavefronts_init` sets it: the two
pointers, `none` for a null pointer. -/
structure FPGA.edit_wavefronts_fpga_t where
  offsets : Option Nat
  edit_cigar : Option Nat

/-- Source function `edit_wavefronts_init` (dense variant).  `alloc_offsets` and
`alloc_edit_cigar` are the results of the two allocation calls (`aligned_alloc` in the
aligned branch, `calloc` and `malloc` in the other), `none` for a null pointer.  Returns the
structure as left by the function and the value returned. -/
def FPGA.edit_wavefronts_init (wavefronts : FPGA.edit_wavefronts_fpga_t) (aligned : Bool)
    (alloc_offsets alloc_edit_cigar : Option Nat) : FPGA.edit_wavefronts_fpga_t × Int :=
  if aligned then
    -- Allocate wavefronts offsets aligned to page size
    let wavefronts := { wavefronts with offsets := alloc_offsets }
    if wavefronts.offsets = none then (wavefronts, EXIT_FAILURE)
    else
      -- Allocate CIGAR aligned to page size
      let wavefronts := { wavefronts with edit_cigar := alloc_edit_cigar }
      if wavefronts.edit_cigar = none then (wavefronts, EXIT_FAILURE)
      else (wavefronts, EXIT_SUCCESS)
  else
    -- Allocate wavefronts offsets
    let wavefronts := { wavefronts with offsets := alloc_offsets }
    if wavefronts.offsets = none then (wavefronts, EXIT_FAILURE)
    else
      -- Allocate CIGAR
      let wavefronts := { wavefronts with edit_cigar := alloc_edit_cigar }
      if wavefronts.offsets = none then (wavefronts, EXIT_FAILURE)
      else (wavefronts, EXIT_SUCCESS)

/-- The "Check results" step of one repetition of `main` (the same text in both source
files).  `check` says whether `CHECK` is set, `ref_file` is the content of the file it names.
The result is `some EXIT_FAILURE` when `main` returns from the repetition and `none` when the
repetition goes on to the write step. -/
def main_check_results (check : Bool) (cigar : List Char) (cigar_length : Int) (score : Int)
    (ref_file : Option (List Char)) : Option Int :=
  if check then
    if edit_wavefronts_check cigar cigar_length score ref_file then some EXIT_FAILURE
    else none
  else none

/-! ## Levenshtein distance: basic facts -/

theorem lev_nil_nil : lev [] [] = 0 := by simp [lev]

theorem lev_nil_cons (y : Char) (ys : List Char) : lev [] (y :: ys) = 1 + lev [] ys := by
  simp [lev]

theorem lev_cons_nil (x : Char) (xs : List Char) : lev (x :: xs) [] = 1 + lev xs [] := by
  simp [lev]

theorem lev_cons_cons (x : Char) (xs : List Char) (y : Char) (ys : List Char) :
    lev (x :: xs) (y :: ys) =
      min (1 + lev xs (y :: ys)) (min (1 + lev (x :: xs) ys)
        ((if x = y then 0 else 1) + lev xs ys)) := by
  simp [lev]

theorem lev_nil_left (ys : List Char) : lev [] ys = ys.length := by
  induction ys with
  | nil => exact lev_nil_nil
  | cons y ys ih => rw [lev_nil_cons, ih, List.length_cons]; omega

theorem lev_nil_right (xs : List Char) : lev xs [] = xs.length := by
  induction xs with
  | nil => exact lev_nil_nil
  | cons x xs ih => rw [lev_cons_nil, ih, List.length_cons]; omega

theorem lev_cons_left_le (x : Char) (xs ys : List Char) : lev (x :: xs) ys ≤ 1 + lev xs ys := by
  cases ys with
  | nil => rw [lev_cons_nil]
  | cons y ys => rw [lev_cons_cons]; omega

theorem lev_cons_right_le (xs : List Char) (y : Char) (ys : List Char) :
    lev xs (y :: ys) ≤ 1 + lev xs ys := by
  cases xs with
  | nil => rw [lev_nil_cons]
  | cons x xs => rw [lev_cons_cons]; omega

theorem lev_symm (xs ys : List Char) : lev xs ys = lev ys xs := by
  induction xs generalizing ys with
  | nil => rw [lev_nil_left, lev_nil_right]
  | cons x xs ihx =>
    induction ys with
    | nil => rw [lev_nil_left, lev_nil_right]
    | cons y ys ihy =>
      rw [lev_cons_cons, lev_cons_cons, ihx (y :: ys), ihy, ihx ys]
      by_cases hxy : x = y
      · subst hxy; simp only [if_true]; omega
      · have hyx : ¬ y = x := fun h => hxy h.symm
        simp only [hxy, hyx, if_false]; omega

theorem lev_self (xs : List Char) : lev xs xs = 0 := by
  induction xs with
  | nil => exact lev_nil_nil
  | cons x xs ih => rw [lev_cons_cons, ih]; simp

theorem lev_le_max (xs ys : List Char) : lev xs ys ≤ max xs.length ys.length := by
  induction xs generalizing ys with
  | nil => rw [lev_nil_left]; simp
  | cons x xs ihx =>
    cases ys with
    | nil => rw [lev_nil_right]; simp
    | cons y ys =>
      rw [lev_cons_cons]
      have h := ihx ys
      simp only [List.length_cons]
      split_ifs <;> omega

theorem length_le_add_lev (xs ys : List Char) : ys.length ≤ xs.length + lev xs ys := by
  induction xs generalizing ys with
  | nil => rw [lev_nil_left]; omega
  | cons x xs ihx =>
    induction ys with
    | nil => simp
    | cons y ys ihy =>
      rw [lev_cons_cons]
      have h1 := ihx (y :: ys)
      have h2 := ihx ys
      simp only [List.length_cons] at *
      split_ifs <;> omega

theorem lev_append_le (xs ys as bs : List Char) :
    lev (xs ++ as) (ys ++ bs) ≤ lev xs ys + lev as bs := by
  induction xs generalizing ys with
  | nil =>
    induction ys with
    | nil => simp [lev_nil_nil]
    | cons y ys ihy =>
      have h := lev_cons_right_le ([] ++ as) y (ys ++ bs)
      rw [lev_nil_cons]
      simp only [List.cons_append, List.nil_append] at *
      omega
  | cons x xs ihx =>
    induction ys with
    | nil =>
      have h := lev_cons_left_le x (xs ++ as) ([] ++ bs)
      have h2 := ihx []
      rw [lev_cons_nil]
      simp only [List.cons_append, List.nil_append] at *
      omega
    | cons y ys ihy =>
      have h1 := ihx (y :: ys)
      have h2 := ihx ys
      simp only [List.cons_append] at *
      rw [lev_cons_cons, lev_cons_cons]
      omega

theorem lev_triangle (as bs cs : List Char) : lev as cs ≤ lev as bs + lev bs cs := by
  induction as generalizing bs cs with
  | nil =>
    have h := length_le_add_lev bs cs
    rw [lev_nil_left, lev_nil_left]; exact h
  | cons a as iha =>
    induction bs generalizing cs with
    | nil =>
      have h := lev_le_max (a :: as) cs
      rw [lev_nil_left, lev_nil_right]; omega
    | cons b bs ihb =>
      induction cs with
      | nil =>
        have h := length_le_add_lev (b :: bs) (a :: as)
        rw [lev_symm (a :: as) (b :: bs)]
        rw [lev_nil_right, lev_nil_right]; omega
      | cons c cs ihc =>
        have e1 := iha (b :: bs) (c :: cs)
        have e2 := ihb (c :: cs)
        have e3 := ihb cs
        have e4 := iha bs (c :: cs)
        have e5 := iha bs cs
        have hAB := lev_cons_cons a as b bs
        have hBC := lev_cons_cons b bs c cs
        have hAC := lev_cons_cons a as c cs
        have hs : (if a = c then 0 else 1) ≤
            (if a = b then 0 else 1) + (if b = c then 0 else 1) := by
          by_cases hab : a = b <;> by_cases hbc : b = c
          · simp [hab, hbc]
          · simp [hab, hbc]
          · simp [hab, hbc]
          · simp only [hab, hbc, if_false]; split_ifs <;> omega
        have h1 : (if a = b then 0 else 1) ≤ 1 := by split_ifs <;> omega
        have h2 : (if b = c then 0 else 1) ≤ 1 := by split_ifs <;> omega
        generalize (if a = b then 0 else 1) = sab at *
        generalize (if b = c then 0 else 1) = sbc at *
        generalize (if a = c then 0 else 1) = sac at *
        omega

/-! ## Edit paths and the edit distance -/

theorem reach_cast {P T : List Char} {d d' v h : Nat} (e : d = d') (r : Reach P T d v h) :
    Reach P T d' v h := e ▸ r

/-- Along an edit path the larger coordinate exceeds the smaller one, and the smaller of the
two lengths, by at most the number of edit operations. -/
theorem reach_bound {P T : List Char} {d v h : Nat} (r : Reach P T d v h) :
    max v h ≤ d + min (min v h) (min P.length T.length) := by
  induction r with
  | start => simp
  | mtch _ hv hh _ ih => omega
  | sub _ ih => omega
  | ins _ ih => omega
  | del _ ih => omega

theorem toList_getElem_length (l : List Char) (i : Nat) :
    l[i]?.toList.length = if i < l.length then 1 else 0 := by
  by_cases hi : i < l.length
  · simp [hi, List.getElem?_eq_getElem hi, Option.toList]
  · simp [hi, List.getElem?_eq_none (Nat.le_of_not_lt hi), Option.toList]

/-- Every edit path costs at least the edit distance of the prefixes it has consumed, plus one
for every diagonal step taken beyond both sequences. -/
theorem reach_lev_le {P T : List Char} {d v h : Nat} (r : Reach P T d v h) :
    lev (P.take v) (T.take h) + min (v - P.length) (h - T.length) ≤ d := by
  induction r with
  | start => simp [lev_nil_nil]
  | @mtch d v h _ hv hh heq ih =>
    have h1 := lev_append_le (P.take v) (T.take h) P[v]?.toList T[h]?.toList
    rw [← List.take_succ, ← List.take_succ] at h1
    have h0 : lev P[v]?.toList T[h]?.toList = 0 := by rw [heq]; exact lev_self _
    omega
  | @sub d v h _ ih =>
    have h1 := lev_append_le (P.take v) (T.take h) P[v]?.toList T[h]?.toList
    rw [← List.take_succ, ← List.take_succ] at h1
    have h2 := lev_le_max P[v]?.toList T[h]?.toList
    rw [toList_getElem_length, toList_getElem_length] at h2
    split_ifs at h2 <;> omega
  | @ins d v h _ ih =>
    have h1 := lev_append_le (P.take v) (T.take h) [] T[h]?.toList
    rw [← List.take_succ, List.append_nil, lev_nil_left, toList_getElem_length] at h1
    split_ifs at h1 <;> omega
  | @del d v h _ ih =>
    have h1 := lev_append_le (P.take v) (T.take h) P[v]?.toList []
    rw [← List.take_succ, List.append_nil, lev_nil_right, toList_getElem_length] at h1
    split_ifs at h1 <;> omega

/-- From any position inside the rectangle an edit path can be completed to the corner
`(m,n)` at the cost of the edit distance of the remaining suffixes. -/
theorem reach_complete {P T : List Char} (N : Nat) :
    ∀ (d v h : Nat), (P.length - v) + (T.length - h) = N → v ≤ P.length → h ≤ T.length →
      Reach P T d v h → Reach P T (d + lev (P.drop v) (T.drop h)) P.length T.length := by
  induction N using Nat.strong_induction_on with
  | _ N ih =>
    intro d v h hN hv hh r
    by_cases hvm : v = P.length
    · by_cases hhn : h = T.length
      · subst hvm hhn
        simpa [lev_nil_nil] using r
      · have hlt : h < T.length := by omega
        have r' := ih (N - 1) (by omega) (d + 1) v (h + 1) (by omega) hv (by omega) r.ins
        have hP : P.drop v = [] := List.drop_of_length_le (by omega)
        rw [List.drop_eq_getElem_cons hlt, hP, lev_nil_cons]
        rw [hP] at r'
        exact reach_cast (by omega) r'
    · have hvlt : v < P.length := by omega
      by_cases hhn : h = T.length
      · have r' := ih (N - 1) (by omega) (d + 1) (v + 1) h (by omega) (by omega) hh r.del
        have hT : T.drop h = [] := List.drop_of_length_le (by omega)
        rw [List.drop_eq_getElem_cons hvlt, hT, lev_cons_nil]
        rw [hT] at r'
        exact reach_cast (by omega) r'
      · have hlt : h < T.length := by omega
        have rD := ih (N - 1) (by omega) (d + 1) (v + 1) h (by omega) (by omega) hh r.del
        have rI := ih (N - 1) (by omega) (d + 1) v (h + 1) (by omega) hv (by omega) r.ins
        rw [List.drop_eq_getElem_cons hlt] at rD
        rw [List.drop_eq_getElem_cons hvlt] at rI
        rw [List.drop_eq_getElem_cons hvlt, List.drop_eq_getElem_cons hlt, lev_cons_cons]
        by_cases hc : P[v] = T[h]
        · have heq : P[v]? = T[h]? := by
            rw [List.getElem?_eq_getElem hvlt, List.getElem?_eq_getElem hlt, hc]
          have rM := ih (N - 2) (by omega) d (v + 1) (h + 1) (by omega) (by omega) (by omega)
            (r.mtch hvlt hlt heq)
          rw [if_pos hc]
          rcases Nat.lt_or_ge (1 + lev (P.drop (v + 1)) (T[h] :: T.drop (h + 1)))
              (min (1 + lev (P[v] :: P.drop (v + 1)) (T.drop (h + 1)))
                (0 + lev (P.drop (v + 1)) (T.drop (h + 1)))) with h1 | h1
          · exact reach_cast (by omega) rD
          · rcases Nat.lt_or_ge (1 + lev (P[v] :: P.drop (v + 1)) (T.drop (h + 1)))
                (0 + lev (P.drop (v + 1)) (T.drop (h + 1))) with h2 | h2
            · exact reach_cast (by omega) rI
            · exact reach_cast (by omega) rM
        · have rS := ih (N - 2) (by omega) (d + 1) (v + 1) (h + 1) (by omega) (by omega)
            (by omega) r.sub
          rw [if_neg hc]
          rcases Nat.lt_or_ge (1 + lev (P.drop (v + 1)) (T[h] :: T.drop (h + 1)))
              (min (1 + lev (P[v] :: P.drop (v + 1)) (T.drop (h + 1)))
                (1 + lev (P.drop (v + 1)) (T.drop (h + 1)))) with h1 | h1
          · exact reach_cast (by omega) rD
          · rcases Nat.lt_or_ge (1 + lev (P[v] :: P.drop (v + 1)) (T.drop (h + 1)))
                (1 + lev (P.drop (v + 1)) (T.drop (h + 1))) with h2 | h2
            · exact reach_cast (by omega) rI
            · exact reach_cast (by omega) rS

/-- The corner `(m,n)` is reached by an edit path of exactly the edit distance. -/
theorem reach_corner (P T : List Char) : Reach P T (lev P T) P.length T.length := by
  have r := @reach_complete P T _ 0 0 0 rfl (Nat.zero_le _) (Nat.zero_le _) Reach.start
  simpa using r

/-! ## The furthest-reaching offsets in unbounded arithmetic -/

theorem char_at_natCast (s : List Char) (i : Nat) : char_at s (i : Int) = s[i]? := by
  simp [char_at]

theorem ext_run_ge (P T : List Char) (f : Nat) (k o : Int) : o ≤ ext_run P T f k o := by
  induction f generalizing o with
  | zero => simp [ext_run]
  | succ f ih =>
    unfold ext_run
    split_ifs
    · have := ih (o + 1); omega
    · exact le_refl _

theorem ext_run_le (P T : List Char) (f : Nat) (k o : Int) :
    ext_run P T f k o ≤ max o T.length := by
  induction f generalizing o with
  | zero => simp [ext_run]
  | succ f ih =>
    unfold ext_run
    split_ifs with hc
    · have := ih (o + 1); omega
    · omega

theorem ext_run_stuck (P T : List Char) (f : Nat) (k o : Int)
    (hf : ((T.length : Int) - o).toNat ≤ f) :
    ¬ (ext_run P T f k o - k < P.length ∧ ext_run P T f k o < T.length ∧
        char_at P (ext_run P T f k o - k) = char_at T (ext_run P T f k o)) := by
  induction f generalizing o with
  | zero =>
    simp only [ext_run]
    intro hc
    omega
  | succ f ih =>
    unfold ext_run
    split_ifs with hc
    · exact ih (o + 1) (by omega)
    · exact hc

theorem ext_run_matches (P T : List Char) (f : Nat) (k o i : Int)
    (h1 : o ≤ i) (h2 : i < ext_run P T f k o) :
    i - k < P.length ∧ i < T.length ∧ char_at P (i - k) = char_at T i := by
  induction f generalizing o with
  | zero => simp only [ext_run] at h2; omega
  | succ f ih =>
    unfold ext_run at h2
    split_ifs at h2 with hc
    · by_cases hio : i = o
      · subst hio; exact hc
      · exact ih (o + 1) (by omega) h2
    · omega

theorem ext_run_reach {P T : List Char} {d : Nat} (f : Nat) (k o : Int) (v h : Nat)
    (hv : (h : Int) - v = k) (hh : (h : Int) = o) (r : Reach P T d v h) :
    ∃ v' h' : Nat, (h' : Int) = ext_run P T f k o ∧ (h' : Int) - v' = k ∧ Reach P T d v' h' := by
  induction f generalizing o v h with
  | zero => exact ⟨v, h, by simp [ext_run, hh], hv, r⟩
  | succ f ih =>
    unfold ext_run
    split_ifs with hc
    · obtain ⟨c1, c2, c3⟩ := hc
      have e1 : o - k = (v : Int) := by omega
      rw [e1, ← hh, char_at_natCast, char_at_natCast] at c3
      have r' := r.mtch (by omega) (by omega) c3
      exact ih (o + 1) (v + 1) (h + 1) (by push_cast; omega) (by push_cast; omega) r'
    · exact ⟨v, h, hh, hv, r⟩

theorem furthest_start_succ (P T : List Char) (d : Nat) (k : Int) :
    furthest_start P T (d + 1) k = next_start (furthest P T d) d k := rfl

theorem furthest_ge_start (P T : List Char) (d : Nat) (k : Int) :
    furthest_start P T d k ≤ furthest P T d k := ext_run_ge _ _ _ _ _

/-- The extend step stops only where the next pair of symbols is outside the rectangle or
differs. -/
theorem furthest_stuck (P T : List Char) (d : Nat) (k : Int) :
    ¬ (furthest P T d k - k < P.length ∧ furthest P T d k < T.length ∧
        char_at P (furthest P T d k - k) = char_at T (furthest P T d k)) :=
  ext_run_stuck _ _ _ _ _ (le_refl _)

/-- Between the start offset and the extended offset every pair of symbols matches. -/
theorem furthest_matches (P T : List Char) (d : Nat) (k i : Int)
    (h1 : furthest_start P T d k ≤ i) (h2 : i < furthest P T d k) :
    i - k < P.length ∧ i < T.length ∧ char_at P (i - k) = char_at T i :=
  ext_run_matches _ _ _ _ _ _ h1 h2

/-- The value of the recurrence is one of the candidates of the neighbours present. -/
theorem next_start_cases (w : Int → Int) (d : Nat) (k : Int)
    (hk1 : -(d : Int) - 1 ≤ k) (hk2 : k ≤ d + 1)
    (hw : ∀ j, -(d : Int) ≤ j → j ≤ d → 0 ≤ w j) :
    (-(d : Int) ≤ k + 1 ∧ k + 1 ≤ d ∧ next_start w d k = w (k + 1)) ∨
    (-(d : Int) ≤ k - 1 ∧ k - 1 ≤ d ∧ next_start w d k = w (k - 1) + 1) ∨
    (-(d : Int) ≤ k ∧ k ≤ d ∧ next_start w d k = w k + 1) := by
  have hA := hw (k - 1)
  have hB := hw k
  have hC := hw (k + 1)
  unfold next_start
  split_ifs <;> omega

/-- The value of the recurrence dominates the candidate of every neighbour present. -/
theorem next_start_ge (w : Int → Int) (d : Nat) (k : Int) :
    (-(d : Int) ≤ k + 1 → k + 1 ≤ d → w (k + 1) ≤ next_start w d k) ∧
    (-(d : Int) ≤ k - 1 → k - 1 ≤ d → w (k - 1) + 1 ≤ next_start w d k) ∧
    (-(d : Int) ≤ k → k ≤ d → w k + 1 ≤ next_start w d k) := by
  unfold next_start
  split_ifs <;> omega

/-- Soundness of the tables: each start offset and each extended offset of generation `d` is
the end of an edit path with `d` edit operations. -/
theorem furthest_sound (P T : List Char) (d : Nat) :
    ∀ k : Int, -(d : Int) ≤ k → k ≤ d →
      (∃ v h : Nat, (h : Int) = furthest_start P T d k ∧ (h : Int) - v = k ∧ Reach P T d v h) ∧
      (∃ v h : Nat, (h : Int) = furthest P T d k ∧ (h : Int) - v = k ∧ Reach P T d v h) := by
  induction d with
  | zero =>
    intro k h1 h2
    have hk : k = 0 := by omega
    subst hk
    have h0 : ∃ v h : Nat, (h : Int) = furthest_start P T 0 0 ∧ (h : Int) - v = 0 ∧
        Reach P T 0 v h := ⟨0, 0, by simp [furthest_start], by simp, Reach.start⟩
    refine ⟨h0, ?_⟩
    obtain ⟨v, h, e1, e2, r⟩ := h0
    exact ext_run_reach _ 0 _ v h e2 e1 r
  | succ d ih =>
    intro k h1 h2
    have hw : ∀ j, -(d : Int) ≤ j → j ≤ d → 0 ≤ furthest P T d j := by
      intro j hj1 hj2
      obtain ⟨v, h, e1, _, _⟩ := (ih j hj1 hj2).2
      omega
    have hs : ∃ v h : Nat, (h : Int) = furthest_start P T (d + 1) k ∧ (h : Int) - v = k ∧
        Reach P T (d + 1) v h := by
      rw [furthest_start_succ]
      rcases next_start_cases (furthest P T d) d k (by push_cast at h1; omega)
        (by push_cast at h2; omega) hw with ⟨c1, c2, e⟩ | ⟨c1, c2, e⟩ | ⟨c1, c2, e⟩
      · obtain ⟨v, h, e1, e2, r⟩ := (ih (k + 1) c1 c2).2
        exact ⟨v + 1, h, by rw [e, e1], by push_cast; omega, r.del⟩
      · obtain ⟨v, h, e1, e2, r⟩ := (ih (k - 1) c1 c2).2
        exact ⟨v, h + 1, by rw [e, ← e1]; push_cast; rfl, by push_cast; omega, r.ins⟩
      · obtain ⟨v, h, e1, e2, r⟩ := (ih k c1 c2).2
        exact ⟨v + 1, h + 1, by rw [e, ← e1]; push_cast; rfl, by push_cast; omega, r.sub⟩
    refine ⟨hs, ?_⟩
    obtain ⟨v, h, e1, e2, r⟩ := hs
    exact ext_run_reach _ k _ v h e2 e1 r

/-- Completeness of the tables: no edit path with `d` edit operations gets further along
its diagonal than the extended offset of generation `d`. -/
theorem furthest_complete {P T : List Char} {d v h : Nat} (r : Reach P T d v h) :
    (h : Int) ≤ furthest P T d ((h : Int) - v) := by
  induction r with
  | start => simpa [furthest_start] using furthest_ge_start P T 0 0
  | @mtch d v h r hv hh heq ih =>
    have e : (((h + 1 : Nat) : Int) - ((v + 1 : Nat) : Int)) = (h : Int) - v := by
      push_cast; omega
    rw [e]
    by_contra hlt
    have hW : furthest P T d ((h : Int) - v) = h := by push_cast at hlt; omega
    have hs := furthest_stuck P T d ((h : Int) - v)
    rw [hW] at hs
    apply hs
    have e2 : (h : Int) - ((h : Int) - v) = (v : Int) := by omega
    rw [e2, char_at_natCast, char_at_natCast]
    exact ⟨by omega, by omega, heq⟩
  | @sub d v h r ih =>
    have e : (((h + 1 : Nat) : Int) - ((v + 1 : Nat) : Int)) = (h : Int) - v := by
      push_cast; omega
    rw [e]
    have b := reach_bound r
    have h1 := furthest_ge_start P T (d + 1) ((h : Int) - v)
    rw [furthest_start_succ] at h1
    have h2 := (next_start_ge (furthest P T d) d ((h : Int) - v)).2.2 (by omega) (by omega)
    push_cast
    omega
  | @ins d v h r ih =>
    have b := reach_bound r
    have h1 := furthest_ge_start P T (d + 1) (((h + 1 : Nat) : Int) - v)
    rw [furthest_start_succ] at h1
    have h2 := (next_start_ge (furthest P T d) d (((h + 1 : Nat) : Int) - v)).2.1
      (by push_cast; omega) (by push_cast; omega)
    have e : ((h + 1 : Nat) : Int) - v - 1 = (h : Int) - v := by push_cast; omega
    rw [e] at h2
    push_cast at *
    omega
  | @del d v h r ih =>
    have b := reach_bound r
    have h1 := furthest_ge_start P T (d + 1) ((h : Int) - ((v + 1 : Nat) : Int))
    rw [furthest_start_succ] at h1
    have h2 := (next_start_ge (furthest P T d) d ((h : Int) - ((v + 1 : Nat) : Int))).1
      (by push_cast; omega) (by push_cast; omega)
    have e : (h : Int) - ((v + 1 : Nat) : Int) + 1 = (h : Int) - v := by push_cast; omega
    rw [e] at h2
    omega

/-- Range of the offsets of generation `d`: both coordinates are non-negative and the offset
exceeds the smaller of the two lengths by at most `d`. -/
theorem furthest_bounds (P T : List Char) (d : Nat) (k : Int) (h1 : -(d : Int) ≤ k)
    (h2 : k ≤ d) :
    0 ≤ furthest_start P T d k ∧ k ≤ furthest_start P T d k ∧
    furthest_start P T d k ≤ furthest P T d k ∧
    furthest P T d k ≤ d + min (P.length : Int) T.length ∧
    furthest P T d k - k ≤ d + min (P.length : Int) T.length := by
  obtain ⟨⟨v, h, e1, e2, r⟩, ⟨v', h', e1', e2', r'⟩⟩ := furthest_sound P T d k h1 h2
  have b := reach_bound r'
  have g := furthest_ge_start P T d k
  refine ⟨by omega, by omega, g, ?_, ?_⟩ <;> omega

/-- At generation `lev P T` the target diagonal `n - m` lies in the range and its extended
offset is exactly `n`. -/
theorem furthest_exit (P T : List Char) :
    -(lev P T : Int) ≤ (T.length : Int) - P.length ∧ (T.length : Int) - P.length ≤ lev P T ∧
    furthest P T (lev P T) ((T.length : Int) - P.length) = T.length := by
  have r := reach_corner P T
  have b := reach_bound r
  have c := furthest_complete r
  have hk1 : -(lev P T : Int) ≤ (T.length : Int) - P.length := by omega
  have hk2 : (T.length : Int) - P.length ≤ lev P T := by omega
  refine ⟨hk1, hk2, ?_⟩
  obtain ⟨v, h, e1, e2, r'⟩ := (furthest_sound P T (lev P T) _ hk1 hk2).2
  have l := reach_lev_le r'
  have hv : P.length ≤ v := by omega
  have hh : T.length ≤ h := by omega
  rw [List.take_of_length_le hv, List.take_of_length_le hh] at l
  omega

/-- An offset `n` on the target diagonal of generation `d`, extended or not, shows that the
edit distance is at most `d`. -/
theorem furthest_exit_le (P T : List Char) (d : Nat)
    (h1 : -(d : Int) ≤ (T.length : Int) - P.length) (h2 : (T.length : Int) - P.length ≤ d)
    (h3 : furthest P T d ((T.length : Int) - P.length) = T.length ∨
      furthest_start P T d ((T.length : Int) - P.length) = T.length) :
    lev P T ≤ d := by
  obtain ⟨⟨v, h, e1, e2, r⟩, ⟨v', h', e1', e2', r'⟩⟩ := furthest_sound P T d _ h1 h2
  rcases h3 with h3 | h3
  · have l := reach_lev_le r'
    have hv : v' = P.length := by omega
    have hh : h' = T.length := by omega
    subst hv hh
    simp only [List.take_length] at l
    omega
  · have l := reach_lev_le r
    have hv : v = P.length := by omega
    have hh : h = T.length := by omega
    subst hv hh
    simp only [List.take_length] at l
    omega

/-- With an empty pattern or an empty text the extend step changes nothing. -/
theorem furthest_eq_start_of_empty (P T : List Char) (d : Nat) (k : Int)
    (h1 : -(d : Int) ≤ k) (h2 : k ≤ d) (h0 : P.length = 0 ∨ T.length = 0) :
    furthest P T d k = furthest_start P T d k := by
  have b := furthest_bounds P T d k h1 h2
  unfold furthest ext
  cases hf : ((T.length : Int) - furthest_start P T d k).toNat with
  | zero => simp [ext_run]
  | succ f =>
    unfold ext_run
    rw [if_neg]
    omega

/-! ## Arithmetic of the offset type and the shared loops -/

theorem to_offset_eq (x : Int) (h1 : -32768 ≤ x) (h2 : x ≤ 32767) : to_offset x = x := by
  unfold to_offset; omega

theorem to_offset_range (x : Int) : -32768 ≤ to_offset x ∧ to_offset x ≤ 32767 := by
  unfold to_offset; omega

theorem MAX_eq_max (a b : Int) : MAX a b = max a b := by
  unfold MAX; split_ifs <;> omega

theorem ABS_le_iff (a d : Int) : ABS a ≤ d ↔ -d ≤ a ∧ a ≤ d := by
  unfold ABS; split_ifs <;> omega

/-- While no value leaves the 16-bit range, the inner loop of the extend step is the greedy
run in unbounded arithmetic. -/
theorem extend_while_eq (P T : List Char) (f : Nat) (k o : Int) (h1 : -32768 ≤ o)
    (h2 : ext_run P T f k o ≤ 32767) :
    extend_while P P.length T T.length f (o - k) o o = ext_run P T f k o := by
  induction f generalizing o with
  | zero => rfl
  | succ f ih =>
    unfold extend_while ext_run
    unfold ext_run at h2
    by_cases hc : o - k < P.length ∧ o < T.length ∧ char_at P (o - k) = char_at T o
    · rw [if_pos hc] at h2
      rw [if_pos hc, if_pos hc]
      have e : o - k + 1 = o + 1 - k := by omega
      have g := ext_run_ge P T f k (o + 1)
      rw [e, to_offset_eq (o + 1) (by omega) (by omega)]
      exact ih (o + 1) (by omega) h2
    · rw [if_neg hc, if_neg hc]

/-! ## The steps of the amortized-growth variant on the tables -/

theorem cpu_extend_for_apply (P : List Char) (m : Int) (T : List Char) (n : Int) (cnt : Nat)
    (k0 : Int) (offsets : Int → Int) (k : Int) :
    CPU.extend_for P m T n cnt k0 offsets k =
      if k0 ≤ k ∧ k < k0 + cnt then
        extend_while P m T n (n - offsets k).toNat (offsets k - k) (offsets k) (offsets k)
      else offsets k := by
  induction cnt generalizing k0 offsets with
  | zero =>
    have hn : ¬ (k0 ≤ k ∧ k < k0 + ((0 : Nat) : Int)) := by push_cast; omega
    rw [if_neg hn]; rfl
  | succ cnt ih =>
    unfold CPU.extend_for
    rw [ih]
    unfold CPU.extend_diagonal EWAVEFRONT_V EWAVEFRONT_H
    by_cases hk : k = k0
    · subst hk
      have hn : ¬ (k + 1 ≤ k ∧ k < k + 1 + (cnt : Int)) := by omega
      have hp : k ≤ k ∧ k < k + ((cnt + 1 : Nat) : Int) := by push_cast; omega
      rw [if_neg hn, if_pos hp, Function.update_same]
    · simp only [Function.update_noteq hk]
      by_cases hr : k0 ≤ k ∧ k < k0 + ((cnt + 1 : Nat) : Int)
      · have hr' : k0 + 1 ≤ k ∧ k < k0 + 1 + (cnt : Int) := by push_cast at hr; omega
        rw [if_pos hr, if_pos hr']
      · have hr' : ¬ (k0 + 1 ≤ k ∧ k < k0 + 1 + (cnt : Int)) := by push_cast at hr; omega
        rw [if_neg hr, if_neg hr']

theorem cpu_compute_for_apply (offsets : Int → Int) (cnt : Nat) (k0 : Int)
    (next : Int → Int) (k : Int) :
    CPU.compute_for offsets cnt k0 next k =
      if k0 ≤ k ∧ k < k0 + cnt then
        to_offset (MAX (to_offset (MAX (offsets k) (offsets (k - 1)) + 1)) (offsets (k + 1)))
      else next k := by
  induction cnt generalizing k0 next with
  | zero =>
    have hn : ¬ (k0 ≤ k ∧ k < k0 + ((0 : Nat) : Int)) := by push_cast; omega
    rw [if_neg hn]; rfl
  | succ cnt ih =>
    unfold CPU.compute_for
    simp only []
    rw [ih]
    by_cases hk : k = k0
    · subst hk
      have hn : ¬ (k + 1 ≤ k ∧ k < k + 1 + (cnt : Int)) := by omega
      have hp : k ≤ k ∧ k < k + ((cnt + 1 : Nat) : Int) := by push_cast; omega
      rw [if_neg hn, if_pos hp, Function.update_same]
    · simp only [Function.update_noteq hk]
      by_cases hr : k0 ≤ k ∧ k < k0 + ((cnt + 1 : Nat) : Int)
      · have hr' : k0 + 1 ≤ k ∧ k < k0 + 1 + (cnt : Int) := by push_cast at hr; omega
        rw [if_pos hr, if_pos hr']
      · have hr' : ¬ (k0 + 1 ≤ k ∧ k < k0 + 1 + (cnt : Int)) := by push_cast at hr; omega
        rw [if_neg hr, if_neg hr']

/-- The extend step turns the start offsets of generation `d` into the extended offsets and
leaves every other generation alone. -/
theorem cpu_extend_spec (wfs : CPU.edit_wavefronts_t) (P T : List Char) (d : Nat)
    (hg : CPU.gen_holds (wfs.wavefronts d) d (furthest_start P T d))
    (hb : ∀ k : Int, -(d : Int) ≤ k → k ≤ d → furthest P T d k ≤ 32767) :
    (∀ d', d' ≠ d →
      (CPU.edit_wavefronts_extend_wavefront wfs P P.length T T.length d).wavefronts d' =
        wfs.wavefronts d') ∧
    CPU.gen_holds ((CPU.edit_wavefronts_extend_wavefront wfs P P.length T T.length d).wavefronts d)
      d (furthest P T d) := by
  obtain ⟨hlo, hhi, hoff⟩ := hg
  unfold CPU.edit_wavefronts_extend_wavefront
  refine ⟨fun d' hd' => by simp only [Function.update_noteq hd'], ?_⟩
  simp only [Function.update_same]
  refine ⟨hlo, hhi, ?_⟩
  intro k h1 h2
  dsimp only
  rw [cpu_extend_for_apply, hlo, hhi]
  have hr : -(d : Int) ≤ k ∧ k < -(d : Int) + (((d : Int) - -(d : Int) + 1).toNat : Int) := by
    omega
  rw [if_pos hr, hoff k h1 h2]
  have b := furthest_bounds P T d k h1 h2
  exact extend_while_eq P T _ k _ (by omega) (hb k h1 h2)

/-- The five peeled cases of the compute step, for offsets within `0 .. 32766`. -/
theorem compute_cases (w : Int → Int) (d : Nat) (k : Int)
    (hb : ∀ j : Int, -(d : Int) ≤ j → j ≤ d → 0 ≤ w j ∧ w j ≤ 32766)
    (h1 : -((d : Int) + 1) ≤ k) (h2 : k ≤ (d : Int) + 1) :
    (if k = (d : Int) + 1 then to_offset (w (d : Int) + 1)
     else if k = (d : Int) then
       to_offset (max (w (d : Int))
         (to_offset (if -(d : Int) ≤ (d : Int) - 1 then w ((d : Int) - 1) else -1)) + 1)
     else if -(d : Int) + 1 ≤ k ∧
         k < -(d : Int) + 1 + (((d : Int) - 1 - (-(d : Int) + 1) + 1).toNat : Int) then
       to_offset (max (to_offset (max (w k) (w (k - 1)) + 1)) (w (k + 1)))
     else if k = -(d : Int) then
       to_offset (max (w (-(d : Int)) + 1)
         (to_offset (if -(d : Int) + 1 ≤ (d : Int) then w (-(d : Int) + 1) else -1)))
     else if k = -(d : Int) - 1 then to_offset (w (-(d : Int))) else 0) =
    next_start w d k := by
  have bm := hb (k - 1)
  have b0 := hb k
  have bp := hb (k + 1)
  unfold next_start
  by_cases hk1 : k = (d : Int) + 1
  · rw [if_pos hk1]
    have e : k - 1 = (d : Int) := by omega
    rw [e] at bm ⊢
    unfold to_offset
    split_ifs <;> omega
  rw [if_neg hk1]
  by_cases hk2 : k = (d : Int)
  · rw [if_pos hk2]
    subst hk2
    unfold to_offset
    split_ifs <;> omega
  rw [if_neg hk2]
  by_cases hk3 : -(d : Int) + 1 ≤ k ∧
      k < -(d : Int) + 1 + (((d : Int) - 1 - (-(d : Int) + 1) + 1).toNat : Int)
  · rw [if_pos hk3]
    unfold to_offset
    split_ifs <;> omega
  rw [if_neg hk3]
  by_cases hk4 : k = -(d : Int)
  · rw [if_pos hk4]
    subst hk4
    unfold to_offset
    split_ifs <;> omega
  rw [if_neg hk4]
  have hk5 : k = -(d : Int) - 1 := by omega
  rw [if_pos hk5]
  have e : k + 1 = -(d : Int) := by omega
  rw [e] at bp ⊢
  unfold to_offset
  split_ifs <;> omega

/-- The compute step fills generation `d + 1` with the recurrence applied to generation `d`
and leaves every other generation alone. -/
theorem cpu_compute_spec (wfs : CPU.edit_wavefronts_t) (d : Nat) (w : Int → Int)
    (hg : CPU.gen_holds (wfs.wavefronts d) d w)
    (hb : ∀ j : Int, -(d : Int) ≤ j → j ≤ d → 0 ≤ w j ∧ w j ≤ 32766) :
    (∀ d', d' ≠ d + 1 →
      (CPU.edit_wavefronts_compute_wavefront wfs (d + 1)).wavefronts d' = wfs.wavefronts d') ∧
    CPU.gen_holds ((CPU.edit_wavefronts_compute_wavefront wfs (d + 1)).wavefronts (d + 1))
      (d + 1) (next_start w d) := by
  obtain ⟨hlo, hhi, hoff⟩ := hg
  unfold CPU.edit_wavefronts_compute_wavefront CPU.edit_wavefronts_allocate_wavefront
  simp only [Nat.add_sub_cancel, Function.update_same, hlo, hhi]
  refine ⟨fun d' hd' => by simp only [Function.update_noteq hd'], ?_, ?_, ?_⟩
  · push_cast; ring
  · push_cast; ring
  · intro k h1 h2
    push_cast at h1 h2
    rw [← compute_cases w d k hb h1 h2]
    simp only [Function.update_apply, cpu_compute_for_apply, MAX_eq_max]
    have em := hoff (k - 1)
    have e0 := hoff k
    have ep := hoff (k + 1)
    have elo := hoff (-(d : Int))
    have ehi := hoff (d : Int)
    have elo1 := hoff (-(d : Int) + 1)
    have ehi1 := hoff ((d : Int) - 1)
    by_cases hk1 : k = (d : Int) + 1
    · rw [if_pos hk1, if_pos hk1, ehi (by omega) (by omega)]
    rw [if_neg hk1, if_neg hk1]
    by_cases hk2 : k = (d : Int)
    · rw [if_pos hk2, if_pos hk2, ehi (by omega) (by omega)]
      by_cases hd : -(d : Int) ≤ (d : Int) - 1
      · rw [if_pos hd, if_pos hd, ehi1 (by omega) (by omega)]
      · rw [if_neg hd, if_neg hd]
    rw [if_neg hk2, if_neg hk2]
    by_cases hk3 : -(d : Int) + 1 ≤ k ∧
        k < -(d : Int) + 1 + (((d : Int) - 1 - (-(d : Int) + 1) + 1).toNat : Int)
    · rw [if_pos hk3, if_pos hk3, em (by omega) (by omega), e0 (by omega) (by omega),
        ep (by omega) (by omega)]
    rw [if_neg hk3, if_neg hk3]
    by_cases hk4 : k = -(d : Int)
    · rw [if_pos hk4, if_pos hk4, elo (by omega) (by omega)]
      by_cases hd : -(d : Int) + 1 ≤ (d : Int)
      · rw [if_pos hd, if_pos hd, elo1 (by omega) (by omega)]
      · rw [if_neg hd, if_neg hd]
    rw [if_neg hk4, if_neg hk4]
    by_cases hk5 : k = -(d : Int) - 1
    · rw [if_pos hk5, if_pos hk5, elo (by omega) (by omega)]
    · rw [if_neg hk5, if_neg hk5]

/-! ## The driver loop of the amortized-growth variant -/

/-- Offsets of a generation not beyond the edit distance fit the offset type. -/
theorem furthest_le_total (P T : List Char) (d : Nat) (k : Int) (hd : d ≤ lev P T)
    (h1 : -(d : Int) ≤ k) (h2 : k ≤ d) :
    0 ≤ furthest P T d k ∧ furthest P T d k + (lev P T - d : Nat) ≤ P.length + T.length := by
  have b := furthest_bounds P T d k h1 h2
  have l := lev_le_max P T
  omega

/-- The driver loop entered at generation `d` with the tables correct so far stops at
generation `lev P T` with every generation up to it holding its extended offsets. -/
theorem cpu_align_for_spec (P T : List Char) (hbound : P.length + T.length ≤ 32767) :
    ∀ (rem d : Nat) (wfs : CPU.edit_wavefronts_t), rem + d = P.length + T.length →
      d ≤ lev P T →
      (∀ d', d' < d → CPU.gen_holds (wfs.wavefronts d') d' (furthest P T d')) →
      CPU.gen_holds (wfs.wavefronts d) d (furthest_start P T d) →
      (CPU.align_for P P.length T T.length ((T.length : Int) - P.length)
        (ABS ((T.length : Int) - P.length)) (to_offset T.length) rem d wfs).1 = lev P T ∧
      ∀ d', d' ≤ lev P T →
        CPU.gen_holds ((CPU.align_for P P.length T T.length ((T.length : Int) - P.length)
          (ABS ((T.length : Int) - P.length)) (to_offset T.length) rem d wfs).2.wavefronts d')
          d' (furthest P T d') := by
  intro rem
  induction rem with
  | zero =>
    intro d wfs hrem hd hprev hcur
    have l := lev_le_max P T
    have hL : lev P T = d := by omega
    have h0 : P.length = 0 ∨ T.length = 0 := by omega
    unfold CPU.align_for
    refine ⟨hL.symm, ?_⟩
    intro d' hd'
    by_cases e : d' = d
    · subst e
      obtain ⟨hlo, hhi, hoff⟩ := hcur
      refine ⟨hlo, hhi, ?_⟩
      intro k h1 h2
      rw [hoff k h1 h2, furthest_eq_start_of_empty P T d' k h1 h2 h0]
    · exact hprev d' (by omega)
  | succ rem ih =>
    intro d wfs hrem hd hprev hcur
    have hext := cpu_extend_spec wfs P T d hcur (fun k h1 h2 => by
      have := furthest_le_total P T d k hd h1 h2; omega)
    obtain ⟨hother, hgen⟩ := hext
    have hn : to_offset (T.length : Int) = T.length := to_offset_eq _ (by omega) (by omega)
    unfold CPU.align_for
    dsimp only
    by_cases hc : ABS ((T.length : Int) - P.length) ≤ (d : Int) ∧
        ((CPU.edit_wavefronts_extend_wavefront wfs P P.length T T.length d).wavefronts d).offsets
          ((T.length : Int) - P.length) = to_offset T.length
    · rw [if_pos hc]
      obtain ⟨c1, c2⟩ := hc
      rw [hn] at c2
      rw [ABS_le_iff] at c1
      rw [hgen.2.2 _ c1.1 c1.2] at c2
      have hle := furthest_exit_le P T d c1.1 c1.2 (Or.inl c2)
      have hL : lev P T = d := by omega
      refine ⟨hL.symm, ?_⟩
      intro d' hd'
      by_cases e : d' = d
      · subst e; exact hgen
      · rw [hother d' e]; exact hprev d' (by omega)
    · rw [if_neg hc]
      have hlt : d < lev P T := by
        by_contra hge
        have hL : lev P T = d := by omega
        have ex := furthest_exit P T
        rw [hL] at ex
        apply hc
        refine ⟨(ABS_le_iff _ _).2 ⟨ex.1, ex.2.1⟩, ?_⟩
        rw [hgen.2.2 _ ex.1 ex.2.1, hn]
        exact ex.2.2
      have hcomp := cpu_compute_spec
        (CPU.edit_wavefronts_extend_wavefront wfs P P.length T T.length d) d (furthest P T d)
        hgen (fun j h1 h2 => by
          have := furthest_le_total P T d j hd h1 h2; omega)
      obtain ⟨hother2, hgen2⟩ := hcomp
      apply ih (d + 1) _ (by omega) (by omega)
      · intro d' hd'
        rw [hother2 d' (by omega)]
        by_cases e : d' = d
        · subst e; exact hgen
        · rw [hother d' e]; exact hprev d' (by omega)
      · exact hgen2

/-! ## Script walks and the trailing loop of the backtrace -/

theorem reach_cost_le {P T : List Char} {d v h : Nat} (r : Reach P T d v h) : d ≤ v + h := by
  induction r with
  | start => exact le_refl _
  | mtch _ _ _ _ ih => omega
  | sub _ ih => omega
  | ins _ ih => omega
  | del _ ih => omega

theorem walk_back_cons_M (P T s : List Char) (v h : Nat) :
    walk_back P T ('M' :: s) v h =
      if 0 < v ∧ v ≤ P.length ∧ 0 < h ∧ h ≤ T.length ∧ P[v - 1]? = T[h - 1]? then
        walk_back P T s (v - 1) (h - 1)
      else none := by
  simp [walk_back]

theorem walk_back_cons_X (P T s : List Char) (v h : Nat) :
    walk_back P T ('X' :: s) v h =
      if 0 < v ∧ v ≤ P.length ∧ 0 < h ∧ h ≤ T.length ∧ P[v - 1]? ≠ T[h - 1]? then
        walk_back P T s (v - 1) (h - 1)
      else none := by
  simp [walk_back]

theorem walk_back_cons_I (P T s : List Char) (v h : Nat) :
    walk_back P T ('I' :: s) v h =
      if v ≤ P.length ∧ 0 < h ∧ h ≤ T.length then walk_back P T s v (h - 1) else none := by
  simp [walk_back]

theorem walk_back_cons_D (P T s : List Char) (v h : Nat) :
    walk_back P T ('D' :: s) v h =
      if 0 < v ∧ v ≤ P.length ∧ h ≤ T.length then walk_back P T s (v - 1) h else none := by
  simp [walk_back]

theorem non_match_count_cons_M (s : List Char) :
    non_match_count ('M' :: s) = non_match_count s := by
  simp [non_match_count]

theorem non_match_count_cons_X (s : List Char) :
    non_match_count ('X' :: s) = non_match_count s + 1 := by
  simp [non_match_count]

theorem non_match_count_cons_I (s : List Char) :
    non_match_count ('I' :: s) = non_match_count s + 1 := by
  simp [non_match_count]

theorem non_match_count_cons_D (s : List Char) :
    non_match_count ('D' :: s) = non_match_count s + 1 := by
  simp [non_match_count]

theorem non_match_count_replicate (h : Nat) : non_match_count (List.replicate h 'M') = 0 := by
  induction h with
  | zero => rfl
  | succ h ih => rw [List.replicate_succ, non_match_count_cons_M, ih]

/-- The trailing loop writes as many `'M'` as the value of a non-negative offset. -/
theorem backtrace_matches_eq (f : Nat) (o : Int) (h : Nat) (ho : (h : Int) = o) (hf : h ≤ f)
    (hb : o ≤ 32767) : backtrace_matches f o = List.replicate h 'M' := by
  induction f generalizing o h with
  | zero =>
    have : h = 0 := by omega
    subst this; rfl
  | succ f ih =>
    unfold backtrace_matches
    by_cases hp : o > 0
    · rw [if_pos hp]
      obtain ⟨h', rfl⟩ : ∃ h', h = h' + 1 := ⟨h - 1, by omega⟩
      rw [List.replicate_succ, to_offset_eq (o - 1) (by omega) (by omega)]
      rw [ih (o - 1) h' (by push_cast at ho; omega) (by omega) (by omega)]
    · rw [if_neg hp]
      have : h = 0 := by omega
      subst this; rfl

theorem walk_back_replicate (P T : List Char) (h : Nat) (hP : h ≤ P.length)
    (hT : h ≤ T.length) (hm : ∀ i : Nat, i < h → P[i]? = T[i]?) :
    walk_back P T (List.replicate h 'M') h h = some (0, 0) := by
  induction h with
  | zero => rfl
  | succ h ih =>
    rw [List.replicate_succ, walk_back_cons_M]
    have hc : 0 < h + 1 ∧ h + 1 ≤ P.length ∧ 0 < h + 1 ∧ h + 1 ≤ T.length ∧
        P[h + 1 - 1]? = T[h + 1 - 1]? :=
      ⟨by omega, hP, by omega, hT, hm h (by omega)⟩
    rw [if_pos hc]
    exact ih (by omega) (by omega) (fun i hi => hm i (by omega))

/-- A walk consumes at least one coordinate unit per symbol. -/
theorem walk_back_length (P T : List Char) (s : List Char) :
    ∀ (v h v' h' : Nat), walk_back P T s v h = some (v', h') → s.length + v' + h' ≤ v + h := by
  induction s with
  | nil =>
    intro v h v' h' hw
    simp only [walk_back, Option.some.injEq, Prod.mk.injEq] at hw
    simp only [List.length_nil]; omega
  | cons c s ih =>
    intro v h v' h' hw
    unfold walk_back at hw
    simp only [List.length_cons]
    split_ifs at hw with c1 c2 c3 c4 c5 c6 c7 c8
    · have := ih _ _ _ _ hw; omega
    · have := ih _ _ _ _ hw; omega
    · have := ih _ _ _ _ hw; omega
    · have := ih _ _ _ _ hw; omega

/-- Every symbol of a script that can be walked is one of `'M'`, `'X'`, `'I'`, `'D'`. -/
theorem walk_back_symbols (P T : List Char) (s : List Char) :
    ∀ (v h v' h' : Nat), walk_back P T s v h = some (v', h') →
      ∀ c ∈ s, c = 'M' ∨ c = 'X' ∨ c = 'I' ∨ c = 'D' := by
  induction s with
  | nil => intro v h v' h' _ c hc; simp at hc
  | cons a s ih =>
    intro v h v' h' hw c hc
    unfold walk_back at hw
    rcases List.mem_cons.1 hc with rfl | hc'
    · by_cases h1 : c = 'M'
      · exact Or.inl h1
      · by_cases h2 : c = 'X'
        · exact Or.inr (Or.inl h2)
        · by_cases h3 : c = 'I'
          · exact Or.inr (Or.inr (Or.inl h3))
          · by_cases h4 : c = 'D'
            · exact Or.inr (Or.inr (Or.inr h4))
            · simp only [h1, h2, h3, h4, if_false] at hw
              exact absurd hw (by simp)
    · split_ifs at hw <;> exact ih _ _ _ _ hw c hc'

/-! ## The backtrace of the amortized-growth variant -/

theorem cpu_backtrace_while_zero (wfs : CPU.edit_wavefronts_t) (fuel : Nat) (k offset : Int) :
    CPU.backtrace_while wfs fuel k offset 0 =
      some (backtrace_matches offset.toNat offset) := by
  cases fuel <;> rfl

/-- From a cell within the match run of its diagonal, the backtrace loop returns a script
that walks back to the origin and contains as many symbols other than `'M'` as the
generation it starts from. -/
theorem cpu_backtrace_while_spec (P T : List Char) (hbound : P.length + T.length ≤ 32767)
    (wfs : CPU.edit_wavefronts_t) (L : Nat)
    (hst : ∀ d', d' ≤ L → CPU.gen_holds (wfs.wavefronts d') d' (furthest P T d')) :
    ∀ (fuel dist : Nat) (k offset : Int) (v h : Nat), dist ≤ L →
      (h : Int) = offset → (h : Int) - v = k → v ≤ P.length → h ≤ T.length →
      -(dist : Int) ≤ k → k ≤ dist →
      furthest_start P T dist k ≤ offset → offset ≤ furthest P T dist k → v + h ≤ fuel →
      ∃ s, CPU.backtrace_while wfs fuel k offset dist = some s ∧
        walk_back P T s v h = some (0, 0) ∧ non_match_count s = dist := by
  intro fuel
  induction fuel with
  | zero =>
    intro dist k offset v h hd ho hk hv hh hk1 hk2 hs he hf
    have hv0 : v = 0 := by omega
    have hh0 : h = 0 := by omega
    subst hv0 hh0
    obtain ⟨⟨vs, hs', e1, e2, r⟩, _⟩ := furthest_sound P T dist k hk1 hk2
    have c := reach_cost_le r
    have hd0 : dist = 0 := by omega
    subst hd0
    refine ⟨[], ?_, rfl, rfl⟩
    rw [cpu_backtrace_while_zero]
    have : offset = 0 := by omega
    subst this
    rfl
  | succ f ih =>
    intro dist k offset v h hd ho hk hv hh hk1 hk2 hs he hf
    cases dist with
    | zero =>
      have hk0 : k = 0 := by omega
      subst hk0
      have hvh : v = h := by omega
      subst hvh
      refine ⟨List.replicate v 'M', ?_, ?_, non_match_count_replicate v⟩
      · rw [cpu_backtrace_while_zero, backtrace_matches_eq _ offset v ho (by omega) (by omega)]
      · apply walk_back_replicate P T v hv hh
        intro i hi
        have hm := furthest_matches P T 0 0 (i : Int)
          (by simp only [furthest_start]; omega) (by omega)
        rw [sub_zero, char_at_natCast, char_at_natCast] at hm
        exact hm.2.2
    | succ dm1 =>
      obtain ⟨hlo, hhi, hoff⟩ := hst dm1 (by omega)
      have hw : ∀ j : Int, -(dm1 : Int) ≤ j → j ≤ dm1 →
          0 ≤ furthest P T dm1 j ∧ j ≤ furthest P T dm1 j := by
        intro j h1 h2
        have b := furthest_bounds P T dm1 j h1 h2
        omega
      have hstart := furthest_start_succ P T dm1 k
      unfold CPU.backtrace_while
      dsimp only
      rw [hlo, hhi]
      by_cases cD : -(dm1 : Int) ≤ k + 1 ∧ k + 1 ≤ dm1 ∧
          offset = (wfs.wavefronts dm1).offsets (k + 1)
      · rw [if_pos cD]
        obtain ⟨c1, c2, c3⟩ := cD
        rw [hoff _ c1 c2] at c3
        have b := hw _ c1 c2
        have g := furthest_ge_start P T dm1 (k + 1)
        obtain ⟨s', e1, e2, e3⟩ := ih dm1 (k + 1) offset (v - 1) h (by omega) ho (by omega)
          (by omega) hh c1 c2 (by omega) (by omega) (by omega)
        refine ⟨'D' :: s', by rw [e1]; rfl, ?_, by rw [non_match_count_cons_D, e3]⟩
        rw [walk_back_cons_D, if_pos ⟨by omega, by omega, by omega⟩]
        exact e2
      rw [if_neg cD]
      by_cases cI : -(dm1 : Int) ≤ k - 1 ∧ k - 1 ≤ dm1 ∧
          offset = (wfs.wavefronts dm1).offsets (k - 1) + 1
      · rw [if_pos cI]
        obtain ⟨c1, c2, c3⟩ := cI
        rw [hoff _ c1 c2] at c3
        have b := hw _ c1 c2
        have g := furthest_ge_start P T dm1 (k - 1)
        rw [to_offset_eq (offset - 1) (by omega) (by omega)]
        obtain ⟨s', e1, e2, e3⟩ := ih dm1 (k - 1) (offset - 1) v (h - 1) (by omega)
          (by omega) (by omega) hv (by omega) c1 c2 (by omega) (by omega) (by omega)
        refine ⟨'I' :: s', by rw [e1]; rfl, ?_, by rw [non_match_count_cons_I, e3]⟩
        rw [walk_back_cons_I, if_pos ⟨by omega, by omega, by omega⟩]
        exact e2
      rw [if_neg cI]
      by_cases cX : -(dm1 : Int) ≤ k ∧ k ≤ dm1 ∧
          offset = (wfs.wavefronts dm1).offsets k + 1
      · rw [if_pos cX]
        obtain ⟨c1, c2, c3⟩ := cX
        rw [hoff _ c1 c2] at c3
        have b := hw _ c1 c2
        have g := furthest_ge_start P T dm1 k
        rw [to_offset_eq (offset - 1) (by omega) (by omega)]
        obtain ⟨s', e1, e2, e3⟩ := ih dm1 k (offset - 1) (v - 1) (h - 1) (by omega)
          (by omega) (by omega) (by omega) (by omega) c1 c2 (by omega) (by omega) (by omega)
        refine ⟨'X' :: s', by rw [e1]; rfl, ?_, by rw [non_match_count_cons_X, e3]⟩
        have hst' := furthest_stuck P T dm1 k
        have ea : furthest P T dm1 k = ((h - 1 : Nat) : Int) := by omega
        have eb : furthest P T dm1 k - k = ((v - 1 : Nat) : Int) := by omega
        rw [eb, ea, char_at_natCast, char_at_natCast] at hst'
        have hne : P[v - 1]? ≠ T[h - 1]? := fun heq => hst' ⟨by omega, by omega, heq⟩
        rw [walk_back_cons_X, if_pos ⟨by omega, by omega, by omega, by omega, hne⟩]
        exact e2
      rw [if_neg cX]
      have hgt : furthest_start P T (dm1 + 1) k < offset := by
        rcases lt_or_ge (furthest_start P T (dm1 + 1) k) offset with hlt | hge
        · exact hlt
        · exfalso
          have heq : offset = next_start (furthest P T dm1) dm1 k := by omega
          rcases next_start_cases (furthest P T dm1) dm1 k (by push_cast at hk1; omega)
            (by push_cast at hk2; omega) (fun j h1 h2 => (hw j h1 h2).1)
            with ⟨c1, c2, e⟩ | ⟨c1, c2, e⟩ | ⟨c1, c2, e⟩
          · exact cD ⟨c1, c2, by rw [hoff _ c1 c2, heq, e]⟩
          · exact cI ⟨c1, c2, by rw [hoff _ c1 c2, heq, e]⟩
          · exact cX ⟨c1, c2, by rw [hoff _ c1 c2, heq, e]⟩
      have b := furthest_bounds P T (dm1 + 1) k hk1 hk2
      rw [to_offset_eq (offset - 1) (by omega) (by omega)]
      have hm := furthest_matches P T (dm1 + 1) k (offset - 1) (by omega) (by omega)
      have ea : offset - 1 = ((h - 1 : Nat) : Int) := by omega
      have eb : offset - 1 - k = ((v - 1 : Nat) : Int) := by omega
      obtain ⟨s', e1, e2, e3⟩ := ih (dm1 + 1) k (offset - 1) (v - 1) (h - 1) hd
        (by omega) (by omega) (by omega) (by omega) hk1 hk2 (by omega) (by omega) (by omega)
      rw [eb, ea, char_at_natCast, char_at_natCast] at hm
      refine ⟨'M' :: s', by rw [e1]; rfl, ?_, by rw [non_match_count_cons_M, e3]⟩
      rw [walk_back_cons_M, if_pos ⟨by omega, by omega, by omega, by omega, hm.2.2⟩]
      exact e2

theorem cpu_backtrace_while_mono (wfs : CPU.edit_wavefronts_t) :
    ∀ (fuel : Nat) (k offset : Int) (dist : Nat) (s : List Char),
      CPU.backtrace_while wfs fuel k offset dist = some s →
      CPU.backtrace_while wfs (fuel + 1) k offset dist = some s := by
  intro fuel
  induction fuel with
  | zero =>
    intro k offset dist s hs
    cases dist with
    | zero => rw [cpu_backtrace_while_zero] at hs ⊢; exact hs
    | succ dm1 => simp [CPU.backtrace_while] at hs
  | succ f ih =>
    intro k offset dist s hs
    cases dist with
    | zero => rw [cpu_backtrace_while_zero] at hs ⊢; exact hs
    | succ dm1 =>
      unfold CPU.backtrace_while at hs ⊢
      dsimp only at hs ⊢
      split_ifs at hs ⊢ with c1 c2 c3
      all_goals
        rw [Option.map_eq_some'] at hs ⊢
        obtain ⟨s', h1, h2⟩ := hs
        exact ⟨s', ih _ _ _ _ h1, h2⟩

theorem cpu_backtrace_while_mono_le (wfs : CPU.edit_wavefronts_t) (fuel fuel' : Nat)
    (k offset : Int) (dist : Nat) (s : List Char) (hle : fuel ≤ fuel')
    (hs : CPU.backtrace_while wfs fuel k offset dist = some s) :
    CPU.backtrace_while wfs fuel' k offset dist = some s := by
  induction hle with
  | refl => exact hs
  | step _ ih => exact cpu_backtrace_while_mono wfs _ _ _ _ _ ih

/-! ## The amortized-growth run as a whole -/

/-- The state before the driver loop: generation `0` holds the start offset `0`. -/
theorem cpu_init_gen (w0 : CPU.edit_wavefronts_t) (P T : List Char) :
    CPU.gen_holds
      ((Function.update (CPU.edit_wavefronts_allocate_wavefront w0 0 0 0).wavefronts 0
        { (CPU.edit_wavefronts_allocate_wavefront w0 0 0 0).wavefronts 0 with
          offsets := Function.update
            ((CPU.edit_wavefronts_allocate_wavefront w0 0 0 0).wavefronts 0).offsets 0 0 }) 0)
      0 (furthest_start P T 0) := by
  unfold CPU.edit_wavefronts_allocate_wavefront
  simp only [Function.update_same]
  refine ⟨rfl, rfl, ?_⟩
  intro k h1 h2
  have hk : k = 0 := by push_cast at h1 h2; omega
  subst hk
  simp [furthest_start]

/-- Total correctness of one amortized-growth run for inputs within the offset range: with
any fuel of at least `m + n` it returns the edit distance and a script that walks from
`(m,n)` back to `(0,0)` and has as many symbols other than `'M'` as the score. -/
theorem cpu_run_spec (P T : List Char) (hbound : P.length + T.length ≤ 32767) :
    ∃ cigar : List Char,
      (∀ fuel : Nat, P.length + T.length ≤ fuel →
        CPU.wfa_edit_alignment_cpu fuel P T = some (lev P T, cigar)) ∧
      walk_back P T cigar P.length T.length = some (0, 0) ∧
      non_match_count cigar = lev P T := by
  have hfor := cpu_align_for_spec P T hbound (P.length + T.length) 0
    { CPU.edit_wavefronts_allocate_wavefront
        (CPU.edit_wavefronts_init P.length T.length) 0 0 0 with
      wavefronts := Function.update
        (CPU.edit_wavefronts_allocate_wavefront
          (CPU.edit_wavefronts_init P.length T.length) 0 0 0).wavefronts 0
        { (CPU.edit_wavefronts_allocate_wavefront
            (CPU.edit_wavefronts_init P.length T.length) 0 0 0).wavefronts 0 with
          offsets := Function.update
            ((CPU.edit_wavefronts_allocate_wavefront
              (CPU.edit_wavefronts_init P.length T.length) 0 0 0).wavefronts 0).offsets 0 0 } }
    rfl (Nat.zero_le _) (fun d' hd' => absurd hd' (Nat.not_lt_zero _))
    (cpu_init_gen _ P T)
  obtain ⟨hscore, hstore⟩ := hfor
  have ex := furthest_exit P T
  have hn : to_offset (T.length : Int) = T.length := to_offset_eq _ (by omega) (by omega)
  have hbt := cpu_backtrace_while_spec P T hbound _ (lev P T) hstore (P.length + T.length)
    (lev P T) ((T.length : Int) - P.length) (T.length : Int) P.length T.length (le_refl _) rfl
    rfl (le_refl _) (le_refl _) ex.1 ex.2.1
    (by have := furthest_ge_start P T (lev P T) ((T.length : Int) - P.length); omega)
    (by omega) (by omega)
  obtain ⟨cigar, hc1, hc2, hc3⟩ := hbt
  refine ⟨cigar, ?_, hc2, hc3⟩
  intro fuel hfuel
  have hc1' := cpu_backtrace_while_mono_le _ _ fuel _ _ _ _ hfuel hc1
  have hcell := (hstore (lev P T) (le_refl _)).2.2 _ ex.1 ex.2.1
  rw [ex.2.2] at hcell
  have htn : ((P.length : Int) + (T.length : Int)).toNat = P.length + T.length := by omega
  unfold CPU.wfa_edit_alignment_cpu CPU.edit_wavefronts_align CPU.edit_wavefronts_backtrace
  dsimp only
  unfold EWAVEFRONT_DIAGONAL EWAVEFRONT_OFFSET
  rw [htn, hscore, hcell]
  rw [hn] at hc1' ⊢
  rw [hc1']
  rfl

/-! ## The steps of the dense variant on the tables -/

theorem offset_idx_eq (d : Nat) (k : Int) :
    FPGA.OFFSET_IDX (d : Int) k = FPGA.OFFSET_IDX (d : Int) 0 + k := by
  unfold FPGA.OFFSET_IDX; ring

theorem offset_idx_succ (d : Nat) :
    FPGA.OFFSET_IDX ((d + 1 : Nat) : Int) 0 = FPGA.OFFSET_IDX (d : Int) 0 + 2 * (d : Int) + 2 := by
  unfold FPGA.OFFSET_IDX; push_cast; ring

theorem offset_idx_zero : FPGA.OFFSET_IDX ((0 : Nat) : Int) 0 = 0 := by
  unfold FPGA.OFFSET_IDX; simp

/-- The cells of an earlier generation lie strictly below the cells of a later one. -/
theorem offset_idx_lt (d' d : Nat) (h : d' < d) :
    FPGA.OFFSET_IDX (d' : Int) 0 + d' < FPGA.OFFSET_IDX (d : Int) 0 - d := by
  unfold FPGA.OFFSET_IDX
  have h1 : (d' : Int) + 1 ≤ d := by exact_mod_cast h
  have h2 : (0 : Int) ≤ d' := Int.natCast_nonneg d'
  nlinarith

theorem offset_idx_nonneg (d : Nat) : 0 ≤ FPGA.OFFSET_IDX (d : Int) 0 - d := by
  unfold FPGA.OFFSET_IDX
  have h2 : (0 : Int) ≤ d := Int.natCast_nonneg d
  nlinarith

theorem fpga_extend_for_apply (P : List Char) (m : Int) (T : List Char) (n : Int) (base : Int)
    (cnt : Nat) (k0 : Int) (mem : Int → Int) (i : Int) :
    FPGA.extend_for P m T n base cnt k0 mem i =
      if k0 ≤ i - base ∧ i - base < k0 + cnt then
        extend_while P m T n (n - mem i).toNat (mem i - (i - base)) (mem i) (mem i)
      else mem i := by
  induction cnt generalizing k0 mem with
  | zero =>
    have hn : ¬ (k0 ≤ i - base ∧ i - base < k0 + ((0 : Nat) : Int)) := by push_cast; omega
    rw [if_neg hn]; rfl
  | succ cnt ih =>
    unfold FPGA.extend_for
    rw [ih]
    unfold FPGA.extend_diagonal EWAVEFRONT_V EWAVEFRONT_H
    by_cases hk : i = base + k0
    · subst hk
      have hn : ¬ (k0 + 1 ≤ base + k0 - base ∧ base + k0 - base < k0 + 1 + (cnt : Int)) := by
        omega
      have hp : k0 ≤ base + k0 - base ∧ base + k0 - base < k0 + ((cnt + 1 : Nat) : Int) := by
        push_cast; omega
      have e : base + k0 - base = k0 := by omega
      rw [if_neg hn, if_pos hp, Function.update_same, e]
    · simp only [Function.update_noteq hk]
      by_cases hr : k0 ≤ i - base ∧ i - base < k0 + ((cnt + 1 : Nat) : Int)
      · have hr' : k0 + 1 ≤ i - base ∧ i - base < k0 + 1 + (cnt : Int) := by
          push_cast at hr; omega
        rw [if_pos hr, if_pos hr']
      · have hr' : ¬ (k0 + 1 ≤ i - base ∧ i - base < k0 + 1 + (cnt : Int)) := by
          push_cast at hr; omega
        rw [if_neg hr, if_neg hr']

theorem fpga_compute_for_apply (base nbase : Int) (cnt : Nat) (k0 : Int) (mem : Int → Int)
    (i : Int) (hdis : base + cnt < nbase) :
    FPGA.compute_for base nbase cnt k0 mem i =
      if k0 ≤ i - nbase ∧ i - nbase < k0 + cnt then
        to_offset (MAX (to_offset (MAX (mem (base + (i - nbase)))
          (mem (base + (i - nbase - 1))) + 1)) (mem (base + (i - nbase + 1))))
      else mem i := by
  induction cnt generalizing k0 mem with
  | zero =>
    have hn : ¬ (k0 ≤ i - nbase ∧ i - nbase < k0 + ((0 : Nat) : Int)) := by push_cast; omega
    rw [if_neg hn]; rfl
  | succ cnt ih =>
    unfold FPGA.compute_for
    dsimp only
    rw [ih _ _ (by push_cast at hdis; omega)]
    by_cases hk : i = nbase + k0
    · subst hk
      have hn : ¬ (k0 + 1 ≤ nbase + k0 - nbase ∧ nbase + k0 - nbase < k0 + 1 + (cnt : Int)) := by
        omega
      have hp : k0 ≤ nbase + k0 - nbase ∧
          nbase + k0 - nbase < k0 + ((cnt + 1 : Nat) : Int) := by
        push_cast; omega
      have e : nbase + k0 - nbase = k0 := by omega
      have e' : k0 - 1 = k0 - 1 := rfl
      rw [if_neg hn, if_pos hp, Function.update_same, e]
    · by_cases hr : k0 ≤ i - nbase ∧ i - nbase < k0 + ((cnt + 1 : Nat) : Int)
      · have hr' : k0 + 1 ≤ i - nbase ∧ i - nbase < k0 + 1 + (cnt : Int) := by
          push_cast at hr; omega
        push_cast at hdis
        rw [if_pos hr, if_pos hr', Function.update_noteq (by omega),
          Function.update_noteq (by omega), Function.update_noteq (by omega)]
      · have hr' : ¬ (k0 + 1 ≤ i - nbase ∧ i - nbase < k0 + 1 + (cnt : Int)) := by
          push_cast at hr; omega
        rw [if_neg hr, if_neg hr', Function.update_noteq hk]

theorem extend_while_range (P : List Char) (m : Int) (T : List Char) (n : Int) (f : Nat)
    (v h o : Int) (ho : -32768 ≤ o ∧ o ≤ 32767) :
    -32768 ≤ extend_while P m T n f v h o ∧ extend_while P m T n f v h o ≤ 32767 := by
  induction f generalizing v h o with
  | zero => exact ho
  | succ f ih =>
    unfold extend_while
    split_ifs
    · exact ih _ _ _ (to_offset_range _)
    · exact ho

/-- The extend step of the dense variant turns the start offsets of generation `d` into the
extended offsets and leaves every cell outside generation `d` alone. -/
theorem fpga_extend_spec (mem : Int → Int) (P T : List Char) (d : Nat)
    (hg : FPGA.gen_holds mem d (furthest_start P T d))
    (hb : ∀ k : Int, -(d : Int) ≤ k → k ≤ d → furthest P T d k ≤ 32767) :
    (∀ i : Int, (i < FPGA.OFFSET_IDX (d : Int) 0 - d ∨ FPGA.OFFSET_IDX (d : Int) 0 + d < i) →
      FPGA.edit_wavefronts_extend_wavefront mem P P.length T T.length d i = mem i) ∧
    FPGA.gen_holds (FPGA.edit_wavefronts_extend_wavefront mem P P.length T T.length d) d
      (furthest P T d) := by
  unfold FPGA.edit_wavefronts_extend_wavefront FPGA.LO_IDX FPGA.HI_IDX
  dsimp only
  constructor
  · intro i hi
    rw [fpga_extend_for_apply, if_neg (by omega)]
  · intro k h1 h2
    rw [fpga_extend_for_apply, offset_idx_eq d k, if_pos (by omega)]
    have e : FPGA.OFFSET_IDX (d : Int) 0 + k - FPGA.OFFSET_IDX (d : Int) 0 = k := by omega
    have hcell := hg k h1 h2
    rw [offset_idx_eq d k] at hcell
    rw [e, hcell]
    have b := furthest_bounds P T d k h1 h2
    exact extend_while_eq P T _ k _ (by omega) (hb k h1 h2)

/-- The compute step of the dense variant fills generation `d + 1` with the recurrence
applied to generation `d` and leaves every cell outside generation `d + 1` alone. -/
theorem fpga_compute_spec (mem : Int → Int) (d : Nat) (w : Int → Int)
    (hg : FPGA.gen_holds mem d w)
    (hb : ∀ j : Int, -(d : Int) ≤ j → j ≤ d → 0 ≤ w j ∧ w j ≤ 32766) :
    (∀ i : Int, (i < FPGA.OFFSET_IDX ((d + 1 : Nat) : Int) 0 - ((d + 1 : Nat) : Int) ∨
        FPGA.OFFSET_IDX ((d + 1 : Nat) : Int) 0 + ((d + 1 : Nat) : Int) < i) →
      FPGA.edit_wavefronts_compute_wavefront mem (d + 1) i = mem i) ∧
    FPGA.gen_holds (FPGA.edit_wavefronts_compute_wavefront mem (d + 1)) (d + 1)
      (next_start w d) := by
  have hnb := offset_idx_succ d
  have e : ((d + 1 : Nat) : Int) - 1 = (d : Int) := by push_cast; ring
  have hoff : ∀ j : Int, -(d : Int) ≤ j → j ≤ d → mem (FPGA.OFFSET_IDX (d : Int) 0 + j) = w j := by
    intro j h1 h2
    rw [← offset_idx_eq]; exact hg j h1 h2
  unfold FPGA.edit_wavefronts_compute_wavefront FPGA.LO_IDX FPGA.HI_IDX
  dsimp only
  rw [e]
  constructor
  · intro i hi
    simp (disch := omega) only [Function.update_noteq, fpga_compute_for_apply, if_neg]
  · intro k h1 h2
    rw [offset_idx_eq (d + 1) k, ← compute_cases w d k hb (by omega) (by omega)]
    have em := hoff (k - 1)
    have e0 := hoff k
    have ep := hoff (k + 1)
    have elo := hoff (-(d : Int))
    have ehi := hoff (d : Int)
    have elo1 := hoff (-(d : Int) + 1)
    have ehi1 := hoff ((d : Int) - 1)
    by_cases hk1 : k = (d : Int) + 1
    · subst hk1
      simp (disch := omega) only [Function.update_noteq, Function.update_same,
        fpga_compute_for_apply, if_neg, if_pos, if_true, MAX_eq_max]
      rw [ehi (by omega) (by omega)]
    by_cases hk2 : k = (d : Int)
    · subst hk2
      simp (disch := omega) only [Function.update_noteq, Function.update_same,
        fpga_compute_for_apply, if_neg, if_pos, if_true, MAX_eq_max]
      rw [ehi (by omega) (by omega)]
      by_cases hd : -(d : Int) ≤ (d : Int) - 1
      · rw [if_pos hd, if_pos hd, ehi1 (by omega) (by omega)]
      · rw [if_neg hd, if_neg hd]
    by_cases hk3 : -(d : Int) + 1 ≤ k ∧
        k < -(d : Int) + 1 + (((d : Int) - 1 - (-(d : Int) + 1) + 1).toNat : Int)
    · simp (disch := omega) only [Function.update_noteq, Function.update_same,
        fpga_compute_for_apply, if_neg, if_pos, if_true, MAX_eq_max, add_sub_cancel_left]
      rw [em (by omega) (by omega), e0 (by omega) (by omega), ep (by omega) (by omega)]
    by_cases hk4 : k = -(d : Int)
    · subst hk4
      simp (disch := omega) only [Function.update_noteq, Function.update_same,
        fpga_compute_for_apply, if_neg, if_pos, if_true, MAX_eq_max]
      rw [elo (by omega) (by omega), elo1 (by omega) (by omega)]
    have hk5 : k = -(d : Int) - 1 := by omega
    subst hk5
    simp (disch := omega) only [Function.update_noteq, Function.update_same,
      fpga_compute_for_apply, if_neg, if_pos, if_true, MAX_eq_max]
    rw [elo (by omega) (by omega)]

theorem fpga_extend_range (mem : Int → Int) (P : List Char) (m : Int) (T : List Char) (n : Int)
    (d : Nat) (hr : FPGA.cells_in_range mem) :
    FPGA.cells_in_range (FPGA.edit_wavefronts_extend_wavefront mem P m T n d) := by
  intro i
  unfold FPGA.edit_wavefronts_extend_wavefront
  rw [fpga_extend_for_apply]
  split_ifs
  · exact extend_while_range _ _ _ _ _ _ _ _ (hr i)
  · exact hr i

theorem cells_in_range_update (f : Int → Int) (a v : Int) (hf : FPGA.cells_in_range f)
    (hv : -32768 ≤ v ∧ v ≤ 32767) : FPGA.cells_in_range (Function.update f a v) := by
  intro i
  rw [Function.update_apply]
  split_ifs
  · exact hv
  · exact hf i

theorem fpga_compute_for_range (base nbase : Int) (cnt : Nat) (k0 : Int) (mem : Int → Int)
    (hr : FPGA.cells_in_range mem) :
    FPGA.cells_in_range (FPGA.compute_for base nbase cnt k0 mem) := by
  induction cnt generalizing k0 mem with
  | zero => exact hr
  | succ cnt ih =>
    unfold FPGA.compute_for
    exact ih _ _ (cells_in_range_update _ _ _ hr (to_offset_range _))

theorem fpga_compute_range (mem : Int → Int) (d : Nat) (hr : FPGA.cells_in_range mem) :
    FPGA.cells_in_range (FPGA.edit_wavefronts_compute_wavefront mem (d + 1)) := by
  unfold FPGA.edit_wavefronts_compute_wavefront
  exact cells_in_range_update _ _ _ (cells_in_range_update _ _ _
    (fpga_compute_for_range _ _ _ _ _ (cells_in_range_update _ _ _
      (cells_in_range_update _ _ _ hr (to_offset_range _)) (to_offset_range _)))
    (to_offset_range _)) (to_offset_range _)

/-! ## The driver loop of the dense variant -/

/-- The driver loop of the dense variant entered at generation `d` with the tables correct so
far stops at generation `lev P T` with every generation up to it holding its extended
offsets; all cells stay within the offset type and no cell of negative index is written. -/
theorem fpga_align_for_spec (P T : List Char) (hbound : P.length + T.length ≤ 32767) :
    ∀ (rem d : Nat) (mem : Int → Int), rem + d = P.length + T.length →
      d ≤ lev P T →
      (∀ d', d' < d → FPGA.gen_holds mem d' (furthest P T d')) →
      FPGA.gen_holds mem d (furthest_start P T d) →
      FPGA.cells_in_range mem →
      (FPGA.align_for P P.length T T.length ((T.length : Int) - P.length)
        (ABS ((T.length : Int) - P.length)) (to_offset T.length) rem d mem).1 = lev P T ∧
      (∀ d', d' ≤ lev P T →
        FPGA.gen_holds (FPGA.align_for P P.length T T.length ((T.length : Int) - P.length)
          (ABS ((T.length : Int) - P.length)) (to_offset T.length) rem d mem).2
          d' (furthest P T d')) ∧
      FPGA.cells_in_range (FPGA.align_for P P.length T T.length ((T.length : Int) - P.length)
          (ABS ((T.length : Int) - P.length)) (to_offset T.length) rem d mem).2 ∧
      ∀ i : Int, i < 0 →
        (FPGA.align_for P P.length T T.length ((T.length : Int) - P.length)
          (ABS ((T.length : Int) - P.length)) (to_offset T.length) rem d mem).2 i = mem i := by
  intro rem
  induction rem with
  | zero =>
    intro d mem hrem hd hprev hcur hrange
    have l := lev_le_max P T
    have hL : lev P T = d := by omega
    have h0 : P.length = 0 ∨ T.length = 0 := by omega
    unfold FPGA.align_for
    refine ⟨hL.symm, ?_, hrange, fun i _ => rfl⟩
    intro d' hd'
    by_cases e : d' = d
    · subst e
      intro k h1 h2
      show mem (FPGA.OFFSET_IDX (d' : Int) k) = furthest P T d' k
      rw [hcur k h1 h2, furthest_eq_start_of_empty P T d' k h1 h2 h0]
    · exact hprev d' (by omega)
  | succ rem ih =>
    intro d mem hrem hd hprev hcur hrange
    have hext := fpga_extend_spec mem P T d hcur (fun k h1 h2 => by
      have := furthest_le_total P T d k hd h1 h2; omega)
    obtain ⟨hframe, hgen⟩ := hext
    have hrange1 := fpga_extend_range mem P P.length T T.length d hrange
    have hnn := offset_idx_nonneg d
    have hprev1 : ∀ d', d' < d →
        FPGA.gen_holds (FPGA.edit_wavefronts_extend_wavefront mem P P.length T T.length d) d'
          (furthest P T d') := by
      intro d' hd' k h1 h2
      have hlt := offset_idx_lt d' d hd'
      rw [hframe _ (Or.inl (by rw [offset_idx_eq]; omega))]
      exact hprev d' hd' k h1 h2
    have hn : to_offset (T.length : Int) = T.length := to_offset_eq _ (by omega) (by omega)
    unfold FPGA.align_for
    dsimp only
    by_cases hc : ABS ((T.length : Int) - P.length) ≤ (d : Int) ∧
        FPGA.edit_wavefronts_extend_wavefront mem P P.length T T.length d
          (FPGA.OFFSET_IDX (d : Int) ((T.length : Int) - P.length)) = to_offset T.length
    · rw [if_pos hc]
      obtain ⟨c1, c2⟩ := hc
      rw [hn] at c2
      rw [ABS_le_iff] at c1
      rw [hgen _ c1.1 c1.2] at c2
      have hle := furthest_exit_le P T d c1.1 c1.2 (Or.inl c2)
      have hL : lev P T = d := by omega
      refine ⟨hL.symm, ?_, hrange1, fun i hi => hframe i (Or.inl (by omega))⟩
      intro d' hd'
      by_cases e : d' = d
      · subst e; exact hgen
      · exact hprev1 d' (by omega)
    · rw [if_neg hc]
      have hlt : d < lev P T := by
        by_contra hge
        have hL : lev P T = d := by omega
        have ex := furthest_exit P T
        rw [hL] at ex
        apply hc
        refine ⟨(ABS_le_iff _ _).2 ⟨ex.1, ex.2.1⟩, ?_⟩
        rw [hgen _ ex.1 ex.2.1, hn]
        exact ex.2.2
      have hcomp := fpga_compute_spec
        (FPGA.edit_wavefronts_extend_wavefront mem P P.length T T.length d) d (furthest P T d)
        hgen (fun j h1 h2 => by
          have := furthest_le_total P T d j hd h1 h2; omega)
      obtain ⟨hframe2, hgen2⟩ := hcomp
      have hrange2 := fpga_compute_range _ d hrange1
      have hnn2 := offset_idx_nonneg (d + 1)
      have key := ih (d + 1)
        (FPGA.edit_wavefronts_compute_wavefront
          (FPGA.edit_wavefronts_extend_wavefront mem P P.length T T.length d) (d + 1))
        (by omega) (by omega)
        (by
          intro d' hd' k h1 h2
          have hlt' := offset_idx_lt d' (d + 1) hd'
          rw [hframe2 _ (Or.inl (by rw [offset_idx_eq]; omega))]
          by_cases e : d' = d
          · subst e; exact hgen k h1 h2
          · exact hprev1 d' (by omega) k h1 h2)
        hgen2 hrange2
      refine ⟨key.1, key.2.1, key.2.2.1, ?_⟩
      intro i hi
      rw [key.2.2.2 i hi, hframe2 i (Or.inl (by omega)), hframe i (Or.inl (by omega))]

/-! ## The backtrace of the dense variant -/

theorem fpga_backtrace_while_zero (mem : Int → Int) (fuel : Nat) (k offset : Int) :
    FPGA.backtrace_while mem fuel k offset 0 =
      some (backtrace_matches offset.toNat offset) := by
  cases fuel <;> rfl

theorem fpga_backtrace_while_mono (mem : Int → Int) :
    ∀ (fuel : Nat) (k offset : Int) (dist : Nat) (s : List Char),
      FPGA.backtrace_while mem fuel k offset dist = some s →
      FPGA.backtrace_while mem (fuel + 1) k offset dist = some s := by
  intro fuel
  induction fuel with
  | zero =>
    intro k offset dist s hs
    cases dist with
    | zero => rw [fpga_backtrace_while_zero] at hs ⊢; exact hs
    | succ dm1 => simp [FPGA.backtrace_while] at hs
  | succ f ih =>
    intro k offset dist s hs
    cases dist with
    | zero => rw [fpga_backtrace_while_zero] at hs ⊢; exact hs
    | succ dm1 =>
      unfold FPGA.backtrace_while at hs ⊢
      dsimp only at hs ⊢
      split_ifs at hs ⊢ with c1 c2 c3
      all_goals
        rw [Option.map_eq_some'] at hs ⊢
        obtain ⟨s', h1, h2⟩ := hs
        exact ⟨s', ih _ _ _ _ h1, h2⟩

theorem fpga_backtrace_while_mono_le (mem : Int → Int) (fuel fuel' : Nat)
    (k offset : Int) (dist : Nat) (s : List Char) (hle : fuel ≤ fuel')
    (hs : FPGA.backtrace_while mem fuel k offset dist = some s) :
    FPGA.backtrace_while mem fuel' k offset dist = some s := by
  induction hle with
  | refl => exact hs
  | step _ ih => exact fpga_backtrace_while_mono mem _ _ _ _ _ ih

theorem non_match_count_backtrace_matches (f : Nat) (o : Int) :
    non_match_count (backtrace_matches f o) = 0 := by
  induction f generalizing o with
  | zero => rfl
  | succ f ih =>
    unfold backtrace_matches
    split_ifs
    · rw [non_match_count_cons_M]; exact ih _
    · rfl

/-- One generation of the dense backtrace: when some 16-bit value `t` of `offset` makes one
of the three tests succeed, the loop leaves generation `dm1 + 1` after at most
`(offset - t) mod 65536` symbols `'M'`. -/
theorem fpga_bt_cycle (mem : Int → Int) (dm1 F : Nat) (k t : Int)
    (ht : -32768 ≤ t ∧ t ≤ 32767)
    (hfire :
      (-((dm1 : Int) + 1) ≤ k + 1 ∧ k + 1 ≤ (dm1 : Int) + 1 ∧
        t = mem (FPGA.OFFSET_IDX (dm1 : Int) 0 + (k + 1))) ∨
      (-((dm1 : Int) + 1) ≤ k - 1 ∧ k - 1 ≤ (dm1 : Int) + 1 ∧
        t = mem (FPGA.OFFSET_IDX (dm1 : Int) 0 + (k - 1)) + 1) ∨
      (-((dm1 : Int) + 1) ≤ k ∧ k ≤ (dm1 : Int) + 1 ∧
        t = mem (FPGA.OFFSET_IDX (dm1 : Int) 0 + k) + 1))
    (IH : ∀ (k' offset' : Int), -((dm1 : Int) + 1) ≤ k' → k' ≤ (dm1 : Int) + 1 →
      (-32768 ≤ offset' ∧ offset' ≤ 32767) →
      ∃ s, FPGA.backtrace_while mem F k' offset' dm1 = some s ∧ non_match_count s = dm1) :
    ∀ (c : Nat) (offset : Int), (-32768 ≤ offset ∧ offset ≤ 32767) →
      ((offset - t) % 65536).toNat = c →
      ∃ s, FPGA.backtrace_while mem (F + c + 1) k offset (dm1 + 1) = some s ∧
        non_match_count s = dm1 + 1 := by
  have e : (dm1 : Int) + 1 - 1 = (dm1 : Int) := by omega
  intro c
  induction c with
  | zero =>
    intro offset ho hc
    have hot : offset = t := by omega
    unfold FPGA.backtrace_while FPGA.LO_IDX FPGA.HI_IDX
    dsimp only
    rw [e]
    by_cases cD : -((dm1 : Int) + 1) ≤ k + 1 ∧ k + 1 ≤ (dm1 : Int) + 1 ∧
        offset = mem (FPGA.OFFSET_IDX (dm1 : Int) 0 + (k + 1))
    · rw [if_pos cD]
      obtain ⟨s', e1, e2⟩ := IH (k + 1) offset cD.1 cD.2.1 ho
      exact ⟨'D' :: s', by rw [e1]; rfl, by rw [non_match_count_cons_D, e2]⟩
    rw [if_neg cD]
    by_cases cI : -((dm1 : Int) + 1) ≤ k - 1 ∧ k - 1 ≤ (dm1 : Int) + 1 ∧
        offset = mem (FPGA.OFFSET_IDX (dm1 : Int) 0 + (k - 1)) + 1
    · rw [if_pos cI]
      obtain ⟨s', e1, e2⟩ := IH (k - 1) (to_offset (offset - 1)) cI.1 cI.2.1
        (to_offset_range _)
      exact ⟨'I' :: s', by rw [e1]; rfl, by rw [non_match_count_cons_I, e2]⟩
    rw [if_neg cI]
    by_cases cX : -((dm1 : Int) + 1) ≤ k ∧ k ≤ (dm1 : Int) + 1 ∧
        offset = mem (FPGA.OFFSET_IDX (dm1 : Int) 0 + k) + 1
    · rw [if_pos cX]
      obtain ⟨s', e1, e2⟩ := IH k (to_offset (offset - 1)) cX.1 cX.2.1 (to_offset_range _)
      exact ⟨'X' :: s', by rw [e1]; rfl, by rw [non_match_count_cons_X, e2]⟩
    exfalso
    rw [hot] at cD cI cX
    rcases hfire with h | h | h
    · exact cD h
    · exact cI h
    · exact cX h
  | succ c ihc =>
    intro offset ho hc
    unfold FPGA.backtrace_while FPGA.LO_IDX FPGA.HI_IDX
    dsimp only
    rw [e]
    by_cases cD : -((dm1 : Int) + 1) ≤ k + 1 ∧ k + 1 ≤ (dm1 : Int) + 1 ∧
        offset = mem (FPGA.OFFSET_IDX (dm1 : Int) 0 + (k + 1))
    · rw [if_pos cD]
      obtain ⟨s', e1, e2⟩ := IH (k + 1) offset cD.1 cD.2.1 ho
      have e1' := fpga_backtrace_while_mono_le mem F (F + (c + 1)) _ _ _ _ (by omega) e1
      exact ⟨'D' :: s', by rw [e1']; rfl, by rw [non_match_count_cons_D, e2]⟩
    rw [if_neg cD]
    by_cases cI : -((dm1 : Int) + 1) ≤ k - 1 ∧ k - 1 ≤ (dm1 : Int) + 1 ∧
        offset = mem (FPGA.OFFSET_IDX (dm1 : Int) 0 + (k - 1)) + 1
    · rw [if_pos cI]
      obtain ⟨s', e1, e2⟩ := IH (k - 1) (to_offset (offset - 1)) cI.1 cI.2.1
        (to_offset_range _)
      have e1' := fpga_backtrace_while_mono_le mem F (F + (c + 1)) _ _ _ _ (by omega) e1
      exact ⟨'I' :: s', by rw [e1']; rfl, by rw [non_match_count_cons_I, e2]⟩
    rw [if_neg cI]
    by_cases cX : -((dm1 : Int) + 1) ≤ k ∧ k ≤ (dm1 : Int) + 1 ∧
        offset = mem (FPGA.OFFSET_IDX (dm1 : Int) 0 + k) + 1
    · rw [if_pos cX]
      obtain ⟨s', e1, e2⟩ := IH k (to_offset (offset - 1)) cX.1 cX.2.1 (to_offset_range _)
      have e1' := fpga_backtrace_while_mono_le mem F (F + (c + 1)) _ _ _ _ (by omega) e1
      exact ⟨'X' :: s', by rw [e1']; rfl, by rw [non_match_count_cons_X, e2]⟩
    rw [if_neg cX]
    have hc' : ((to_offset (offset - 1) - t) % 65536).toNat = c := by
      unfold to_offset; omega
    obtain ⟨s', e1, e2⟩ := ihc (to_offset (offset - 1)) (to_offset_range _) hc'
    have e1' : FPGA.backtrace_while mem (F + (c + 1)) k (to_offset (offset - 1)) (dm1 + 1) =
        some s' := e1
    exact ⟨'M' :: s', by rw [e1']; rfl, by rw [non_match_count_cons_M, e2]⟩

/-- The dense backtrace terminates from every state it can get into, and the script has as
many symbols other than `'M'` as the generation it starts from. -/
theorem fpga_bt_total (P T : List Char) (hbound : P.length + T.length ≤ 32767)
    (mem : Int → Int) (hr : FPGA.cells_in_range mem)
    (hst : ∀ d', d' ≤ lev P T → FPGA.gen_holds mem d' (furthest P T d')) :
    ∀ (dist : Nat), dist ≤ lev P T → ∀ (k offset : Int),
      -((dist : Int) + 1) ≤ k → k ≤ (dist : Int) + 1 → (-32768 ≤ offset ∧ offset ≤ 32767) →
      ∃ s, FPGA.backtrace_while mem (65536 * dist) k offset dist = some s ∧
        non_match_count s = dist := by
  intro dist
  induction dist with
  | zero =>
    intro _ k offset _ _ _
    exact ⟨_, fpga_backtrace_while_zero _ _ _ _, non_match_count_backtrace_matches _ _⟩
  | succ dm1 ih =>
    intro hd k offset hk1 hk2 ho
    push_cast at hk1 hk2
    have IH : ∀ (k' offset' : Int), -((dm1 : Int) + 1) ≤ k' → k' ≤ (dm1 : Int) + 1 →
        (-32768 ≤ offset' ∧ offset' ≤ 32767) →
        ∃ s, FPGA.backtrace_while mem (65536 * dm1) k' offset' dm1 = some s ∧
          non_match_count s = dm1 := fun k' offset' h1 h2 h3 => ih (by omega) k' offset' h1 h2 h3
    have fin : ∀ t : Int, (-32768 ≤ t ∧ t ≤ 32767) →
        ((-((dm1 : Int) + 1) ≤ k + 1 ∧ k + 1 ≤ (dm1 : Int) + 1 ∧
          t = mem (FPGA.OFFSET_IDX (dm1 : Int) 0 + (k + 1))) ∨
        (-((dm1 : Int) + 1) ≤ k - 1 ∧ k - 1 ≤ (dm1 : Int) + 1 ∧
          t = mem (FPGA.OFFSET_IDX (dm1 : Int) 0 + (k - 1)) + 1) ∨
        (-((dm1 : Int) + 1) ≤ k ∧ k ≤ (dm1 : Int) + 1 ∧
          t = mem (FPGA.OFFSET_IDX (dm1 : Int) 0 + k) + 1)) →
        ∃ s, FPGA.backtrace_while mem (65536 * (dm1 + 1)) k offset (dm1 + 1) = some s ∧
          non_match_count s = dm1 + 1 := by
      intro t ht hfire
      obtain ⟨s, e1, e2⟩ := fpga_bt_cycle mem dm1 (65536 * dm1) k t ht hfire IH
        ((offset - t) % 65536).toNat offset ho rfl
      exact ⟨s, fpga_backtrace_while_mono_le mem _ _ _ _ _ _ (by omega) e1, e2⟩
    by_cases hD : k + 1 ≤ (dm1 : Int) + 1
    · exact fin (mem (FPGA.OFFSET_IDX (dm1 : Int) 0 + (k + 1))) (hr _)
        (Or.inl ⟨by omega, hD, rfl⟩)
    · have hcell : mem (FPGA.OFFSET_IDX (dm1 : Int) 0 + (k - 1)) ≤ 32766 := by
        by_cases hk : k = (dm1 : Int) + 1
        · have hg := hst dm1 (by omega) (dm1 : Int) (by omega) (by omega)
          rw [offset_idx_eq] at hg
          have e : k - 1 = (dm1 : Int) := by omega
          rw [e, hg]
          have b := furthest_le_total P T dm1 (dm1 : Int) (by omega) (by omega) (by omega)
          omega
        · have hk' : k - 1 = (dm1 : Int) + 1 := by omega
          have hg := hst (dm1 + 1) hd (-((dm1 + 1 : Nat) : Int)) (by omega) (by omega)
          rw [offset_idx_eq, offset_idx_succ] at hg
          have e : FPGA.OFFSET_IDX (dm1 : Int) 0 + (k - 1) =
              FPGA.OFFSET_IDX (dm1 : Int) 0 + 2 * (dm1 : Int) + 2 + -((dm1 + 1 : Nat) : Int) := by
            push_cast; omega
          rw [e, hg]
          have b := furthest_bounds P T (dm1 + 1) (-((dm1 + 1 : Nat) : Int)) (by omega)
            (by omega)
          omega
      have hlow := (hr (FPGA.OFFSET_IDX (dm1 : Int) 0 + (k - 1))).1
      exact fin (mem (FPGA.OFFSET_IDX (dm1 : Int) 0 + (k - 1)) + 1) ⟨by omega, by omega⟩
        (Or.inr (Or.inl ⟨by omega, by omega, rfl⟩))

/-! ## The dense run as a whole -/

/-- Total correctness of the score of one dense run, for inputs within the offset range and
any initial 16-bit content of the buffer: the run returns the edit distance and a script
with as many symbols other than `'M'` as the score. -/
theorem fpga_run_spec (P T : List Char) (hbound : P.length + T.length ≤ 32767)
    (mem0 : Int → Int) (hr0 : FPGA.cells_in_range mem0) :
    ∃ cigar : List Char,
      (∀ fuel : Nat, 65536 * lev P T ≤ fuel →
        FPGA.wfa_edit_alignment_fpga fuel mem0 P T = some (lev P T, cigar)) ∧
      non_match_count cigar = lev P T := by
  have hg0 : FPGA.gen_holds (Function.update mem0 0 0) 0 (furthest_start P T 0) := by
    intro k h1 h2
    have hk : k = 0 := by push_cast at h1 h2; omega
    subst hk
    rw [offset_idx_zero, Function.update_same]
    rfl
  have hfor := fpga_align_for_spec P T hbound (P.length + T.length) 0
    (Function.update mem0 0 0) rfl (Nat.zero_le _)
    (fun d' hd' => absurd hd' (Nat.not_lt_zero _)) hg0
    (cells_in_range_update _ _ _ hr0 (by omega))
  obtain ⟨hscore, hstore, hrange, _⟩ := hfor
  have ex := furthest_exit P T
  have hbt := fpga_bt_total P T hbound _ hrange hstore (lev P T) (le_refl _)
    ((T.length : Int) - P.length)
    (to_offset ((FPGA.align_for P P.length T T.length ((T.length : Int) - P.length)
      (ABS ((T.length : Int) - P.length)) (to_offset T.length) (P.length + T.length) 0
      (Function.update mem0 0 0)).2
        (FPGA.OFFSET_IDX (lev P T : Int) ((T.length : Int) - P.length))))
    (by omega) (by omega) (to_offset_range _)
  obtain ⟨cigar, hc1, hc2⟩ := hbt
  refine ⟨cigar, ?_, hc2⟩
  intro fuel hfuel
  have hc1' := fpga_backtrace_while_mono_le _ _ fuel _ _ _ _ hfuel hc1
  have htn : ((P.length : Int) + (T.length : Int)).toNat = P.length + T.length := by omega
  unfold FPGA.wfa_edit_alignment_fpga FPGA.edit_wavefronts_align FPGA.edit_wavefronts_backtrace
  dsimp only
  unfold EWAVEFRONT_DIAGONAL EWAVEFRONT_OFFSET
  rw [htn, hscore, hc1']
  rfl

/-! ## The edit distance as a least number of single-symbol edits -/

theorem edit_step_cons (z : Char) {xs ys : List Char} (h : edit_step xs ys) :
    edit_step (z :: xs) (z :: ys) := by
  cases h with
  | ins a b c => exact edit_step.ins (z :: a) b c
  | del a b c => exact edit_step.del (z :: a) b c
  | sub a b c c' => exact edit_step.sub (z :: a) b c c'

theorem edit_chain_cons (z : Char) {n : Nat} {xs ys : List Char} (h : edit_chain n xs ys) :
    edit_chain n (z :: xs) (z :: ys) := by
  induction h with
  | refl xs => exact edit_chain.refl _
  | step hs _ ih => exact edit_chain.step (edit_step_cons z hs) ih

theorem edit_chain_cast {n n' : Nat} {xs ys : List Char} (e : n = n')
    (h : edit_chain n xs ys) : edit_chain n' xs ys := e ▸ h

theorem lev_edit_step {xs ys : List Char} (h : edit_step xs ys) : lev xs ys ≤ 1 := by
  cases h with
  | ins a b c =>
    have h1 := lev_append_le a a b (c :: b)
    have h2 := lev_cons_right_le b c b
    rw [lev_self] at h1 h2
    omega
  | del a b c =>
    have h1 := lev_append_le a a (c :: b) b
    have h2 := lev_cons_left_le c b b
    rw [lev_self] at h1 h2
    omega
  | sub a b c c' =>
    have h1 := lev_append_le a a (c :: b) (c' :: b)
    have h2 : lev (c :: b) (c' :: b) ≤ 1 := by
      rw [lev_cons_cons, lev_self]; split_ifs <;> omega
    rw [lev_self] at h1
    omega

/-- No chain of single-symbol edits is shorter than the edit distance. -/
theorem lev_le_edit_chain {n : Nat} {xs ys : List Char} (h : edit_chain n xs ys) :
    lev xs ys ≤ n := by
  induction h with
  | refl xs => rw [lev_self]
  | @step n xs ys zs hs _ ih =>
    have h1 := lev_triangle xs ys zs
    have h2 := lev_edit_step hs
    omega

/-- A chain of exactly `lev xs ys` single-symbol edits turns `xs` into `ys`. -/
theorem edit_chain_lev (xs ys : List Char) : edit_chain (lev xs ys) xs ys := by
  induction xs generalizing ys with
  | nil =>
    induction ys with
    | nil => rw [lev_nil_nil]; exact edit_chain.refl _
    | cons y ys ih =>
      rw [lev_nil_cons]
      exact edit_chain_cast (by omega)
        (edit_chain.step (edit_step.ins [] [] y) (edit_chain_cons y ih))
  | cons x xs ihx =>
    induction ys with
    | nil =>
      rw [lev_cons_nil]
      exact edit_chain_cast (by omega) (edit_chain.step (edit_step.del [] xs x) (ihx []))
    | cons y ys ihy =>
      have cD : edit_chain (lev xs (y :: ys) + 1) (x :: xs) (y :: ys) :=
        edit_chain.step (edit_step.del [] xs x) (ihx (y :: ys))
      have cI : edit_chain (lev (x :: xs) ys + 1) (x :: xs) (y :: ys) :=
        edit_chain.step (edit_step.ins [] (x :: xs) y) (edit_chain_cons y ihy)
      rw [lev_cons_cons]
      by_cases hxy : x = y
      · subst hxy
        have cM : edit_chain (lev xs ys) (x :: xs) (x :: ys) := edit_chain_cons x (ihx ys)
        rw [if_pos rfl]
        rcases Nat.lt_or_ge (1 + lev xs (x :: ys)) (min (1 + lev (x :: xs) ys) (0 + lev xs ys))
          with h1 | h1
        · exact edit_chain_cast (by omega) cD
        · rcases Nat.lt_or_ge (1 + lev (x :: xs) ys) (0 + lev xs ys) with h2 | h2
          · exact edit_chain_cast (by omega) cI
          · exact edit_chain_cast (by omega) cM
      · have cS : edit_chain (lev xs ys + 1) (x :: xs) (y :: ys) :=
          edit_chain.step (edit_step.sub [] xs x y) (edit_chain_cons y (ihx ys))
        rw [if_neg hxy]
        rcases Nat.lt_or_ge (1 + lev xs (y :: ys)) (min (1 + lev (x :: xs) ys) (1 + lev xs ys))
          with h1 | h1
        · exact edit_chain_cast (by omega) cD
        · rcases Nat.lt_or_ge (1 + lev (x :: xs) ys) (1 + lev xs ys) with h2 | h2
          · exact edit_chain_cast (by omega) cI
          · exact edit_chain_cast (by omega) cS

/-! ## Scripts on the border of the rectangle, all-match scripts, and forward replay -/

theorem walk_back_left_edge (P T : List Char) (s : List Char) :
    ∀ h : Nat, walk_back P T s 0 h = some (0, 0) → s = List.replicate h 'I' := by
  induction s with
  | nil =>
    intro h hw
    simp only [walk_back, Option.some.injEq, Prod.mk.injEq] at hw
    rw [hw.2]; rfl
  | cons c s ih =>
    intro h hw
    unfold walk_back at hw
    split_ifs at hw with c1 c2 c3 c4 c5 c6 c7 c8
    · omega
    · omega
    · obtain ⟨h', rfl⟩ : ∃ h', h = h' + 1 := ⟨h - 1, by omega⟩
      rw [List.replicate_succ, c5, ih _ hw]
      rfl
    · omega

theorem walk_back_bottom_edge (P T : List Char) (s : List Char) :
    ∀ v : Nat, walk_back P T s v 0 = some (0, 0) → s = List.replicate v 'D' := by
  induction s with
  | nil =>
    intro v hw
    simp only [walk_back, Option.some.injEq, Prod.mk.injEq] at hw
    rw [hw.1]; rfl
  | cons c s ih =>
    intro v hw
    unfold walk_back at hw
    split_ifs at hw with c1 c2 c3 c4 c5 c6 c7 c8
    · omega
    · omega
    · omega
    · obtain ⟨v', rfl⟩ : ∃ v', v = v' + 1 := ⟨v - 1, by omega⟩
      rw [List.replicate_succ, c7, ih _ hw]
      rfl

theorem walk_back_all_match (P T : List Char) (s : List Char) :
    ∀ v h : Nat, non_match_count s = 0 → walk_back P T s v h = some (0, 0) →
      s = List.replicate v 'M' := by
  induction s with
  | nil =>
    intro v h _ hw
    simp only [walk_back, Option.some.injEq, Prod.mk.injEq] at hw
    rw [hw.1]; rfl
  | cons c s ih =>
    intro v h hc hw
    by_cases hM : c = 'M'
    · subst hM
      rw [non_match_count_cons_M] at hc
      rw [walk_back_cons_M] at hw
      split_ifs at hw with c1
      obtain ⟨v', rfl⟩ : ∃ v', v = v' + 1 := ⟨v - 1, by omega⟩
      rw [List.replicate_succ, ih _ _ hc hw]
      rfl
    · exfalso
      simp [non_match_count, hM] at hc

theorem replay_append (P T : List Char) (s1 s2 : List Char) :
    ∀ v h : Nat, replay P T (s1 ++ s2) v h =
      (replay P T s1 v h).bind (fun p => replay P T s2 p.1 p.2) := by
  induction s1 with
  | nil => intro v h; rfl
  | cons c s1 ih =>
    intro v h
    rw [List.cons_append, replay, replay]
    split_ifs <;> first | exact ih _ _ | rfl

/-- A script that walks back from `(v,h)` to `(v',h')` replays forwards, in reverse order,
from `(v',h')` to `(v,h)`. -/
theorem walk_back_replay (P T : List Char) (s : List Char) :
    ∀ v h v' h' : Nat, v ≤ P.length → h ≤ T.length →
      walk_back P T s v h = some (v', h') → replay P T s.reverse v' h' = some (v, h) := by
  induction s with
  | nil =>
    intro v h v' h' _ _ hw
    simp only [walk_back, Option.some.injEq, Prod.mk.injEq] at hw
    rw [hw.1, hw.2]; rfl
  | cons c s ih =>
    intro v h v' h' hv hh hw
    rw [List.reverse_cons, replay_append]
    unfold walk_back at hw
    split_ifs at hw with c1 c2 c3 c4 c5 c6 c7 c8
    · rw [ih _ _ _ _ (by omega) (by omega) hw, c1]
      have e1 : v - 1 + 1 = v := by omega
      have e2 : h - 1 + 1 = h := by omega
      simp [replay, c2.2.2.2.2, e1, e2]
      omega
    · rw [ih _ _ _ _ (by omega) (by omega) hw, c3]
      have e1 : v - 1 + 1 = v := by omega
      have e2 : h - 1 + 1 = h := by omega
      simp [replay, c4.2.2.2.2, e1, e2]
      omega
    · rw [ih _ _ _ _ (by omega) (by omega) hw, c5]
      have e2 : h - 1 + 1 = h := by omega
      simp [replay, e2]
      omega
    · rw [ih _ _ _ _ (by omega) (by omega) hw, c7]
      have e1 : v - 1 + 1 = v := by omega
      simp [replay, e1]
      omega

/-! ## Results of whole runs -/

theorem lev_eq_levenshtein (P T : List Char) :
    lev P T = levenshtein Levenshtein.defaultCost P T := rfl

/-- The run of `edit_wavefronts_align` is the backtrace started from the state in which the
driver loop stops. -/
theorem cpu_align_unfold (fuel : Nat) (P T : List Char) :
    CPU.wfa_edit_alignment_cpu fuel P T =
      (CPU.edit_wavefronts_backtrace fuel (CPU.driver_loop P T).2
        (EWAVEFRONT_DIAGONAL T.length P.length) (CPU.driver_loop P T).1).map
        fun cigar => ((CPU.driver_loop P T).1, cigar) := by
  unfold CPU.wfa_edit_alignment_cpu CPU.edit_wavefronts_align CPU.driver_loop
  dsimp only
  rw [Option.map_map]
  rfl

theorem fpga_align_unfold (fuel : Nat) (mem0 : Int → Int) (P T : List Char) :
    FPGA.wfa_edit_alignment_fpga fuel mem0 P T =
      (FPGA.edit_wavefronts_backtrace fuel (FPGA.driver_loop mem0 P T).2
        (EWAVEFRONT_DIAGONAL T.length P.length) (FPGA.driver_loop mem0 P T).1).map
        fun cigar => ((FPGA.driver_loop mem0 P T).1, cigar) := by
  unfold FPGA.wfa_edit_alignment_fpga FPGA.edit_wavefronts_align FPGA.driver_loop
  dsimp only
  rw [Option.map_map]
  rfl

/-- A run returns at most one result. -/
theorem cpu_returns_unique {P T : List Char} {s s' : Nat} {c c' : List Char}
    (h : CPU.returns P T s c) (h' : CPU.returns P T s' c') : s = s' ∧ c = c' := by
  obtain ⟨f, hf⟩ := h
  obtain ⟨f', hf'⟩ := h'
  have e := hf (max f f') (le_max_left _ _)
  rw [hf' (max f f') (le_max_right _ _)] at e
  simp only [Option.some.injEq, Prod.mk.injEq] at e
  exact ⟨e.1.symm, e.2.symm⟩

theorem fpga_returns_unique {mem0 : Int → Int} {P T : List Char} {s s' : Nat}
    {c c' : List Char} (h : FPGA.returns mem0 P T s c) (h' : FPGA.returns mem0 P T s' c') :
    s = s' ∧ c = c' := by
  obtain ⟨f, hf⟩ := h
  obtain ⟨f', hf'⟩ := h'
  have e := hf (max f f') (le_max_left _ _)
  rw [hf' (max f f') (le_max_right _ _)] at e
  simp only [Option.some.injEq, Prod.mk.injEq] at e
  exact ⟨e.1.symm, e.2.symm⟩

/-- What an amortized-growth run returns, for inputs within the offset range. -/
theorem cpu_returns_spec (P T : List Char) (hbound : P.length + T.length ≤ 32767) :
    ∃ cigar : List Char, CPU.returns P T (lev P T) cigar ∧
      walk_back P T cigar P.length T.length = some (0, 0) ∧
      non_match_count cigar = lev P T := by
  obtain ⟨cigar, h1, h2, h3⟩ := cpu_run_spec P T hbound
  exact ⟨cigar, ⟨P.length + T.length, h1⟩, h2, h3⟩

/-- What a dense run returns, for inputs within the offset range. -/
theorem fpga_returns_spec (P T : List Char) (hbound : P.length + T.length ≤ 32767)
    (mem0 : Int → Int) (hr0 : FPGA.cells_in_range mem0) :
    ∃ cigar : List Char, FPGA.returns mem0 P T (lev P T) cigar ∧
      non_match_count cigar = lev P T := by
  obtain ⟨cigar, h1, h2⟩ := fpga_run_spec P T hbound mem0 hr0
  exact ⟨cigar, ⟨65536 * lev P T, h1⟩, h2⟩

/-- The state in which the driver loop of the amortized-growth variant stops. -/
theorem cpu_driver_loop_spec (P T : List Char) (hbound : P.length + T.length ≤ 32767) :
    (CPU.driver_loop P T).1 = lev P T ∧
    ∀ d', d' ≤ lev P T →
      CPU.gen_holds ((CPU.driver_loop P T).2.wavefronts d') d' (furthest P T d') := by
  have htn : ((P.length : Int) + (T.length : Int)).toNat = P.length + T.length := by omega
  unfold CPU.driver_loop EWAVEFRONT_DIAGONAL EWAVEFRONT_OFFSET
  dsimp only
  rw [htn]
  exact cpu_align_for_spec P T hbound (P.length + T.length) 0 _ rfl (Nat.zero_le _)
    (fun d' hd' => absurd hd' (Nat.not_lt_zero _)) (cpu_init_gen _ P T)

/-- The state in which the driver loop of the dense variant stops. -/
theorem fpga_driver_loop_spec (P T : List Char) (hbound : P.length + T.length ≤ 32767)
    (mem0 : Int → Int) (hr0 : FPGA.cells_in_range mem0) :
    (FPGA.driver_loop mem0 P T).1 = lev P T ∧
    (∀ d', d' ≤ lev P T →
      FPGA.gen_holds (FPGA.driver_loop mem0 P T).2 d' (furthest P T d')) ∧
    FPGA.cells_in_range (FPGA.driver_loop mem0 P T).2 ∧
    ∀ i : Int, i < 0 → (FPGA.driver_loop mem0 P T).2 i = mem0 i := by
  have htn : ((P.length : Int) + (T.length : Int)).toNat = P.length + T.length := by omega
  have hg0 : FPGA.gen_holds (Function.update mem0 0 0) 0 (furthest_start P T 0) := by
    intro k h1 h2
    have hk : k = 0 := by push_cast at h1 h2; omega
    subst hk
    rw [offset_idx_zero, Function.update_same]
    rfl
  unfold FPGA.driver_loop EWAVEFRONT_DIAGONAL EWAVEFRONT_OFFSET
  rw [htn]
  have key := fpga_align_for_spec P T hbound (P.length + T.length) 0
    (Function.update mem0 0 0) rfl (Nat.zero_le _)
    (fun d' hd' => absurd hd' (Nat.not_lt_zero _)) hg0
    (cells_in_range_update _ _ _ hr0 (by omega))
  refine ⟨key.1, key.2.1, key.2.2.1, ?_⟩
  intro i hi
  rw [key.2.2.2 i hi, Function.update_noteq (by omega)]

/-! ## Runs evaluated with a given amount of fuel -/

/-- A result obtained with some amount of fuel is the result of the run. -/
theorem cpu_returns_of_run {fuel : Nat} {P T : List Char} {s : Nat} {c : List Char}
    (h : CPU.wfa_edit_alignment_cpu fuel P T = some (s, c)) : CPU.returns P T s c := by
  refine ⟨fuel, ?_⟩
  intro fuel' hle
  rw [cpu_align_unfold] at h ⊢
  unfold CPU.edit_wavefronts_backtrace at h ⊢
  dsimp only at h ⊢
  cases hb : CPU.backtrace_while (CPU.driver_loop P T).2 fuel
      (EWAVEFRONT_DIAGONAL T.length P.length)
      (to_offset (((CPU.driver_loop P T).2.wavefronts (CPU.driver_loop P T).1).offsets
        (EWAVEFRONT_DIAGONAL T.length P.length))) (CPU.driver_loop P T).1 with
  | none => rw [hb] at h; simp at h
  | some s0 =>
    rw [hb] at h
    rw [cpu_backtrace_while_mono_le _ _ _ _ _ _ _ hle hb]
    exact h

theorem fpga_returns_of_run {fuel : Nat} {mem0 : Int → Int} {P T : List Char} {s : Nat}
    {c : List Char} (h : FPGA.wfa_edit_alignment_fpga fuel mem0 P T = some (s, c)) :
    FPGA.returns mem0 P T s c := by
  refine ⟨fuel, ?_⟩
  intro fuel' hle
  rw [fpga_align_unfold] at h ⊢
  unfold FPGA.edit_wavefronts_backtrace at h ⊢
  dsimp only at h ⊢
  cases hb : FPGA.backtrace_while (FPGA.driver_loop mem0 P T).2 fuel
      (EWAVEFRONT_DIAGONAL T.length P.length)
      (to_offset ((FPGA.driver_loop mem0 P T).2
        (FPGA.OFFSET_IDX (FPGA.driver_loop mem0 P T).1 (EWAVEFRONT_DIAGONAL T.length P.length))))
      (FPGA.driver_loop mem0 P T).1 with
  | none => rw [hb] at h; simp at h
  | some s0 =>
    rw [hb] at h
    rw [fpga_backtrace_while_mono_le _ _ _ _ _ _ _ hle hb]
    exact h

theorem c11_acgt_agt :
    CPU.returns ['A', 'C', 'G', 'T'] ['A', 'G', 'T'] 1 ['M', 'M', 'D', 'M'] ∧
    List.count 'D' ['M', 'M', 'D', 'M'] = 1 ∧ List.count 'I' ['M', 'M', 'D', 'M'] = 0 ∧
    List.count 'X' ['M', 'M', 'D', 'M'] = 0 ∧ List.count 'M' ['M', 'M', 'D', 'M'] = 3 :=
  ⟨cpu_returns_of_run (by decide : CPU.wfa_edit_alignment_cpu 7 _ _ = _), by decide, by decide,
    by decide, by decide⟩

theorem c12_scripts_differ :
    CPU.returns ['A', 'B'] ['B', 'A'] 2 ['D', 'M', 'I'] ∧
    FPGA.returns (fun _ => 0) ['A', 'B'] ['B', 'A'] 2 ['D', 'X', 'M'] ∧
    walk_back ['A', 'B'] ['B', 'A'] ['D', 'M', 'I'] 2 2 = some (0, 0) ∧
    walk_back ['A', 'B'] ['B', 'A'] ['D', 'X', 'M'] 2 2 = none :=
  ⟨cpu_returns_of_run (by decide : CPU.wfa_edit_alignment_cpu 3 _ _ = _),
    fpga_returns_of_run (by decide : FPGA.wfa_edit_alignment_fpga 3 _ _ _ = _),
    by decide, by decide⟩

/-! ## The checker of result files -/

/-- The checker accepts no script of positive length: its loop never advances `i`, so the
final test `i != cigar_length` fails. -/
theorem check_false_of_pos (cigar : List Char) (cigar_length score : Int)
    (ref_file : Option (List Char)) (h : 0 < cigar_length) :
    edit_wavefronts_check cigar cigar_length score ref_file = false := by
  have hw : ∀ content r, check_while cigar cigar_length 0 content = some r → r.2 = 0 := by
    intro content
    induction content with
    | nil => intro r hr; simp [check_while] at hr; rw [← hr]
    | cons c rest ih =>
      intro r hr
      unfold check_while at hr
      split_ifs at hr with h1 h2
      · exact ih r hr
      · simp at hr; rw [← hr]
  unfold edit_wavefronts_check
  cases ref_file with
  | none => rfl
  | some content =>
    dsimp only
    cases hs : fscanf_d content with
    | none => rfl
    | some p =>
      obtain ⟨score_ref, rest⟩ := p
      dsimp only
      split_ifs with h1
      · rfl
      · cases hc : check_while cigar cigar_length 0 (fgetc rest).2 with
        | none => rfl
        | some r =>
          obtain ⟨ref_ch, i⟩ := r
          have := hw _ _ hc
          dsimp only at this ⊢
          subst this
          rw [if_pos (Or.inr (by omega))]

/-! ## Longest common prefixes and the greedy run -/

theorem lcp_nil_right (s : List Char) : lcp s [] = 0 := by
  cases s <;> rfl

theorem lcp_nil_left (t : List Char) : lcp [] t = 0 := rfl

/-- The first `lcp s t` symbols of `s` and `t` agree, and no longer prefix is common. -/
theorem lcp_spec (s t : List Char) :
    s.take (lcp s t) = t.take (lcp s t) ∧
    ∀ l : Nat, l ≤ s.length → l ≤ t.length → s.take l = t.take l → l ≤ lcp s t := by
  induction s generalizing t with
  | nil =>
    refine ⟨by simp [lcp], ?_⟩
    intro l h1 _ _
    simp at h1
    omega
  | cons a s ih =>
    cases t with
    | nil =>
      refine ⟨by simp [lcp], ?_⟩
      intro l _ h2 _
      simp at h2
      omega
    | cons b t =>
      unfold lcp
      by_cases hab : a = b
      · subst hab
        rw [if_pos rfl]
        obtain ⟨i1, i2⟩ := ih t
        refine ⟨by rw [List.take_succ_cons, List.take_succ_cons, i1], ?_⟩
        intro l h1 h2 h3
        cases l with
        | zero => omega
        | succ l =>
          rw [List.take_succ_cons, List.take_succ_cons] at h3
          have := i2 l (by simpa using h1) (by simpa using h2) (List.cons.inj h3).2
          omega
      · rw [if_neg hab]
        refine ⟨by simp, ?_⟩
        intro l h1 h2 h3
        cases l with
        | zero => omega
        | succ l =>
          rw [List.take_succ_cons, List.take_succ_cons] at h3
          exact absurd (List.cons.inj h3).1 hab

/-- The greedy run from a position inside the quadrant advances by the length of the longest
common prefix of the two suffixes. -/
theorem ext_run_eq_lcp (P T : List Char) (f : Nat) (k o : Int) (h0 : 0 ≤ o) (hk : k ≤ o)
    (hf : ((T.length : Int) - o).toNat ≤ f) :
    ext_run P T f k o = o + lcp (P.drop (o - k).toNat) (T.drop o.toNat) := by
  induction f generalizing o with
  | zero =>
    have hT : T.drop o.toNat = [] := List.drop_of_length_le (by omega)
    rw [hT, lcp_nil_right]
    simp [ext_run]
  | succ f ih =>
    unfold ext_run
    by_cases hc : o - k < P.length ∧ o < T.length ∧ char_at P (o - k) = char_at T o
    · rw [if_pos hc]
      obtain ⟨c1, c2, c3⟩ := hc
      have hv : (o - k).toNat < P.length := by omega
      have hh : o.toNat < T.length := by omega
      have e1 : char_at P (o - k) = P[(o - k).toNat]? := by
        unfold char_at; rw [if_pos (by omega)]
      have e2 : char_at T o = T[o.toNat]? := by
        unfold char_at; rw [if_pos (by omega)]
      rw [e1, e2, List.getElem?_eq_getElem hv, List.getElem?_eq_getElem hh] at c3
      have c3' := Option.some.inj c3
      rw [ih (o + 1) (by omega) (by omega) (by omega)]
      rw [List.drop_eq_getElem_cons hv, List.drop_eq_getElem_cons hh]
      have e3 : (o + 1 - k).toNat = (o - k).toNat + 1 := by omega
      have e4 : (o + 1).toNat = o.toNat + 1 := by omega
      rw [e3, e4]
      conv_rhs => unfold lcp
      rw [if_pos c3']
      push_cast
      ring
    · rw [if_neg hc]
      suffices h : lcp (P.drop (o - k).toNat) (T.drop o.toNat) = 0 by rw [h]; simp
      by_cases c1 : o - k < P.length
      · by_cases c2 : o < T.length
        · have hv : (o - k).toNat < P.length := by omega
          have hh : o.toNat < T.length := by omega
          have e1 : char_at P (o - k) = P[(o - k).toNat]? := by
            unfold char_at; rw [if_pos (by omega)]
          have e2 : char_at T o = T[o.toNat]? := by
            unfold char_at; rw [if_pos (by omega)]
          have c3 : ¬ (char_at P (o - k) = char_at T o) := fun h => hc ⟨c1, c2, h⟩
          rw [e1, e2, List.getElem?_eq_getElem hv, List.getElem?_eq_getElem hh] at c3
          rw [List.drop_eq_getElem_cons hv, List.drop_eq_getElem_cons hh]
          unfold lcp
          rw [if_neg (fun h => c3 (by rw [h]))]
        · have hT : T.drop o.toNat = [] := List.drop_of_length_le (by omega)
          rw [hT, lcp_nil_right]
      · have hP : P.drop (o - k).toNat = [] := List.drop_of_length_le (by omega)
        rw [hP, lcp_nil_left]

/-- The greedy run stops at the end of the pattern at the latest. -/
theorem ext_run_le_pattern (P T : List Char) (f : Nat) (k o : Int) :
    ext_run P T f k o - k ≤ max (o - k) P.length := by
  induction f generalizing o with
  | zero => simp [ext_run]
  | succ f ih =>
    unfold ext_run
    split_ifs with hc
    · have := ih (o + 1); omega
    · omega

/-- One diagonal of the extend loop inside the quadrant, for a text within the offset range:
the stored offset advances by the longest common prefix of the two suffixes. -/
theorem extend_while_eq_lcp (P T : List Char) (k o : Int) (hn : T.length ≤ 32767)
    (h0 : 0 ≤ o) (hk : k ≤ o) (h2 : o ≤ 32767) :
    extend_while P P.length T T.length ((T.length : Int) - o).toNat (o - k) o o =
      o + lcp (P.drop (o - k).toNat) (T.drop o.toNat) := by
  have hle := ext_run_le P T ((T.length : Int) - o).toNat k o
  rw [extend_while_eq P T _ k o (by omega) (by omega)]
  exact ext_run_eq_lcp P T _ k o h0 hk (le_refl _)

/-! ## The extend steps of the driver loop -/

/-- Every extend step of the driver loop, entered at generation `d` with the tables correct
so far, is taken at a generation up to `lev P T`, on a store holding the start offsets of that
generation, and leaves the store holding its extended offsets. -/
theorem cpu_align_for_extends_spec (P T : List Char) (hbound : P.length + T.length ≤ 32767) :
    ∀ (rem d : Nat) (wfs : CPU.edit_wavefronts_t), rem + d = P.length + T.length →
      d ≤ lev P T →
      CPU.gen_holds (wfs.wavefronts d) d (furthest_start P T d) →
      ∀ step ∈ CPU.align_for_extends P P.length T T.length ((T.length : Int) - P.length)
          (ABS ((T.length : Int) - P.length)) (to_offset T.length) rem d wfs,
        step.1 ≤ lev P T ∧
        CPU.gen_holds (step.2.1.wavefronts step.1) step.1 (furthest_start P T step.1) ∧
        CPU.gen_holds (step.2.2.wavefronts step.1) step.1 (furthest P T step.1) := by
  intro rem
  induction rem with
  | zero =>
    intro d wfs _ _ _ step hstep
    simp [CPU.align_for_extends] at hstep
  | succ rem ih =>
    intro d wfs hrem hd hcur step hstep
    have hext := cpu_extend_spec wfs P T d hcur (fun k h1 h2 => by
      have := furthest_le_total P T d k hd h1 h2; omega)
    obtain ⟨hother, hgen⟩ := hext
    have hn : to_offset (T.length : Int) = T.length := to_offset_eq _ (by omega) (by omega)
    unfold CPU.align_for_extends at hstep
    dsimp only at hstep
    rw [List.mem_cons] at hstep
    rcases hstep with hhead | htail
    · subst hhead
      exact ⟨hd, hcur, hgen⟩
    · by_cases hc : ABS ((T.length : Int) - P.length) ≤ (d : Int) ∧
          ((CPU.edit_wavefronts_extend_wavefront wfs P P.length T T.length d).wavefronts
            d).offsets ((T.length : Int) - P.length) = to_offset T.length
      · rw [if_pos hc] at htail
        simp at htail
      · rw [if_neg hc] at htail
        have hlt : d < lev P T := by
          by_contra hge
          have hL : lev P T = d := by omega
          have ex := furthest_exit P T
          rw [hL] at ex
          apply hc
          refine ⟨(ABS_le_iff _ _).2 ⟨ex.1, ex.2.1⟩, ?_⟩
          rw [hgen.2.2 _ ex.1 ex.2.1, hn]
          exact ex.2.2
        have hcomp := cpu_compute_spec
          (CPU.edit_wavefronts_extend_wavefront wfs P P.length T T.length d) d (furthest P T d)
          hgen (fun j h1 h2 => by
            have := furthest_le_total P T d j hd h1 h2; omega)
        exact ih (d + 1) _ (by omega) (by omega) hcomp.2 step htail

/-- The extend steps of a run, for inputs within the offset range. -/
theorem cpu_extend_steps_spec (P T : List Char) (hbound : P.length + T.length ≤ 32767) :
    ∀ step ∈ CPU.extend_steps P T,
      step.1 ≤ lev P T ∧
      CPU.gen_holds (step.2.1.wavefronts step.1) step.1 (furthest_start P T step.1) ∧
      CPU.gen_holds (step.2.2.wavefronts step.1) step.1 (furthest P T step.1) := by
  have htn : ((P.length : Int) + (T.length : Int)).toNat = P.length + T.length := by omega
  unfold CPU.extend_steps EWAVEFRONT_DIAGONAL EWAVEFRONT_OFFSET
  dsimp only
  rw [htn]
  exact cpu_align_for_extends_spec P T hbound (P.length + T.length) 0 _ rfl (Nat.zero_le _)
    (cpu_init_gen _ P T)

/-- The generations at which the driver loop calls the extend step, in order: from the
generation at which the loop is entered up to `lev P T`, as far as the trip count allows. -/
theorem cpu_align_for_extends_generations (P T : List Char)
    (hbound : P.length + T.length ≤ 32767) :
    ∀ (rem d : Nat) (wfs : CPU.edit_wavefronts_t), rem + d = P.length + T.length →
      d ≤ lev P T →
      CPU.gen_holds (wfs.wavefronts d) d (furthest_start P T d) →
      (CPU.align_for_extends P P.length T T.length ((T.length : Int) - P.length)
          (ABS ((T.length : Int) - P.length)) (to_offset T.length) rem d wfs).map Prod.fst =
        List.range' d (min (lev P T + 1 - d) rem) := by
  intro rem
  induction rem with
  | zero =>
    intro d wfs _ _ _
    simp [CPU.align_for_extends]
  | succ rem ih =>
    intro d wfs hrem hd hcur
    have hext := cpu_extend_spec wfs P T d hcur (fun k h1 h2 => by
      have := furthest_le_total P T d k hd h1 h2; omega)
    obtain ⟨hother, hgen⟩ := hext
    have hn : to_offset (T.length : Int) = T.length := to_offset_eq _ (by omega) (by omega)
    unfold CPU.align_for_extends
    dsimp only
    rw [List.map_cons]
    by_cases hc : ABS ((T.length : Int) - P.length) ≤ (d : Int) ∧
        ((CPU.edit_wavefronts_extend_wavefront wfs P P.length T T.length d).wavefronts
          d).offsets ((T.length : Int) - P.length) = to_offset T.length
    · rw [if_pos hc]
      obtain ⟨c1, c2⟩ := hc
      rw [hn] at c2
      rw [ABS_le_iff] at c1
      rw [hgen.2.2 _ c1.1 c1.2] at c2
      have hle := furthest_exit_le P T d c1.1 c1.2 (Or.inl c2)
      have e : min (lev P T + 1 - d) (rem + 1) = 1 := by omega
      rw [e]
      rfl
    · rw [if_neg hc]
      have hlt : d < lev P T := by
        by_contra hge
        have hL : lev P T = d := by omega
        have ex := furthest_exit P T
        rw [hL] at ex
        apply hc
        refine ⟨(ABS_le_iff _ _).2 ⟨ex.1, ex.2.1⟩, ?_⟩
        rw [hgen.2.2 _ ex.1 ex.2.1, hn]
        exact ex.2.2
      have hcomp := cpu_compute_spec
        (CPU.edit_wavefronts_extend_wavefront wfs P P.length T T.length d) d (furthest P T d)
        hgen (fun j h1 h2 => by
          have := furthest_le_total P T d j hd h1 h2; omega)
      rw [ih (d + 1) _ (by omega) (by omega) hcomp.2]
      have e : min (lev P T + 1 - d) (rem + 1) = min (lev P T + 1 - (d + 1)) rem + 1 := by
        omega
      rw [e, List.range'_succ]

/-- The driver loop extends the generations `0, 1, ...` up to `lev P T`, except that it
never extends generation `m + n`. -/
theorem cpu_extend_steps_generations (P T : List Char)
    (hbound : P.length + T.length ≤ 32767) :
    (CPU.extend_steps P T).map Prod.fst =
      List.range (min (lev P T + 1) (P.length + T.length)) := by
  have htn : ((P.length : Int) + (T.length : Int)).toNat = P.length + T.length := by omega
  unfold CPU.extend_steps EWAVEFRONT_DIAGONAL EWAVEFRONT_OFFSET
  dsimp only
  rw [htn, cpu_align_for_extends_generations P T hbound (P.length + T.length) 0 _ rfl
    (Nat.zero_le _) (cpu_init_gen _ P T), List.range_eq_range']
  rfl

/-! ## The dense run and the initial content of its buffer -/

/-- The backtrace loop of the dense variant started at a generation up to `L` reads only the
cell just before the buffer and the cells of the generations up to `L`: two buffers that agree
there give the same script. -/
theorem fpga_backtrace_while_agree (F1 F2 : Int → Int) (L : Nat)
    (hag : ∀ i : Int, -1 ≤ i → i < ((L : Int) + 1) * ((L : Int) + 1) → F1 i = F2 i) :
    ∀ (fuel : Nat) (k offset : Int) (dist : Nat), dist ≤ L →
      FPGA.backtrace_while F1 fuel k offset dist = FPGA.backtrace_while F2 fuel k offset dist := by
  intro fuel
  induction fuel with
  | zero =>
    intro k offset dist _
    cases dist <;> rfl
  | succ fuel ih =>
    intro k offset dist hd
    cases dist with
    | zero => rfl
    | succ dm1 =>
      have hcell : ∀ j : Int, -((dm1 : Int) + 1) ≤ j → j ≤ (dm1 : Int) + 1 →
          F1 (FPGA.OFFSET_IDX ((dm1 : Int) + 1 - 1) 0 + j) =
            F2 (FPGA.OFFSET_IDX ((dm1 : Int) + 1 - 1) 0 + j) := by
        intro j h1 h2
        apply hag
        · unfold FPGA.OFFSET_IDX
          have h0 : (0 : Int) ≤ dm1 := Int.natCast_nonneg dm1
          nlinarith
        · unfold FPGA.OFFSET_IDX
          have h0 : (0 : Int) ≤ dm1 := Int.natCast_nonneg dm1
          have h3 : (dm1 : Int) + 1 ≤ L := by exact_mod_cast hd
          nlinarith
      unfold FPGA.backtrace_while FPGA.LO_IDX FPGA.HI_IDX
      dsimp only
      have c1 : (-((dm1 : Int) + 1) ≤ k + 1 ∧ k + 1 ≤ (dm1 : Int) + 1 ∧
          offset = F1 (FPGA.OFFSET_IDX ((dm1 : Int) + 1 - 1) 0 + (k + 1))) ↔
          (-((dm1 : Int) + 1) ≤ k + 1 ∧ k + 1 ≤ (dm1 : Int) + 1 ∧
          offset = F2 (FPGA.OFFSET_IDX ((dm1 : Int) + 1 - 1) 0 + (k + 1))) := by
        constructor
        · rintro ⟨a, b, c⟩; exact ⟨a, b, by rw [← hcell _ a b]; exact c⟩
        · rintro ⟨a, b, c⟩; exact ⟨a, b, by rw [hcell _ a b]; exact c⟩
      have c2 : (-((dm1 : Int) + 1) ≤ k - 1 ∧ k - 1 ≤ (dm1 : Int) + 1 ∧
          offset = F1 (FPGA.OFFSET_IDX ((dm1 : Int) + 1 - 1) 0 + (k - 1)) + 1) ↔
          (-((dm1 : Int) + 1) ≤ k - 1 ∧ k - 1 ≤ (dm1 : Int) + 1 ∧
          offset = F2 (FPGA.OFFSET_IDX ((dm1 : Int) + 1 - 1) 0 + (k - 1)) + 1) := by
        constructor
        · rintro ⟨a, b, c⟩; exact ⟨a, b, by rw [← hcell _ a b]; exact c⟩
        · rintro ⟨a, b, c⟩; exact ⟨a, b, by rw [hcell _ a b]; exact c⟩
      have c3 : (-((dm1 : Int) + 1) ≤ k ∧ k ≤ (dm1 : Int) + 1 ∧
          offset = F1 (FPGA.OFFSET_IDX ((dm1 : Int) + 1 - 1) 0 + k) + 1) ↔
          (-((dm1 : Int) + 1) ≤ k ∧ k ≤ (dm1 : Int) + 1 ∧
          offset = F2 (FPGA.OFFSET_IDX ((dm1 : Int) + 1 - 1) 0 + k) + 1) := by
        constructor
        · rintro ⟨a, b, c⟩; exact ⟨a, b, by rw [← hcell _ a b]; exact c⟩
        · rintro ⟨a, b, c⟩; exact ⟨a, b, by rw [hcell _ a b]; exact c⟩
      simp only [c1, c2, c3]
      rw [ih (k + 1) offset dm1 (by omega), ih (k - 1) _ dm1 (by omega),
        ih k _ dm1 (by omega), ih k _ (dm1 + 1) hd]

/-- Every index from `0` below `(L + 1)²` is the cell of a diagonal of a generation up to
`L`. -/
theorem offset_idx_surj (L : Nat) (i : Int) (h0 : 0 ≤ i)
    (h1 : i < ((L : Int) + 1) * ((L : Int) + 1)) :
    ∃ (d : Nat) (k : Int), d ≤ L ∧ -(d : Int) ≤ k ∧ k ≤ d ∧ i = FPGA.OFFSET_IDX d k := by
  obtain ⟨n, rfl⟩ := Int.eq_ofNat_of_zero_le h0
  have s1 : Nat.sqrt n * Nat.sqrt n ≤ n := Nat.sqrt_le n
  have s2 : n < Nat.succ (Nat.sqrt n) * Nat.succ (Nat.sqrt n) := Nat.lt_succ_sqrt n
  have hL : Nat.sqrt n ≤ L := by
    by_contra hc
    have h3 : L + 1 ≤ Nat.sqrt n := by omega
    have h4 : (L + 1) * (L + 1) ≤ Nat.sqrt n * Nat.sqrt n := Nat.mul_le_mul h3 h3
    have h5 : ((L + 1) * (L + 1) : Nat) ≤ n := le_trans h4 s1
    have h6 : (((L + 1) * (L + 1) : Nat) : Int) ≤ (n : Int) := by exact_mod_cast h5
    push_cast at h6
    omega
  refine ⟨Nat.sqrt n, (n : Int) - (Nat.sqrt n : Int) * ((Nat.sqrt n : Int) + 1), hL, ?_, ?_, ?_⟩
  · have : ((Nat.sqrt n * Nat.sqrt n : Nat) : Int) ≤ (n : Int) := by exact_mod_cast s1
    push_cast at this
    nlinarith
  · have : ((n : Nat) : Int) < ((Nat.succ (Nat.sqrt n) * Nat.succ (Nat.sqrt n) : Nat) : Int) := by
      exact_mod_cast s2
    push_cast at this
    nlinarith
  · unfold FPGA.OFFSET_IDX
    ring

/-- The initial content of the buffer does not matter to the dense run beyond the cell just
before the buffer, for inputs within the offset range. -/
theorem fpga_returns_of_agree (P T : List Char) (hbound : P.length + T.length ≤ 32767)
    (mem1 mem2 : Int → Int) (hr1 : FPGA.cells_in_range mem1) (hr2 : FPGA.cells_in_range mem2)
    (hm : mem1 (-1) = mem2 (-1)) :
    ∃ cigar : List Char, FPGA.returns mem1 P T (lev P T) cigar ∧
      FPGA.returns mem2 P T (lev P T) cigar := by
  obtain ⟨c1, ⟨f1, h1⟩, _⟩ := fpga_returns_spec P T hbound mem1 hr1
  obtain ⟨c2, ⟨f2, h2⟩, _⟩ := fpga_returns_spec P T hbound mem2 hr2
  obtain ⟨s1, g1, _, o1⟩ := fpga_driver_loop_spec P T hbound mem1 hr1
  obtain ⟨s2, g2, _, o2⟩ := fpga_driver_loop_spec P T hbound mem2 hr2
  have hag : ∀ i : Int, -1 ≤ i → i < ((lev P T : Int) + 1) * ((lev P T : Int) + 1) →
      (FPGA.driver_loop mem1 P T).2 i = (FPGA.driver_loop mem2 P T).2 i := by
    intro i a b
    by_cases hneg : i < 0
    · have e : i = -1 := by omega
      rw [o1 i hneg, o2 i hneg, e, hm]
    · obtain ⟨d, k, hd, k1, k2, rfl⟩ := offset_idx_surj (lev P T) i (by omega) b
      rw [g1 d hd k k1 k2, g2 d hd k k1 k2]
  have e1 := h1 (max f1 f2) (le_max_left _ _)
  have e2 := h2 (max f1 f2) (le_max_right _ _)
  rw [fpga_align_unfold] at e1 e2
  unfold FPGA.edit_wavefronts_backtrace at e1 e2
  dsimp only at e1 e2
  rw [s1] at e1
  rw [s2] at e2
  have ex := furthest_exit P T
  have t1 := g1 (lev P T) (le_refl _) _ ex.1 ex.2.1
  have t2 := g2 (lev P T) (le_refl _) _ ex.1 ex.2.1
  unfold EWAVEFRONT_DIAGONAL at e1 e2
  rw [t1, fpga_backtrace_while_agree _ _ (lev P T) hag _ _ _ _ (le_refl _)] at e1
  rw [t2, e1] at e2
  simp only [Option.some.injEq, Prod.mk.injEq] at e2
  refine ⟨c1, ⟨f1, h1⟩, ?_⟩
  rw [e2.2]
  exact ⟨f2, h2⟩

/-! ## The compute steps of the driver loop and the extend steps of the dense variant -/

/-- Every compute step of the driver loop, entered at generation `d` with the tables correct
so far, is taken below `lev P T`, on a store holding the extended offsets of its generation,
and leaves the start offsets of the next generation; the steps are taken at the generations
`d, d + 1, ...` below `lev P T`. -/
theorem cpu_align_for_computes_spec (P T : List Char) (hbound : P.length + T.length ≤ 32767) :
    ∀ (rem d : Nat) (wfs : CPU.edit_wavefronts_t), rem + d = P.length + T.length →
      d ≤ lev P T →
      CPU.gen_holds (wfs.wavefronts d) d (furthest_start P T d) →
      (CPU.align_for_computes P P.length T T.length ((T.length : Int) - P.length)
          (ABS ((T.length : Int) - P.length)) (to_offset T.length) rem d wfs).map Prod.fst =
        List.range' d (lev P T - d) ∧
      ∀ step ∈ CPU.align_for_computes P P.length T T.length ((T.length : Int) - P.length)
          (ABS ((T.length : Int) - P.length)) (to_offset T.length) rem d wfs,
        step.1 < lev P T ∧
        CPU.gen_holds (step.2.1.wavefronts step.1) step.1 (furthest P T step.1) ∧
        CPU.gen_holds (step.2.2.wavefronts (step.1 + 1)) (step.1 + 1)
          (furthest_start P T (step.1 + 1)) := by
  intro rem
  induction rem with
  | zero =>
    intro d wfs hrem _ _
    have l := lev_le_max P T
    have e : lev P T - d = 0 := by omega
    rw [e]
    simp [CPU.align_for_computes]
  | succ rem ih =>
    intro d wfs hrem hd hcur
    have hext := cpu_extend_spec wfs P T d hcur (fun k h1 h2 => by
      have := furthest_le_total P T d k hd h1 h2; omega)
    obtain ⟨hother, hgen⟩ := hext
    have hn : to_offset (T.length : Int) = T.length := to_offset_eq _ (by omega) (by omega)
    unfold CPU.align_for_computes
    dsimp only
    by_cases hc : ABS ((T.length : Int) - P.length) ≤ (d : Int) ∧
        ((CPU.edit_wavefronts_extend_wavefront wfs P P.length T T.length d).wavefronts
          d).offsets ((T.length : Int) - P.length) = to_offset T.length
    · rw [if_pos hc]
      obtain ⟨c1, c2⟩ := hc
      rw [hn] at c2
      rw [ABS_le_iff] at c1
      rw [hgen.2.2 _ c1.1 c1.2] at c2
      have hle := furthest_exit_le P T d c1.1 c1.2 (Or.inl c2)
      have e : lev P T - d = 0 := by omega
      rw [e]
      simp
    · rw [if_neg hc]
      have hlt : d < lev P T := by
        by_contra hge
        have hL : lev P T = d := by omega
        have ex := furthest_exit P T
        rw [hL] at ex
        apply hc
        refine ⟨(ABS_le_iff _ _).2 ⟨ex.1, ex.2.1⟩, ?_⟩
        rw [hgen.2.2 _ ex.1 ex.2.1, hn]
        exact ex.2.2
      have hcomp := cpu_compute_spec
        (CPU.edit_wavefronts_extend_wavefront wfs P P.length T T.length d) d (furthest P T d)
        hgen (fun j h1 h2 => by
          have := furthest_le_total P T d j hd h1 h2; omega)
      obtain ⟨i1, i2⟩ := ih (d + 1) _ (by omega) (by omega) hcomp.2
      constructor
      · rw [List.map_cons, i1]
        have e : lev P T - d = (lev P T - (d + 1)) + 1 := by omega
        rw [e, List.range'_succ]
      · intro step hstep
        rw [List.mem_cons] at hstep
        rcases hstep with hhead | htail
        · subst hhead
          exact ⟨hlt, hgen, hcomp.2⟩
        · exact i2 step htail

/-- The compute steps of a run, for inputs within the offset range: one for each generation
below `lev P T`. -/
theorem cpu_compute_steps_spec (P T : List Char) (hbound : P.length + T.length ≤ 32767) :
    (CPU.compute_steps P T).map Prod.fst = List.range (lev P T) ∧
    ∀ step ∈ CPU.compute_steps P T,
      step.1 < lev P T ∧
      CPU.gen_holds (step.2.1.wavefronts step.1) step.1 (furthest P T step.1) ∧
      CPU.gen_holds (step.2.2.wavefronts (step.1 + 1)) (step.1 + 1)
        (furthest_start P T (step.1 + 1)) := by
  have htn : ((P.length : Int) + (T.length : Int)).toNat = P.length + T.length := by omega
  have key := cpu_align_for_computes_spec P T hbound (P.length + T.length) 0
    { CPU.edit_wavefronts_allocate_wavefront
        (CPU.edit_wavefronts_init P.length T.length) 0 0 0 with
      wavefronts := Function.update
        (CPU.edit_wavefronts_allocate_wavefront
          (CPU.edit_wavefronts_init P.length T.length) 0 0 0).wavefronts 0
        { (CPU.edit_wavefronts_allocate_wavefront
            (CPU.edit_wavefronts_init P.length T.length) 0 0 0).wavefronts 0 with
          offsets := Function.update
            ((CPU.edit_wavefronts_allocate_wavefront
              (CPU.edit_wavefronts_init P.length T.length) 0 0 0).wavefronts 0).offsets 0 0 } }
    rfl (Nat.zero_le _) (cpu_init_gen _ P T)
  unfold CPU.compute_steps EWAVEFRONT_DIAGONAL EWAVEFRONT_OFFSET
  dsimp only
  rw [htn]
  refine ⟨?_, key.2⟩
  rw [key.1, List.range_eq_range']
  rfl

/-- Every extend step of the driver loop of the dense variant, entered at generation `d` with
the start offsets of that generation in place, is taken at a generation up to `lev P T`, on
a buffer holding the start offsets of that generation, and leaves its extended offsets; the
steps are taken at the generations from `d` up to `lev P T`, as far as the trip count
allows. -/
theorem fpga_align_for_extends_spec (P T : List Char) (hbound : P.length + T.length ≤ 32767) :
    ∀ (rem d : Nat) (mem : Int → Int), rem + d = P.length + T.length →
      d ≤ lev P T →
      FPGA.gen_holds mem d (furthest_start P T d) →
      (FPGA.align_for_extends P P.length T T.length ((T.length : Int) - P.length)
          (ABS ((T.length : Int) - P.length)) (to_offset T.length) rem d mem).map Prod.fst =
        List.range' d (min (lev P T + 1 - d) rem) ∧
      ∀ step ∈ FPGA.align_for_extends P P.length T T.length ((T.length : Int) - P.length)
          (ABS ((T.length : Int) - P.length)) (to_offset T.length) rem d mem,
        step.1 ≤ lev P T ∧
        FPGA.gen_holds step.2.1 step.1 (furthest_start P T step.1) ∧
        FPGA.gen_holds step.2.2 step.1 (furthest P T step.1) := by
  intro rem
  induction rem with
  | zero =>
    intro d mem _ _ _
    simp [FPGA.align_for_extends]
  | succ rem ih =>
    intro d mem hrem hd hcur
    have hext := fpga_extend_spec mem P T d hcur (fun k h1 h2 => by
      have := furthest_le_total P T d k hd h1 h2; omega)
    obtain ⟨hframe, hgen⟩ := hext
    have hn : to_offset (T.length : Int) = T.length := to_offset_eq _ (by omega) (by omega)
    unfold FPGA.align_for_extends
    dsimp only
    by_cases hc : ABS ((T.length : Int) - P.length) ≤ (d : Int) ∧
        FPGA.edit_wavefronts_extend_wavefront mem P P.length T T.length d
          (FPGA.OFFSET_IDX (d : Int) ((T.length : Int) - P.length)) = to_offset T.length
    · rw [if_pos hc]
      obtain ⟨c1, c2⟩ := hc
      rw [hn] at c2
      rw [ABS_le_iff] at c1
      rw [hgen _ c1.1 c1.2] at c2
      have hle := furthest_exit_le P T d c1.1 c1.2 (Or.inl c2)
      have e : min (lev P T + 1 - d) (rem + 1) = 1 := by omega
      rw [e]
      refine ⟨rfl, ?_⟩
      intro step hstep
      simp only [List.mem_singleton] at hstep
      subst hstep
      exact ⟨hd, hcur, hgen⟩
    · rw [if_neg hc]
      have hlt : d < lev P T := by
        by_contra hge
        have hL : lev P T = d := by omega
        have ex := furthest_exit P T
        rw [hL] at ex
        apply hc
        refine ⟨(ABS_le_iff _ _).2 ⟨ex.1, ex.2.1⟩, ?_⟩
        rw [hgen _ ex.1 ex.2.1, hn]
        exact ex.2.2
      have hcomp := fpga_compute_spec
        (FPGA.edit_wavefronts_extend_wavefront mem P P.length T T.length d) d (furthest P T d)
        hgen (fun j h1 h2 => by
          have := furthest_le_total P T d j hd h1 h2; omega)
      obtain ⟨i1, i2⟩ := ih (d + 1) _ (by omega) (by omega) hcomp.2
      constructor
      · rw [List.map_cons, i1]
        have e : min (lev P T + 1 - d) (rem + 1) = min (lev P T + 1 - (d + 1)) rem + 1 := by
          omega
        rw [e, List.range'_succ]
      · intro step hstep
        rw [List.mem_cons] at hstep
        rcases hstep with hhead | htail
        · subst hhead
          exact ⟨hd, hcur, hgen⟩
        · exact i2 step htail

/-- The extend steps of a dense run, for inputs within the offset range and any initial
content of the buffer. -/
theorem fpga_extend_steps_spec (P T : List Char) (hbound : P.length + T.length ≤ 32767)
    (mem0 : Int → Int) :
    (FPGA.extend_steps mem0 P T).map Prod.fst =
      List.range (min (lev P T + 1) (P.length + T.length)) ∧
    ∀ step ∈ FPGA.extend_steps mem0 P T,
      step.1 ≤ lev P T ∧
      FPGA.gen_holds step.2.1 step.1 (furthest_start P T step.1) ∧
      FPGA.gen_holds step.2.2 step.1 (furthest P T step.1) := by
  have htn : ((P.length : Int) + (T.length : Int)).toNat = P.length + T.length := by omega
  have hg0 : FPGA.gen_holds (Function.update mem0 0 0) 0 (furthest_start P T 0) := by
    intro k h1 h2
    have hk : k = 0 := by push_cast at h1 h2; omega
    subst hk
    rw [offset_idx_zero, Function.update_same]
    rfl
  have key := fpga_align_for_extends_spec P T hbound (P.length + T.length) 0
    (Function.update mem0 0 0) rfl (Nat.zero_le _) hg0
  unfold FPGA.extend_steps EWAVEFRONT_DIAGONAL EWAVEFRONT_OFFSET
  rw [htn]
  refine ⟨?_, key.2⟩
  rw [key.1, List.range_eq_range']
  rfl

/-! ## The dense index formula and the ranges stored by the driver loop -/

/-- The cells of generation `d` lie in the index interval `[d², (d+1)² - 1]`. -/
theorem offset_idx_interval (d k : Int) (h1 : -d ≤ k) (h2 : k ≤ d) :
    d * d ≤ FPGA.OFFSET_IDX d k ∧ FPGA.OFFSET_IDX d k ≤ (d + 1) * (d + 1) - 1 := by
  unfold FPGA.OFFSET_IDX
  constructor <;> nlinarith

theorem offset_idx_inj (d d' k k' : Int) (hd : 0 ≤ d) (hd' : 0 ≤ d') (h1 : -d ≤ k)
    (h2 : k ≤ d) (h1' : -d' ≤ k') (h2' : k' ≤ d')
    (he : FPGA.OFFSET_IDX d k = FPGA.OFFSET_IDX d' k') : d = d' ∧ k = k' := by
  have a := offset_idx_interval d k h1 h2
  have b := offset_idx_interval d' k' h1' h2'
  have hdd : d = d' := by
    rcases lt_trichotomy d d' with hlt | heq | hgt
    · exfalso
      have : (d + 1) * (d + 1) ≤ d' * d' := by nlinarith
      omega
    · exact heq
    · exfalso
      have : (d' + 1) * (d' + 1) ≤ d * d := by nlinarith
      omega
  subst hdd
  refine ⟨rfl, ?_⟩
  unfold FPGA.OFFSET_IDX at he
  omega

/-- The ranges stored by the driver loop: entered at generation `d` with every generation up
to `d` holding the range `[-d', d']` and every later slot untouched, the loop stops at a
generation with the same property. -/
theorem cpu_align_for_ranges (P : List Char) (m : Int) (T : List Char) (n : Int)
    (tk tka toff : Int) :
    ∀ (rem d : Nat) (wfs : CPU.edit_wavefronts_t),
      (∀ d', d' ≤ d → (wfs.wavefronts d').lo = -(d' : Int) ∧ (wfs.wavefronts d').hi = d') →
      (∀ d', d < d' → wfs.wavefronts d' = CPU.wavefront_zero) →
      (∀ d', d' ≤ (CPU.align_for P m T n tk tka toff rem d wfs).1 →
        ((CPU.align_for P m T n tk tka toff rem d wfs).2.wavefronts d').lo = -(d' : Int) ∧
        ((CPU.align_for P m T n tk tka toff rem d wfs).2.wavefronts d').hi = d') ∧
      ∀ d', (CPU.align_for P m T n tk tka toff rem d wfs).1 < d' →
        (CPU.align_for P m T n tk tka toff rem d wfs).2.wavefronts d' = CPU.wavefront_zero := by
  intro rem
  induction rem with
  | zero =>
    intro d wfs h1 h2
    exact ⟨h1, h2⟩
  | succ rem ih =>
    intro d wfs h1 h2
    have e1 : ∀ d', d' ≤ d →
        ((CPU.edit_wavefronts_extend_wavefront wfs P m T n d).wavefronts d').lo = -(d' : Int) ∧
        ((CPU.edit_wavefronts_extend_wavefront wfs P m T n d).wavefronts d').hi = d' := by
      intro d' hd'
      unfold CPU.edit_wavefronts_extend_wavefront
      by_cases e : d' = d
      · subst e
        simp only [Function.update_same]
        exact h1 d' (le_refl _)
      · simp only [Function.update_noteq e]
        exact h1 d' hd'
    have e2 : ∀ d', d < d' →
        (CPU.edit_wavefronts_extend_wavefront wfs P m T n d).wavefronts d' =
          CPU.wavefront_zero := by
      intro d' hd'
      unfold CPU.edit_wavefronts_extend_wavefront
      simp only [Function.update_noteq (show d' ≠ d by omega)]
      exact h2 d' hd'
    unfold CPU.align_for
    dsimp only
    split_ifs with hc
    · exact ⟨e1, e2⟩
    · apply ih (d + 1)
      · intro d' hd'
        unfold CPU.edit_wavefronts_compute_wavefront CPU.edit_wavefronts_allocate_wavefront
        by_cases e : d' = d + 1
        · subst e
          simp only [Nat.add_sub_cancel, Function.update_same]
          have := e1 d (le_refl _)
          rw [this.1, this.2]
          push_cast
          constructor <;> ring
        · simp only [Function.update_noteq e]
          exact e1 d' (by omega)
      · intro d' hd'
        unfold CPU.edit_wavefronts_compute_wavefront CPU.edit_wavefronts_allocate_wavefront
        simp only [Function.update_noteq (show d' ≠ d + 1 by omega)]
        exact e2 d' (by omega)

/-- The store in which the driver loop of a run on a fresh store stops: every generation up
to the final `distance` holds the range `[-d, d]`, every later slot is untouched. -/
theorem cpu_driver_loop_ranges (P T : List Char) :
    (∀ d, d ≤ (CPU.driver_loop P T).1 →
      ((CPU.driver_loop P T).2.wavefronts d).lo = -(d : Int) ∧
      ((CPU.driver_loop P T).2.wavefronts d).hi = d) ∧
    ∀ d, (CPU.driver_loop P T).1 < d →
      (CPU.driver_loop P T).2.wavefronts d = CPU.wavefront_zero := by
  unfold CPU.driver_loop
  apply cpu_align_for_ranges
  · intro d' hd'
    have e : d' = 0 := by omega
    subst e
    unfold CPU.edit_wavefronts_allocate_wavefront
    simp
  · intro d' hd'
    unfold CPU.edit_wavefronts_allocate_wavefront CPU.edit_wavefronts_init
    simp only [Function.update_noteq (show d' ≠ 0 by omega)]

/-- The store and the score that `edit_wavefronts_align` returns are those with which its
driver loop stops; the backtrace writes the CIGAR only. -/
theorem cpu_align_result (fuel : Nat) (P T : List Char) (r : CPU.edit_wavefronts_t × Nat)
    (h : CPU.edit_wavefronts_align fuel (CPU.edit_wavefronts_init P.length T.length)
      P P.length T T.length = some r) :
    r.2 = (CPU.driver_loop P T).1 ∧ r.1.wavefronts = (CPU.driver_loop P T).2.wavefronts := by
  unfold CPU.edit_wavefronts_align at h
  dsimp only at h
  rw [Option.map_eq_some'] at h
  obtain ⟨cigar, _, hr⟩ := h
  rw [← hr]
  exact ⟨rfl, rfl⟩

/-! ## The frame of the compute step of the dense variant -/

/-- The compute step of the dense variant changes no cell outside generation `d + 1`. -/
theorem fpga_compute_frame (mem : Int → Int) (d : Nat) (i : Int)
    (hi : i < FPGA.OFFSET_IDX ((d + 1 : Nat) : Int) 0 - ((d + 1 : Nat) : Int) ∨
      FPGA.OFFSET_IDX ((d + 1 : Nat) : Int) 0 + ((d + 1 : Nat) : Int) < i) :
    FPGA.edit_wavefronts_compute_wavefront mem (d + 1) i = mem i := by
  have hnb := offset_idx_succ d
  have e : ((d + 1 : Nat) : Int) - 1 = (d : Int) := by push_cast; ring
  unfold FPGA.edit_wavefronts_compute_wavefront FPGA.LO_IDX FPGA.HI_IDX
  rw [e]
  simp (disch := omega) only [Function.update_noteq, fpga_compute_for_apply, if_neg]

/-- The cells that the compute step of the dense variant leaves in generation `d + 1` depend
on the cells of generation `d` only. -/
theorem fpga_compute_agree (mem other : Int → Int) (d : Nat)
    (hag : ∀ j : Int, -(d : Int) ≤ j → j ≤ d →
      other (FPGA.OFFSET_IDX (d : Int) 0 + j) = mem (FPGA.OFFSET_IDX (d : Int) 0 + j))
    (k : Int) (h1 : -((d : Int) + 1) ≤ k) (h2 : k ≤ (d : Int) + 1) :
    FPGA.edit_wavefronts_compute_wavefront other (d + 1)
        (FPGA.OFFSET_IDX ((d + 1 : Nat) : Int) 0 + k) =
      FPGA.edit_wavefronts_compute_wavefront mem (d + 1)
        (FPGA.OFFSET_IDX ((d + 1 : Nat) : Int) 0 + k) := by
  have hnb := offset_idx_succ d
  have e : ((d + 1 : Nat) : Int) - 1 = (d : Int) := by push_cast; ring
  unfold FPGA.edit_wavefronts_compute_wavefront FPGA.LO_IDX FPGA.HI_IDX
  rw [e]
  have em := hag (k - 1)
  have e0 := hag k
  have ep := hag (k + 1)
  have elo := hag (-(d : Int))
  have ehi := hag (d : Int)
  have elo1 := hag (-(d : Int) + 1)
  have ehi1 := hag ((d : Int) - 1)
  by_cases hk1 : k = (d : Int) + 1
  · subst hk1
    simp (disch := omega) only [Function.update_noteq, Function.update_same,
      fpga_compute_for_apply, if_neg, if_pos, if_true, MAX_eq_max]
    rw [ehi (by omega) (by omega)]
  by_cases hk2 : k = (d : Int)
  · subst hk2
    simp (disch := omega) only [Function.update_noteq, Function.update_same,
      fpga_compute_for_apply, if_neg, if_pos, if_true, MAX_eq_max]
    rw [ehi (by omega) (by omega)]
    by_cases hd : -(d : Int) ≤ (d : Int) - 1
    · rw [if_pos hd, if_pos hd, ehi1 (by omega) (by omega)]
    · rw [if_neg hd, if_neg hd]
  by_cases hk3 : -(d : Int) + 1 ≤ k ∧
      k < -(d : Int) + 1 + (((d : Int) - 1 - (-(d : Int) + 1) + 1).toNat : Int)
  · simp (disch := omega) only [Function.update_noteq, Function.update_same,
      fpga_compute_for_apply, if_neg, if_pos, if_true, MAX_eq_max, add_sub_cancel_left]
    rw [em (by omega) (by omega), e0 (by omega) (by omega), ep (by omega) (by omega)]
  by_cases hk4 : k = -(d : Int)
  · subst hk4
    simp (disch := omega) only [Function.update_noteq, Function.update_same,
      fpga_compute_for_apply, if_neg, if_pos, if_true, MAX_eq_max]
    rw [elo (by omega) (by omega), elo1 (by omega) (by omega)]
  have hk5 : k = -(d : Int) - 1 := by omega
  subst hk5
  simp (disch := omega) only [Function.update_noteq, Function.update_same,
    fpga_compute_for_apply, if_neg, if_pos, if_true, MAX_eq_max]
  rw [elo (by omega) (by omega)]

/-! ## The predecessors consulted by the two backtraces -/

theorem mem_ite_singleton {α : Type} (c : Prop) [Decidable c] (x p : α) :
    p ∈ (if c then [x] else []) ↔ c ∧ p = x := by
  split_ifs with h
  · simp [h]
  · simp [h]

/-- The backtrace of the amortized-growth variant consults a diagonal of generation
`distance - 1` only within the stored range of that generation. -/
theorem cpu_backtrace_consults_in_range (wfs : CPU.edit_wavefronts_t) :
    ∀ (fuel : Nat) (k offset : Int) (dist : Nat),
      ∀ p ∈ CPU.backtrace_consults wfs fuel k offset dist,
        (wfs.wavefronts p.1).lo ≤ p.2 ∧ p.2 ≤ (wfs.wavefronts p.1).hi := by
  intro fuel
  induction fuel with
  | zero =>
    intro k offset dist p hp
    cases dist <;> simp [CPU.backtrace_consults] at hp
  | succ fuel ih =>
    intro k offset dist p hp
    cases dist with
    | zero => simp [CPU.backtrace_consults] at hp
    | succ dm1 =>
      unfold CPU.backtrace_consults at hp
      dsimp only at hp
      by_cases c1 : (wfs.wavefronts dm1).lo ≤ k + 1 ∧ k + 1 ≤ (wfs.wavefronts dm1).hi ∧
          offset = (wfs.wavefronts dm1).offsets (k + 1)
      · rw [if_pos c1] at hp
        simp only [List.mem_append, mem_ite_singleton] at hp
        rcases hp with ⟨c, rfl⟩ | hp
        · exact c
        · exact ih _ _ _ p hp
      rw [if_neg c1] at hp
      by_cases c2 : (wfs.wavefronts dm1).lo ≤ k - 1 ∧ k - 1 ≤ (wfs.wavefronts dm1).hi ∧
          offset = (wfs.wavefronts dm1).offsets (k - 1) + 1
      · rw [if_pos c2] at hp
        simp only [List.mem_append, mem_ite_singleton] at hp
        rcases hp with (⟨c, rfl⟩ | ⟨c, rfl⟩) | hp
        · exact c
        · exact c
        · exact ih _ _ _ p hp
      rw [if_neg c2] at hp
      by_cases c3 : (wfs.wavefronts dm1).lo ≤ k ∧ k ≤ (wfs.wavefronts dm1).hi ∧
          offset = (wfs.wavefronts dm1).offsets k + 1
      · rw [if_pos c3] at hp
        simp only [List.mem_append, mem_ite_singleton] at hp
        rcases hp with ((⟨c, rfl⟩ | ⟨c, rfl⟩) | ⟨c, rfl⟩) | hp
        · exact c
        · exact c
        · exact c
        · exact ih _ _ _ p hp
      rw [if_neg c3] at hp
      simp only [List.mem_append, mem_ite_singleton] at hp
      rcases hp with ((⟨c, rfl⟩ | ⟨c, rfl⟩) | ⟨c, rfl⟩) | hp
      · exact c
      · exact c
      · exact c
      · exact ih _ _ _ p hp

/-- The backtrace of the dense variant consults a diagonal of generation `distance - 1`
whenever it lies in the range of generation `distance`, one diagonal wider on each side. -/
theorem fpga_backtrace_consults_in_range (mem : Int → Int) :
    ∀ (fuel : Nat) (k offset : Int) (dist : Nat),
      ∀ p ∈ FPGA.backtrace_consults mem fuel k offset dist,
        -((p.1 : Int) + 1) ≤ p.2 ∧ p.2 ≤ (p.1 : Int) + 1 := by
  intro fuel
  induction fuel with
  | zero =>
    intro k offset dist p hp
    cases dist <;> simp [FPGA.backtrace_consults] at hp
  | succ fuel ih =>
    intro k offset dist p hp
    cases dist with
    | zero => simp [FPGA.backtrace_consults] at hp
    | succ dm1 =>
      unfold FPGA.backtrace_consults FPGA.LO_IDX FPGA.HI_IDX at hp
      dsimp only at hp
      by_cases c1 : -((dm1 : Int) + 1) ≤ k + 1 ∧ k + 1 ≤ (dm1 : Int) + 1 ∧
          offset = mem (FPGA.OFFSET_IDX ((dm1 : Int) + 1 - 1) 0 + (k + 1))
      · rw [if_pos c1] at hp
        simp only [List.mem_append, mem_ite_singleton] at hp
        rcases hp with ⟨c, rfl⟩ | hp
        · exact c
        · exact ih _ _ _ p hp
      rw [if_neg c1] at hp
      by_cases c2 : -((dm1 : Int) + 1) ≤ k - 1 ∧ k - 1 ≤ (dm1 : Int) + 1 ∧
          offset = mem (FPGA.OFFSET_IDX ((dm1 : Int) + 1 - 1) 0 + (k - 1)) + 1
      · rw [if_pos c2] at hp
        simp only [List.mem_append, mem_ite_singleton] at hp
        rcases hp with (⟨c, rfl⟩ | ⟨c, rfl⟩) | hp
        · exact c
        · exact c
        · exact ih _ _ _ p hp
      rw [if_neg c2] at hp
      by_cases c3 : -((dm1 : Int) + 1) ≤ k ∧ k ≤ (dm1 : Int) + 1 ∧
          offset = mem (FPGA.OFFSET_IDX ((dm1 : Int) + 1 - 1) 0 + k) + 1
      · rw [if_pos c3] at hp
        simp only [List.mem_append, mem_ite_singleton] at hp
        rcases hp with ((⟨c, rfl⟩ | ⟨c, rfl⟩) | ⟨c, rfl⟩) | hp
        · exact c
        · exact c
        · exact c
        · exact ih _ _ _ p hp
      rw [if_neg c3] at hp
      simp only [List.mem_append, mem_ite_singleton] at hp
      rcases hp with ((⟨c, rfl⟩ | ⟨c, rfl⟩) | ⟨c, rfl⟩) | hp
      · exact c
      · exact c
      · exact c
      · exact ih _ _ _ p hp

/-! ## Runs on inputs beyond the range of the offset type -/

theorem to_offset_add (a b : Int) : to_offset (to_offset a + b) = to_offset (a + b) := by
  unfold to_offset; omega

/-- Along the main diagonal of a sequence against itself the inner loop of the extend step
never meets a mismatch: it adds its trip count to the offset, in the offset type. -/
theorem extend_while_self (P : List Char) (f : Nat) (v o : Int) (hv : 0 ≤ v)
    (hv' : v ≤ P.length) (h1 : -32768 ≤ o) (h2 : o ≤ 32767) :
    extend_while P P.length P P.length f v v o =
      to_offset (o + min (f : Int) ((P.length : Int) - v)) := by
  induction f generalizing v o with
  | zero =>
    unfold extend_while
    rw [to_offset_eq _ (by push_cast; omega) (by push_cast; omega)]
    push_cast; omega
  | succ f ih =>
    unfold extend_while
    by_cases hc : v < P.length
    · rw [if_pos ⟨hc, hc, rfl⟩]
      have r := to_offset_range (o + 1)
      rw [ih (v + 1) (to_offset (o + 1)) (by omega) (by omega) r.1 r.2, to_offset_add]
      congr 1
      push_cast; omega
    · rw [if_neg (fun h => hc h.1), to_offset_eq _ (by push_cast; omega) (by push_cast; omega)]
      push_cast; omega

/-- The cell of diagonal `k` after the extend step of generation `d`. -/
theorem cpu_extend_cell (w : CPU.edit_wavefronts_t) (P : List Char) (m : Int) (T : List Char)
    (n : Int) (d : Nat) (k : Int) :
    ((CPU.edit_wavefronts_extend_wavefront w P m T n d).wavefronts d).offsets k =
      if (w.wavefronts d).lo ≤ k ∧
          k < (w.wavefronts d).lo + (((w.wavefronts d).hi - (w.wavefronts d).lo + 1).toNat : Int)
      then extend_while P m T n (n - (w.wavefronts d).offsets k).toNat
        ((w.wavefronts d).offsets k - k) ((w.wavefronts d).offsets k)
        ((w.wavefronts d).offsets k)
      else (w.wavefronts d).offsets k := by
  unfold CPU.edit_wavefronts_extend_wavefront
  simp only [Function.update_same]
  rw [cpu_extend_for_apply]

/-- The extend step keeps the range of its generation and every other generation. -/
theorem cpu_extend_frame (w : CPU.edit_wavefronts_t) (P : List Char) (m : Int) (T : List Char)
    (n : Int) (d : Nat) :
    ((CPU.edit_wavefronts_extend_wavefront w P m T n d).wavefronts d).lo = (w.wavefronts d).lo ∧
    ((CPU.edit_wavefronts_extend_wavefront w P m T n d).wavefronts d).hi = (w.wavefronts d).hi ∧
    ∀ d', d' ≠ d →
      (CPU.edit_wavefronts_extend_wavefront w P m T n d).wavefronts d' = w.wavefronts d' := by
  unfold CPU.edit_wavefronts_extend_wavefront
  simp only [Function.update_same]
  refine ⟨trivial, trivial, ?_⟩
  intro d' hd'
  rw [Function.update_noteq hd']

/-- The first extend step on a sequence against itself. -/
theorem cpu_extend_self (w : CPU.edit_wavefronts_t) (P : List Char)
    (hlo : (w.wavefronts 0).lo = 0) (hhi : (w.wavefronts 0).hi = 0)
    (ho : (w.wavefronts 0).offsets 0 = 0) :
    ((CPU.edit_wavefronts_extend_wavefront w P P.length P P.length 0).wavefronts 0).offsets 0 =
      to_offset P.length := by
  rw [cpu_extend_cell, hlo, hhi, ho, if_pos (by constructor <;> simp)]
  rw [sub_zero, sub_zero, extend_while_self P _ 0 0 (le_refl _) (by omega) (by omega) (by omega)]
  congr 1
  omega

/-- The driver loop of the amortized-growth variant on a sequence against itself stops at
generation `0`, with the length of the sequence, in the offset type, stored on diagonal `0`. -/
theorem cpu_driver_loop_self (P : List Char) :
    (CPU.driver_loop P P).1 = 0 ∧
    ((CPU.driver_loop P P).2.wavefronts 0).offsets 0 = to_offset P.length := by
  unfold CPU.driver_loop EWAVEFRONT_DIAGONAL EWAVEFRONT_OFFSET
  dsimp only
  rw [sub_self]
  by_cases hP : P.length = 0
  · rw [hP]
    simp only [CPU.align_for, Int.toNat_zero, Nat.cast_zero, add_zero]
    unfold CPU.edit_wavefronts_allocate_wavefront
    simp only [Function.update_same]
    exact ⟨trivial, by unfold to_offset; omega⟩
  · obtain ⟨r, hr⟩ : ∃ r : Nat, ((P.length : Int) + P.length).toNat = r + 1 :=
      ⟨P.length + P.length - 1, by omega⟩
    rw [hr]
    unfold CPU.align_for
    have hcell := cpu_extend_self
      { CPU.edit_wavefronts_allocate_wavefront
            (CPU.edit_wavefronts_init P.length P.length) 0 0 0 with
          wavefronts := Function.update (CPU.edit_wavefronts_allocate_wavefront
            (CPU.edit_wavefronts_init P.length P.length) 0 0 0).wavefronts 0
            { (CPU.edit_wavefronts_allocate_wavefront
                (CPU.edit_wavefronts_init P.length P.length) 0 0 0).wavefronts 0 with
              offsets := Function.update ((CPU.edit_wavefronts_allocate_wavefront
                (CPU.edit_wavefronts_init P.length P.length) 0 0 0).wavefronts 0).offsets 0 0 } }
      P (by unfold CPU.edit_wavefronts_allocate_wavefront; simp only [Function.update_same])
      (by unfold CPU.edit_wavefronts_allocate_wavefront; simp only [Function.update_same])
      (by simp only [Function.update_same])
    dsimp only
    rw [if_pos ⟨by unfold ABS; simp, hcell⟩]
    exact ⟨rfl, hcell⟩

/-- The amortized-growth run on a sequence against itself: score `0` and as many `'M'` as the
length of the sequence is in the offset type. -/
theorem cpu_run_self (P : List Char) (fuel : Nat) :
    CPU.wfa_edit_alignment_cpu fuel P P =
      some (0, backtrace_matches (to_offset P.length).toNat (to_offset P.length)) := by
  obtain ⟨h1, h2⟩ := cpu_driver_loop_self P
  rw [cpu_align_unfold]
  unfold CPU.edit_wavefronts_backtrace EWAVEFRONT_DIAGONAL
  dsimp only
  rw [h1, sub_self, h2, cpu_backtrace_while_zero, to_offset_eq _ (to_offset_range _).1
    (to_offset_range _).2]
  rfl

/-- For a sequence of 32768 symbols against itself the length wraps to -32768 in the offset
type: the run returns score `0` and the empty script. -/
theorem cpu_run_self_wrapped (P : List Char) (hP : P.length = 32768) (fuel : Nat) :
    CPU.wfa_edit_alignment_cpu fuel P P = some (0, []) := by
  rw [cpu_run_self, hP]
  rfl

theorem extend_while_stop (P : List Char) (m : Int) (T : List Char) (n : Int) (f : Nat)
    (v h o : Int) (hv : ¬ v < m) : extend_while P m T n f v h o = o := by
  cases f with
  | zero => rfl
  | succ f =>
    unfold extend_while
    rw [if_neg (fun hc => hv hc.1)]

/-- The compute step on the borders of the new generation, and its frame. -/
theorem cpu_compute_border (w : CPU.edit_wavefronts_t) (d : Nat) :
    ((CPU.edit_wavefronts_compute_wavefront w (d + 1)).wavefronts (d + 1)).lo =
      (w.wavefronts d).lo - 1 ∧
    ((CPU.edit_wavefronts_compute_wavefront w (d + 1)).wavefronts (d + 1)).hi =
      (w.wavefronts d).hi + 1 ∧
    ((CPU.edit_wavefronts_compute_wavefront w (d + 1)).wavefronts (d + 1)).offsets
      ((w.wavefronts d).hi + 1) =
        to_offset ((w.wavefronts d).offsets (w.wavefronts d).hi + 1) ∧
    ((w.wavefronts d).lo ≤ (w.wavefronts d).hi →
      ((CPU.edit_wavefronts_compute_wavefront w (d + 1)).wavefronts (d + 1)).offsets
        ((w.wavefronts d).lo - 1) = to_offset ((w.wavefronts d).offsets (w.wavefronts d).lo)) ∧
    ∀ d', d' ≠ d + 1 →
      (CPU.edit_wavefronts_compute_wavefront w (d + 1)).wavefronts d' = w.wavefronts d' := by
  unfold CPU.edit_wavefronts_compute_wavefront CPU.edit_wavefronts_allocate_wavefront
  simp only [Nat.add_sub_cancel, Function.update_same]
  refine ⟨trivial, trivial, trivial, ?_, ?_⟩
  · intro hle
    simp (disch := omega) only [Function.update_noteq, Function.update_same,
      cpu_compute_for_apply, if_neg]
  · intro d' hd'
    simp only [Function.update_noteq hd']

/-- With an empty pattern and at most 32768 generations the driver loop of the
amortized-growth variant runs through the generations below `|n - m|`, each with the range
`[-d, d]` and, on its top diagonal, the offset `d` as stored in the offset type. -/
theorem cpu_align_for_empty_pattern (T : List Char) (n tk tka toff : Int) :
    ∀ (rem d : Nat) (wfs : CPU.edit_wavefronts_t), ((d + rem : Nat) : Int) ≤ tka →
      d + rem ≤ 32768 →
      (∀ d', d' ≤ d → (wfs.wavefronts d').lo = -(d' : Int) ∧
        (wfs.wavefronts d').hi = d' ∧ (wfs.wavefronts d').offsets d' = to_offset d') →
      (CPU.align_for [] 0 T n tk tka toff rem d wfs).1 = d + rem ∧
      ∀ d', d' ≤ d + rem →
        ((CPU.align_for [] 0 T n tk tka toff rem d wfs).2.wavefronts d').lo = -(d' : Int) ∧
        ((CPU.align_for [] 0 T n tk tka toff rem d wfs).2.wavefronts d').hi = d' ∧
        ((CPU.align_for [] 0 T n tk tka toff rem d wfs).2.wavefronts d').offsets d' =
          to_offset d' := by
  intro rem
  induction rem with
  | zero =>
    intro d wfs _ _ hinv
    exact ⟨rfl, hinv⟩
  | succ rem ih =>
    intro d wfs htk hle hinv
    unfold CPU.align_for
    dsimp only
    rw [if_neg (fun hc => by have := hc.1; push_cast at htk; omega)]
    have fr := cpu_extend_frame wfs [] 0 T n d
    have cb := cpu_compute_border (CPU.edit_wavefronts_extend_wavefront wfs [] 0 T n d) d
    obtain ⟨hlo, hhi, ho⟩ := hinv d (le_refl _)
    rw [to_offset_eq _ (by omega) (by omega)] at ho
    have hcell : ((CPU.edit_wavefronts_extend_wavefront wfs [] 0 T n d).wavefronts d).offsets d
        = d := by
      rw [cpu_extend_cell, ho]
      split_ifs
      · exact extend_while_stop _ _ _ _ _ _ _ _ (by omega)
      · rfl
    have key := ih (d + 1)
      (CPU.edit_wavefronts_compute_wavefront (CPU.edit_wavefronts_extend_wavefront wfs [] 0 T n d)
        (d + 1)) (by push_cast at htk ⊢; omega) (by omega) (by
        intro d' hd'
        by_cases e : d' = d + 1
        · subst e
          rw [cb.1, cb.2.1, fr.1, fr.2.1, hlo, hhi]
          refine ⟨by push_cast; omega, by push_cast; omega, ?_⟩
          have e2 : (((d + 1 : Nat) : Int)) = ((CPU.edit_wavefronts_extend_wavefront wfs [] 0 T n
              d).wavefronts d).hi + 1 := by rw [fr.2.1, hhi]; push_cast; rfl
          rw [e2, cb.2.2.1, fr.2.1, hhi, hcell]
        · rw [cb.2.2.2.2 d' e]
          by_cases e' : d' = d
          · subst e'
            rw [fr.1, fr.2.1, hcell]
            exact ⟨hlo, hhi, (to_offset_eq _ (by omega) (by omega)).symm⟩
          · rw [fr.2.2 d' e']
            exact hinv d' (by omega))
    refine ⟨by rw [key.1]; omega, ?_⟩
    intro d' hd'
    exact key.2 d' (by omega)

/-- The driver loop of the amortized-growth variant on an empty pattern and a text of 32768
symbols runs through all its generations; generation 32767 holds 32767 on its top diagonal,
and generation 32768 holds there the wrapped offset -32768. -/
theorem cpu_driver_loop_empty_pattern (T : List Char) (hT : T.length = 32768) :
    (CPU.driver_loop [] T).1 = 32768 ∧
    ((CPU.driver_loop [] T).2.wavefronts 32767).lo = -32767 ∧
    ((CPU.driver_loop [] T).2.wavefronts 32767).hi = 32767 ∧
    ((CPU.driver_loop [] T).2.wavefronts 32767).offsets 32767 = 32767 ∧
    ((CPU.driver_loop [] T).2.wavefronts 32768).offsets 32768 = -32768 := by
  unfold CPU.driver_loop EWAVEFRONT_DIAGONAL EWAVEFRONT_OFFSET
  dsimp only
  have e : (((([] : List Char).length : Nat) : Int) + (T.length : Int)).toNat = 32768 := by
    rw [hT]; rfl
  rw [e]
  have key := cpu_align_for_empty_pattern T (T.length : Int)
    ((T.length : Int) - (([] : List Char).length : Int))
    (ABS ((T.length : Int) - (([] : List Char).length : Int)))
    (to_offset (T.length : Int)) 32768 0
    { CPU.edit_wavefronts_allocate_wavefront
          (CPU.edit_wavefronts_init (([] : List Char).length : Int) T.length) 0 0 0 with
        wavefronts := Function.update (CPU.edit_wavefronts_allocate_wavefront
          (CPU.edit_wavefronts_init (([] : List Char).length : Int) T.length) 0 0 0).wavefronts 0
          { (CPU.edit_wavefronts_allocate_wavefront
              (CPU.edit_wavefronts_init (([] : List Char).length : Int) T.length) 0 0
                0).wavefronts 0 with
            offsets := Function.update ((CPU.edit_wavefronts_allocate_wavefront
              (CPU.edit_wavefronts_init (([] : List Char).length : Int) T.length) 0 0
                0).wavefronts 0).offsets 0 0 } }
    (by rw [hT]; unfold ABS; simp) (by omega)
    (by
      intro d' hd'
      have e0 : d' = 0 := by omega
      subst e0
      unfold CPU.edit_wavefronts_allocate_wavefront
      simp only [Function.update_same]
      exact ⟨rfl, rfl, rfl⟩)
  have k2 := key.2 32767 (by omega)
  have k3 := key.2 32768 (by omega)
  exact ⟨key.1, k2.1, k2.2.1, k2.2.2, k3.2.2⟩

/-- With generation 32767 holding 32767 on its top diagonal, the backtrace loop started on
diagonal 32768 of generation 32768 takes the match branch in every iteration: none of its
three tests can hold of a 16-bit offset. -/
theorem cpu_backtrace_while_stuck (wfs : CPU.edit_wavefronts_t)
    (hhi : (wfs.wavefronts 32767).hi = 32767)
    (ho : (wfs.wavefronts 32767).offsets 32767 = 32767) :
    ∀ (fuel : Nat) (offset : Int), -32768 ≤ offset → offset ≤ 32767 →
      CPU.backtrace_while wfs fuel 32768 offset (32767 + 1) = none := by
  intro fuel
  induction fuel with
  | zero => intro offset _ _; rfl
  | succ fuel ih =>
    intro offset h1 h2
    unfold CPU.backtrace_while
    dsimp only
    rw [hhi, if_neg (fun hc => by omega), if_neg (fun hc => by
      have := hc.2.2
      have e : (32768 : Int) - 1 = 32767 := by norm_num
      rw [e, ho] at this
      omega), if_neg (fun hc => by omega)]
    rw [ih _ (to_offset_range _).1 (to_offset_range _).2]
    rfl

/-- The amortized-growth run on an empty pattern and a text of 32768 symbols does not
return, whatever the number of iterations allowed to the backtrace loop. -/
theorem cpu_run_empty_pattern (T : List Char) (hT : T.length = 32768) (fuel : Nat) :
    CPU.wfa_edit_alignment_cpu fuel [] T = none := by
  obtain ⟨h1, _, h3, h4, _⟩ := cpu_driver_loop_empty_pattern T hT
  rw [cpu_align_unfold]
  unfold CPU.edit_wavefronts_backtrace EWAVEFRONT_DIAGONAL
  dsimp only
  rw [h1, hT]
  have e : ((32768 : Nat) : Int) - (([] : List Char).length : Int) = 32768 := by
    simp
  rw [e]
  rw [cpu_backtrace_while_stuck _ h3 h4 _ _ (to_offset_range _).1 (to_offset_range _).2]
  rfl

/-- No result is returned by a run that does not return for any amount of fuel. -/
theorem cpu_not_returns {P T : List Char}
    (h : ∀ fuel, CPU.wfa_edit_alignment_cpu fuel P T = none) (score : Nat)
    (cigar : List Char) : ¬ CPU.returns P T score cigar := by
  rintro ⟨f, hf⟩
  have := hf f (le_refl _)
  rw [h f] at this
  exact Option.noConfusion this

theorem lcp_self (s : List Char) : lcp s s = s.length := by
  induction s with
  | nil => rfl
  | cons a s ih =>
    unfold lcp
    rw [if_pos rfl, ih, List.length_cons]

theorem lcp_cons_same (a : Char) (s t : List Char) : lcp (a :: s) (a :: t) = lcp s t + 1 := by
  simp [lcp]

theorem lcp_replicate_append (n : Nat) (a : Char) (s t : List Char) :
    lcp (List.replicate n a ++ s) (List.replicate n a ++ t) = lcp s t + n := by
  induction n with
  | zero => simp
  | succ n ih =>
    rw [List.replicate_succ, List.cons_append, List.cons_append, lcp_cons_same, ih]
    rfl

/-- The first extend step of the driver loop on a non-empty sequence against itself. -/
theorem cpu_extend_steps_self (P : List Char) (hP : 0 < P.length) :
    ∃ e ∈ CPU.extend_steps P P, e.1 = 0 ∧ CPU.offset_of e.2.2 0 0 = to_offset P.length := by
  unfold CPU.extend_steps
  dsimp only
  obtain ⟨r, hr⟩ : ∃ r : Nat, ((P.length : Int) + P.length).toNat = r + 1 :=
    ⟨P.length + P.length - 1, by omega⟩
  rw [hr]
  unfold CPU.align_for_extends
  refine ⟨_, List.mem_cons_self _ _, rfl, ?_⟩
  unfold CPU.offset_of
  exact cpu_extend_self _ P
    (by unfold CPU.edit_wavefronts_allocate_wavefront; simp only [Function.update_same])
    (by unfold CPU.edit_wavefronts_allocate_wavefront; simp only [Function.update_same])
    (by simp only [Function.update_same])

/-- The compute step on the top diagonal of the generation it reads. -/
theorem cpu_compute_top (w : CPU.edit_wavefronts_t) (d : Nat) :
    ((CPU.edit_wavefronts_compute_wavefront w (d + 1)).wavefronts (d + 1)).offsets
      (w.wavefronts d).hi =
        to_offset (MAX ((w.wavefronts d).offsets (w.wavefronts d).hi)
          (to_offset (if (w.wavefronts d).lo ≤ (w.wavefronts d).hi - 1
            then (w.wavefronts d).offsets ((w.wavefronts d).hi - 1) else -1)) + 1) := by
  unfold CPU.edit_wavefronts_compute_wavefront CPU.edit_wavefronts_allocate_wavefront
  simp only [Nat.add_sub_cancel, Function.update_same]
  rw [Function.update_noteq (by omega), Function.update_same]

/-- The first iteration of the driver loop, from a store whose generation `0` has the range
`[0, 0]` and the offset `0`, on two sequences of equal length whose longest common prefix has
at most 32767 symbols and differs from the length as stored in the offset type: the extend
step leaves the length of the prefix on diagonal `0`, the exit test fails, and the compute
step stores that length plus one, in the offset type, on diagonal `0` of generation `1`. -/
theorem cpu_align_for_computes_first (P T : List Char) (w : CPU.edit_wavefronts_t) (r : Nat)
    (hlo : (w.wavefronts 0).lo = 0) (hhi : (w.wavefronts 0).hi = 0)
    (ho : (w.wavefronts 0).offsets 0 = 0)
    (hc : lcp P T ≤ 32767) (hne : to_offset T.length ≠ lcp P T) :
    ∃ c ∈ CPU.align_for_computes P P.length T T.length 0 0 (to_offset T.length) (r + 1) 0 w,
      c.1 = 0 ∧ CPU.offset_of c.2.1 0 0 = lcp P T ∧
      CPU.offset_of c.2.2 1 0 = to_offset ((lcp P T : Int) + 1) := by
  unfold CPU.align_for_computes
  dsimp only
  have h0 : ((CPU.edit_wavefronts_extend_wavefront w P P.length T T.length 0).wavefronts
      0).offsets 0 = lcp P T := by
    rw [cpu_extend_cell, hlo, hhi, ho, if_pos (by constructor <;> simp)]
    have e := ext_run_eq_lcp P T ((T.length : Int) - 0).toNat 0 0 (le_refl _) (le_refl _)
      (le_refl _)
    simp only [sub_zero, Int.toNat_zero, List.drop_zero, zero_add] at e
    have e2 := extend_while_eq P T ((T.length : Int) - 0).toNat 0 0 (by omega)
      (by simp only [sub_zero]; rw [e]; exact_mod_cast hc)
    simp only [sub_zero] at e2 ⊢
    rw [e2, e]
  rw [if_neg (fun h => hne (by rw [← h.2, h0]))]
  refine ⟨_, List.mem_cons_self _ _, rfl, h0, ?_⟩
  unfold CPU.offset_of
  have fr := cpu_extend_frame w P P.length T T.length 0
  have top := cpu_compute_top (CPU.edit_wavefronts_extend_wavefront w P P.length T T.length 0) 0
  rw [fr.2.1, fr.1, hhi, hlo, h0, if_neg (by omega)] at top
  rw [top, MAX_eq_max]
  congr 1
  have : to_offset (-1) = -1 := by unfold to_offset; omega
  rw [this]
  omega

theorem cpu_compute_steps_first (P T : List Char) (hlen : P.length = T.length)
    (hP : 0 < P.length) (hc : lcp P T ≤ 32767) (hne : to_offset T.length ≠ lcp P T) :
    ∃ c ∈ CPU.compute_steps P T, c.1 = 0 ∧ CPU.offset_of c.2.1 0 0 = lcp P T ∧
      CPU.offset_of c.2.2 1 0 = to_offset ((lcp P T : Int) + 1) := by
  unfold CPU.compute_steps EWAVEFRONT_DIAGONAL EWAVEFRONT_OFFSET
  dsimp only
  obtain ⟨r, hr⟩ : ∃ r : Nat, ((P.length : Int) + T.length).toNat = r + 1 :=
    ⟨P.length + T.length - 1, by omega⟩
  have htk : (T.length : Int) - P.length = 0 := by omega
  have ha : ABS 0 = 0 := rfl
  rw [hr, htk, ha]
  exact cpu_align_for_computes_first P T _ r
    (by unfold CPU.edit_wavefronts_allocate_wavefront; simp only [Function.update_same])
    (by unfold CPU.edit_wavefronts_allocate_wavefront; simp only [Function.update_same])
    (by simp only [Function.update_same]) hc hne

/-! ## The dense run on two initial contents of its buffer -/

/-- The extend step of the dense variant computes each cell from that cell alone. -/
theorem fpga_extend_agree (mem1 mem2 : Int → Int) (P : List Char) (m : Int) (T : List Char)
    (n : Int) (d : Nat) (i : Int) (h : mem1 i = mem2 i) :
    FPGA.edit_wavefronts_extend_wavefront mem1 P m T n d i =
      FPGA.edit_wavefronts_extend_wavefront mem2 P m T n d i := by
  unfold FPGA.edit_wavefronts_extend_wavefront
  rw [fpga_extend_for_apply, fpga_extend_for_apply, h]

/-- The driver loop of the dense variant, entered at generation `d` with two buffers that
agree below the cells of generation `d + 1`, stops at the same generation in both, with
buffers that agree below the cells of the generation after it; and it stops either through
its exit test or when the generations are used up. -/
theorem fpga_align_for_agree (P : List Char) (m : Int) (T : List Char) (n : Int)
    (tk toff : Int) :
    ∀ (rem d : Nat) (mem1 mem2 : Int → Int),
      (∀ i : Int, i < ((d : Int) + 1) * ((d : Int) + 1) → mem1 i = mem2 i) →
      (FPGA.align_for P m T n tk (ABS tk) toff rem d mem1).1 =
        (FPGA.align_for P m T n tk (ABS tk) toff rem d mem2).1 ∧
      (∀ i : Int, i < (((FPGA.align_for P m T n tk (ABS tk) toff rem d mem1).1 : Int) + 1) *
          (((FPGA.align_for P m T n tk (ABS tk) toff rem d mem1).1 : Int) + 1) →
        (FPGA.align_for P m T n tk (ABS tk) toff rem d mem1).2 i =
          (FPGA.align_for P m T n tk (ABS tk) toff rem d mem2).2 i) ∧
      (ABS tk ≤ ((FPGA.align_for P m T n tk (ABS tk) toff rem d mem1).1 : Int) ∨
        (FPGA.align_for P m T n tk (ABS tk) toff rem d mem1).1 = d + rem) := by
  intro rem
  induction rem with
  | zero =>
    intro d mem1 mem2 hag
    exact ⟨rfl, hag, Or.inr rfl⟩
  | succ rem ih =>
    intro d mem1 mem2 hag
    have hE : ∀ i : Int, i < ((d : Int) + 1) * ((d : Int) + 1) →
        FPGA.edit_wavefronts_extend_wavefront mem1 P m T n d i =
          FPGA.edit_wavefronts_extend_wavefront mem2 P m T n d i :=
      fun i hi => fpga_extend_agree mem1 mem2 P m T n d i (hag i hi)
    have hC : ∀ i : Int, i < (((d + 1 : Nat) : Int) + 1) * (((d + 1 : Nat) : Int) + 1) →
        FPGA.edit_wavefronts_compute_wavefront
            (FPGA.edit_wavefronts_extend_wavefront mem1 P m T n d) (d + 1) i =
          FPGA.edit_wavefronts_compute_wavefront
            (FPGA.edit_wavefronts_extend_wavefront mem2 P m T n d) (d + 1) i := by
      intro i hi
      have e1 : FPGA.OFFSET_IDX ((d + 1 : Nat) : Int) 0 - ((d + 1 : Nat) : Int) =
          ((d : Int) + 1) * ((d : Int) + 1) := by
        unfold FPGA.OFFSET_IDX; push_cast; ring
      have e2 : FPGA.OFFSET_IDX ((d + 1 : Nat) : Int) 0 + ((d + 1 : Nat) : Int) + 1 =
          (((d + 1 : Nat) : Int) + 1) * (((d + 1 : Nat) : Int) + 1) := by
        unfold FPGA.OFFSET_IDX; push_cast; ring
      by_cases hlow : i < ((d : Int) + 1) * ((d : Int) + 1)
      · rw [fpga_compute_frame _ d i (Or.inl (by rw [e1]; exact hlow)),
          fpga_compute_frame _ d i (Or.inl (by rw [e1]; exact hlow))]
        exact hE i hlow
      · have e3 : i = FPGA.OFFSET_IDX ((d + 1 : Nat) : Int) 0 +
            (i - FPGA.OFFSET_IDX ((d + 1 : Nat) : Int) 0) := by ring
        rw [e3]
        apply fpga_compute_agree
        · intro j j1 j2
          apply hE
          unfold FPGA.OFFSET_IDX
          have h0 : (0 : Int) ≤ d := Int.natCast_nonneg d
          nlinarith
        · push_cast at e1 ⊢; linarith
        · push_cast at e2 hi ⊢; linarith
    unfold FPGA.align_for
    dsimp only
    by_cases hg : ABS tk ≤ (d : Int)
    · have hidx := offset_idx_interval (d : Int) tk ((ABS_le_iff _ _).1 hg).1
        ((ABS_le_iff _ _).1 hg).2
      have hcell := hE (FPGA.OFFSET_IDX (d : Int) tk) (by linarith [hidx.2])
      by_cases hv : FPGA.edit_wavefronts_extend_wavefront mem1 P m T n d
          (FPGA.OFFSET_IDX (d : Int) tk) = toff
      · rw [if_pos ⟨hg, hv⟩, if_pos ⟨hg, by rw [← hcell]; exact hv⟩]
        exact ⟨rfl, hE, Or.inl hg⟩
      · rw [if_neg (fun h => hv h.2), if_neg (fun h => hv (by rw [hcell]; exact h.2))]
        obtain ⟨a, b, c⟩ := ih (d + 1) _ _ hC
        refine ⟨a, b, ?_⟩
        rcases c with c | c
        · exact Or.inl c
        · exact Or.inr (by rw [c]; omega)
    · rw [if_neg (fun h => hg h.1), if_neg (fun h => hg h.1)]
      obtain ⟨a, b, c⟩ := ih (d + 1) _ _ hC
      refine ⟨a, b, ?_⟩
      rcases c with c | c
      · exact Or.inl c
      · exact Or.inr (by rw [c]; omega)

/-- Two initial memories that agree before the buffer give the same result of the dense run,
for every pattern and text and every number of iterations allowed to the backtrace loop. -/
theorem fpga_run_agree (P T : List Char) (mem1 mem2 : Int → Int)
    (hm : ∀ i : Int, i < 0 → mem1 i = mem2 i) (fuel : Nat) :
    FPGA.wfa_edit_alignment_fpga fuel mem1 P T = FPGA.wfa_edit_alignment_fpga fuel mem2 P T := by
  have key := fpga_align_for_agree P P.length T T.length
    (EWAVEFRONT_DIAGONAL T.length P.length)
    (to_offset (EWAVEFRONT_OFFSET T.length P.length))
    ((P.length : Int) + T.length).toNat 0 (Function.update mem1 0 0) (Function.update mem2 0 0)
    (by
      intro i hi
      by_cases h0 : i = 0
      · subst h0; rw [Function.update_same, Function.update_same]
      · rw [Function.update_noteq h0, Function.update_noteq h0]
        exact hm i (by push_cast at hi; omega))
  have d1 : FPGA.driver_loop mem1 P T = FPGA.align_for P P.length T T.length
    (EWAVEFRONT_DIAGONAL T.length P.length) (ABS (EWAVEFRONT_DIAGONAL T.length P.length))
    (to_offset (EWAVEFRONT_OFFSET T.length P.length))
    ((P.length : Int) + T.length).toNat 0 (Function.update mem1 0 0) := rfl
  have d2 : FPGA.driver_loop mem2 P T = FPGA.align_for P P.length T T.length
    (EWAVEFRONT_DIAGONAL T.length P.length) (ABS (EWAVEFRONT_DIAGONAL T.length P.length))
    (to_offset (EWAVEFRONT_OFFSET T.length P.length))
    ((P.length : Int) + T.length).toNat 0 (Function.update mem2 0 0) := rfl
  rw [← d1, ← d2] at key
  obtain ⟨k1, k2, k3⟩ := key
  have habs : ABS (EWAVEFRONT_DIAGONAL T.length P.length) ≤
      ((FPGA.driver_loop mem1 P T).1 : Int) := by
    rcases k3 with c | c
    · exact c
    · rw [c, ABS_le_iff]
      unfold EWAVEFRONT_DIAGONAL
      push_cast
      omega
  have hidx := offset_idx_interval ((FPGA.driver_loop mem1 P T).1 : Int) _
    ((ABS_le_iff _ _).1 habs).1 ((ABS_le_iff _ _).1 habs).2
  have hcell := k2 _ (by linarith [hidx.2])
  rw [fpga_align_unfold, fpga_align_unfold]
  unfold FPGA.edit_wavefronts_backtrace
  dsimp only
  rw [← k1, ← hcell]
  rw [fpga_backtrace_while_agree _ _ (FPGA.driver_loop mem1 P T).1
    (fun i _ hi => k2 i hi) _ _ _ _ (le_refl _)]

/-- The cell just before the buffer is read by the dense backtrace and never written by the
run: for Pattern = "A", Text = "B", two memories that agree on every index from `0` on and
differ at index `-1` give the scripts `"I"` and `"X"`. -/
theorem fpga_script_depends_on_cell_before_buffer :
    (∀ i : Int, 0 ≤ i → (if i = -1 then (1 : Int) else 0) = 0) ∧
    FPGA.returns (fun _ => 0) ['A'] ['B'] 1 ['I'] ∧
    FPGA.returns (fun i => if i = -1 then 1 else 0) ['A'] ['B'] 1 ['X'] :=
  ⟨fun i hi => if_neg (by omega),
    fpga_returns_of_run (by decide : FPGA.wfa_edit_alignment_fpga 1 _ _ _ = _),
    fpga_returns_of_run (by decide : FPGA.wfa_edit_alignment_fpga 1 _ _ _ = _)⟩

/-! ## Runs with an empty text -/

theorem extend_while_stop_text (P : List Char) (m : Int) (T : List Char) (n : Int) (f : Nat)
    (v h o : Int) (hh : ¬ h < n) : extend_while P m T n f v h o = o := by
  cases f with
  | zero => rfl
  | succ f =>
    unfold extend_while
    rw [if_neg (fun hc => hh hc.2.1)]

/-- With an empty text the driver loop of the amortized-growth variant runs through the
generations below `|n - m|`, each with the range `[-d, d]` and the offset `0` on its lowest
diagonal. -/
theorem cpu_align_for_empty_text (P : List Char) (m tk tka toff : Int) :
    ∀ (rem d : Nat) (wfs : CPU.edit_wavefronts_t), ((d + rem : Nat) : Int) ≤ tka →
      (∀ d', d' ≤ d → (wfs.wavefronts d').lo = -(d' : Int) ∧
        (wfs.wavefronts d').hi = d' ∧ (wfs.wavefronts d').offsets (-(d' : Int)) = 0) →
      (CPU.align_for P m [] 0 tk tka toff rem d wfs).1 = d + rem ∧
      ∀ d', d' ≤ d + rem →
        ((CPU.align_for P m [] 0 tk tka toff rem d wfs).2.wavefronts d').lo = -(d' : Int) ∧
        ((CPU.align_for P m [] 0 tk tka toff rem d wfs).2.wavefronts d').hi = d' ∧
        ((CPU.align_for P m [] 0 tk tka toff rem d wfs).2.wavefronts d').offsets
          (-(d' : Int)) = 0 := by
  intro rem
  induction rem with
  | zero =>
    intro d wfs _ hinv
    exact ⟨rfl, hinv⟩
  | succ rem ih =>
    intro d wfs htk hinv
    unfold CPU.align_for
    dsimp only
    rw [if_neg (fun hc => by have := hc.1; push_cast at htk; omega)]
    have fr := cpu_extend_frame wfs P m [] 0 d
    have cb := cpu_compute_border (CPU.edit_wavefronts_extend_wavefront wfs P m [] 0 d) d
    obtain ⟨hlo, hhi, ho⟩ := hinv d (le_refl _)
    have hcell : ((CPU.edit_wavefronts_extend_wavefront wfs P m [] 0 d).wavefronts d).offsets
        (-(d : Int)) = 0 := by
      rw [cpu_extend_cell, ho]
      split_ifs
      · exact extend_while_stop_text _ _ _ _ _ _ _ _ (by omega)
      · rfl
    have key := ih (d + 1)
      (CPU.edit_wavefronts_compute_wavefront (CPU.edit_wavefronts_extend_wavefront wfs P m [] 0 d)
        (d + 1)) (by push_cast at htk ⊢; omega) (by
        intro d' hd'
        by_cases e : d' = d + 1
        · subst e
          rw [cb.1, cb.2.1, fr.1, fr.2.1, hlo, hhi]
          refine ⟨by push_cast; omega, by push_cast; omega, ?_⟩
          have e2 : -(((d + 1 : Nat) : Int)) = ((CPU.edit_wavefronts_extend_wavefront wfs P m [] 0
              d).wavefronts d).lo - 1 := by rw [fr.1, hlo]; push_cast; omega
          rw [e2, cb.2.2.2.1 (by rw [fr.1, fr.2.1, hlo, hhi]; omega), fr.1, hlo, hcell]
          rfl
        · rw [cb.2.2.2.2 d' e]
          by_cases e' : d' = d
          · subst e'
            rw [fr.1, fr.2.1, hcell]
            exact ⟨hlo, hhi, rfl⟩
          · rw [fr.2.2 d' e']
            exact hinv d' (by omega))
    refine ⟨by rw [key.1]; omega, ?_⟩
    intro d' hd'
    exact key.2 d' (by omega)

/-- On generations that hold `0` on their lowest diagonal, the backtrace loop started on the
lowest diagonal with offset `0` takes the deletion branch in every iteration. -/
theorem cpu_backtrace_while_deletions (wfs : CPU.edit_wavefronts_t) :
    ∀ (d fuel : Nat), d ≤ fuel →
      (∀ d', d' < d → (wfs.wavefronts d').lo = -(d' : Int) ∧ (wfs.wavefronts d').hi = d' ∧
        (wfs.wavefronts d').offsets (-(d' : Int)) = 0) →
      CPU.backtrace_while wfs fuel (-(d : Int)) 0 d = some (List.replicate d 'D') := by
  intro d
  induction d with
  | zero =>
    intro fuel _ _
    rw [cpu_backtrace_while_zero]
    rfl
  | succ d ih =>
    intro fuel hf hinv
    obtain ⟨f, rfl⟩ : ∃ f, fuel = f + 1 := ⟨fuel - 1, by omega⟩
    obtain ⟨hlo, hhi, ho⟩ := hinv d (by omega)
    have e : -(((d + 1 : Nat) : Int)) + 1 = -(d : Int) := by push_cast; omega
    unfold CPU.backtrace_while
    dsimp only
    rw [e, hlo, hhi, ho, if_pos ⟨le_refl _, by omega, rfl⟩,
      ih f (by omega) (fun d' hd' => hinv d' (by omega))]
    rfl

/-- The state in which the driver loop of the amortized-growth variant stops on an empty
text. -/
theorem cpu_driver_loop_empty_text (P : List Char) :
    (CPU.driver_loop P []).1 = P.length ∧
    ∀ d', d' ≤ P.length →
      ((CPU.driver_loop P []).2.wavefronts d').lo = -(d' : Int) ∧
      ((CPU.driver_loop P []).2.wavefronts d').hi = d' ∧
      ((CPU.driver_loop P []).2.wavefronts d').offsets (-(d' : Int)) = 0 := by
  unfold CPU.driver_loop EWAVEFRONT_DIAGONAL EWAVEFRONT_OFFSET
  dsimp only
  have e : ((P.length : Int) + ((([] : List Char).length : Nat) : Int)).toNat = P.length := by
    simp
  rw [e]
  have key := cpu_align_for_empty_text P (P.length : Int)
    (((([] : List Char).length : Nat) : Int) - (P.length : Int))
    (ABS (((([] : List Char).length : Nat) : Int) - (P.length : Int)))
    (to_offset ((([] : List Char).length : Nat) : Int)) P.length 0
    { CPU.edit_wavefronts_allocate_wavefront
          (CPU.edit_wavefronts_init P.length (([] : List Char).length : Int)) 0 0 0 with
        wavefronts := Function.update (CPU.edit_wavefronts_allocate_wavefront
          (CPU.edit_wavefronts_init P.length (([] : List Char).length : Int)) 0 0 0).wavefronts 0
          { (CPU.edit_wavefronts_allocate_wavefront
              (CPU.edit_wavefronts_init P.length (([] : List Char).length : Int)) 0 0
                0).wavefronts 0 with
            offsets := Function.update ((CPU.edit_wavefronts_allocate_wavefront
              (CPU.edit_wavefronts_init P.length (([] : List Char).length : Int)) 0 0
                0).wavefronts 0).offsets 0 0 } }
    (by
      unfold ABS
      simp only [List.length_nil, Nat.cast_zero]
      split_ifs <;> push_cast <;> omega)
    (by
      intro d' hd'
      have e0 : d' = 0 := by omega
      subst e0
      unfold CPU.edit_wavefronts_allocate_wavefront
      simp only [Function.update_same]
      exact ⟨rfl, rfl, rfl⟩)
  refine ⟨key.1.trans (zero_add _), ?_⟩
  intro d' hd'
  exact key.2 d' (by omega)

/-- The amortized-growth run on any pattern and an empty text returns the length of the
pattern and as many `'D'`. -/
theorem cpu_run_empty_text (P : List Char) (fuel : Nat) (hf : P.length ≤ fuel) :
    CPU.wfa_edit_alignment_cpu fuel P [] = some (P.length, List.replicate P.length 'D') := by
  obtain ⟨k1, k2⟩ := cpu_driver_loop_empty_text P
  rw [cpu_align_unfold]
  unfold CPU.edit_wavefronts_backtrace EWAVEFRONT_DIAGONAL
  dsimp only
  have etk : ((([] : List Char).length : Nat) : Int) - (P.length : Int) =
      -(((CPU.driver_loop P []).1 : Nat) : Int) := by
    rw [k1]; simp
  rw [etk, (k2 _ (by omega)).2.2]
  have e0 : to_offset 0 = 0 := rfl
  rw [e0, cpu_backtrace_while_deletions _ _ fuel (by omega)
    (fun d' hd' => k2 d' (by omega))]
  simp only [Option.map_some', k1]

/-! ## Claims C1 to C10 -/

/-- C1. For every pattern and text whose lengths sum to at most 32767 (the range of the
16-bit offsets), the score returned by `edit_wavefronts_align` is the Levenshtein edit
distance of pattern and text, in the amortized-growth variant and, for every initial 16-bit
content of the buffer, in the dense variant; and that distance is the least number of
single-symbol insertions, deletions and substitutions that turn the pattern into the text. -/
theorem c1_score_is_edit_distance (pattern text : List Char) (offsets_wavefronts : Int → Int)
    (hlen : pattern.length + text.length ≤ 32767)
    (hcells : FPGA.cells_in_range offsets_wavefronts) :
    (∃ cigar, CPU.returns pattern text
      (levenshtein Levenshtein.defaultCost pattern text) cigar) ∧
    (∃ cigar, FPGA.returns offsets_wavefronts pattern text
      (levenshtein Levenshtein.defaultCost pattern text) cigar) ∧
    edit_chain (levenshtein Levenshtein.defaultCost pattern text) pattern text ∧
    ∀ n, edit_chain n pattern text → levenshtein Levenshtein.defaultCost pattern text ≤ n := by
  obtain ⟨c1, h1, _, _⟩ := cpu_returns_spec pattern text hlen
  obtain ⟨c2, h2, _⟩ := fpga_returns_spec pattern text hlen offsets_wavefronts hcells
  exact ⟨⟨c1, h1⟩, ⟨c2, h2⟩, edit_chain_lev pattern text, fun n h => lev_le_edit_chain h⟩

theorem c1_score_is_edit_distance_witness :
    (['A', 'C', 'G', 'T'].length + ['A', 'G', 'T'].length ≤ 32767 ∧
      FPGA.cells_in_range (fun _ => 0)) ∧
    ((∃ cigar, CPU.returns ['A', 'C', 'G', 'T'] ['A', 'G', 'T']
      (levenshtein Levenshtein.defaultCost ['A', 'C', 'G', 'T'] ['A', 'G', 'T']) cigar) ∧
    (∃ cigar, FPGA.returns (fun _ => 0) ['A', 'C', 'G', 'T'] ['A', 'G', 'T']
      (levenshtein Levenshtein.defaultCost ['A', 'C', 'G', 'T'] ['A', 'G', 'T']) cigar) ∧
    edit_chain (levenshtein Levenshtein.defaultCost ['A', 'C', 'G', 'T'] ['A', 'G', 'T'])
      ['A', 'C', 'G', 'T'] ['A', 'G', 'T'] ∧
    ∀ n, edit_chain n ['A', 'C', 'G', 'T'] ['A', 'G', 'T'] →
      levenshtein Levenshtein.defaultCost ['A', 'C', 'G', 'T'] ['A', 'G', 'T'] ≤ n) :=
  ⟨⟨by decide, fun _ => ⟨by simp, by simp⟩⟩,
    c1_score_is_edit_distance ['A', 'C', 'G', 'T'] ['A', 'G', 'T'] (fun _ => 0) (by decide)
      (fun _ => ⟨by simp, by simp⟩)⟩

/-- C2 fails as stated: for Pattern = Text = 32768 times `'A'` the offset that the extend step
stores on diagonal 0 and the target offset both wrap to -32768 in the 16-bit offset type, the
driver loop stops at generation 0, and the run returns score 0 and the empty script; the walk
of that script from `(m,n) = (32768,32768)` ends where it starts, not at `(0,0)`. -/
theorem c2_script_walk_counterexample :
    CPU.returns (List.replicate 32768 'A') (List.replicate 32768 'A') 0 [] ∧
    walk_back (List.replicate 32768 'A') (List.replicate 32768 'A') []
      (List.replicate 32768 'A').length (List.replicate 32768 'A').length =
        some (32768, 32768) ∧
    ¬ ∃ score cigar,
      CPU.returns (List.replicate 32768 'A') (List.replicate 32768 'A') score cigar ∧
      walk_back (List.replicate 32768 'A') (List.replicate 32768 'A') cigar
        (List.replicate 32768 'A').length (List.replicate 32768 'A').length = some (0, 0) := by
  have key : ∀ P : List Char, P.length = 32768 →
      CPU.returns P P 0 [] ∧ walk_back P P [] P.length P.length = some (32768, 32768) ∧
      ¬ ∃ score cigar, CPU.returns P P score cigar ∧
        walk_back P P cigar P.length P.length = some (0, 0) := by
    intro P hP
    have r : CPU.returns P P 0 [] := ⟨0, fun fuel _ => cpu_run_self_wrapped P hP fuel⟩
    have w : walk_back P P [] P.length P.length = some (32768, 32768) := by
      rw [hP]; rfl
    refine ⟨r, w, ?_⟩
    rintro ⟨score, cigar, h1, h2⟩
    obtain ⟨_, e⟩ := cpu_returns_unique h1 r
    rw [e, w] at h2
    have h3 := congrArg Prod.fst (Option.some.inj h2)
    exact absurd h3 (by norm_num)
  exact key _ (List.length_replicate _ _)

/-- C2 (amended). For every pattern and text (lengths summing to at most 32767), the edit script of
the amortized-growth `edit_wavefronts_align` is a valid alignment in end-to-start order: walked
in the order produced from `(v,h) = (m,n)`, with `'M'` and `'X'` moving both coordinates back,
`'I'` moving `h` back and `'D'` moving `v` back, every `'M'` lands on equal symbols, every `'X'`
on different ones, no step leaves the rectangle, and the walk ends at `(0,0)`. -/
theorem c2_script_walks_back (pattern text : List Char)
    (hlen : pattern.length + text.length ≤ 32767) :
    ∃ score cigar, CPU.returns pattern text score cigar ∧
      walk_back pattern text cigar pattern.length text.length = some (0, 0) := by
  obtain ⟨c, h1, h2, _⟩ := cpu_returns_spec pattern text hlen
  exact ⟨_, c, h1, h2⟩

theorem c2_script_walks_back_witness :
    ['A', 'C', 'G', 'T'].length + ['A', 'G', 'T'].length ≤ 32767 ∧
    ∃ score cigar, CPU.returns ['A', 'C', 'G', 'T'] ['A', 'G', 'T'] score cigar ∧
      walk_back ['A', 'C', 'G', 'T'] ['A', 'G', 'T'] cigar
        ['A', 'C', 'G', 'T'].length ['A', 'G', 'T'].length = some (0, 0) :=
  ⟨by decide, c2_script_walks_back ['A', 'C', 'G', 'T'] ['A', 'G', 'T'] (by decide)⟩

/-- C3 fails as stated: for Pattern = "ACGT" and Text = "AGT" the run returns score 1 and the
script "MMDM", and the forward replay of that script in the order produced, from
`(v,h) = (0,0)`, breaks off at the second symbol (an `'M'` on `'C'` against `'G'`). -/
theorem c3_forward_replay_counterexample :
    ∃ cigar, CPU.returns ['A', 'C', 'G', 'T'] ['A', 'G', 'T'] 1 cigar ∧
      cigar = ['M', 'M', 'D', 'M'] ∧
      replay ['A', 'C', 'G', 'T'] ['A', 'G', 'T'] cigar 0 0 = none := by
  obtain ⟨c, h1, _, _⟩ := cpu_run_spec ['A', 'C', 'G', 'T'] ['A', 'G', 'T'] (by decide)
  have e := h1 7 (by decide)
  have e' : CPU.wfa_edit_alignment_cpu 7 ['A', 'C', 'G', 'T'] ['A', 'G', 'T'] =
      some (1, ['M', 'M', 'D', 'M']) := by decide
  rw [e'] at e
  simp only [Option.some.injEq, Prod.mk.injEq] at e
  obtain ⟨e1, e2⟩ := e
  refine ⟨c, ⟨7, ?_⟩, e2.symm, ?_⟩
  · intro fuel hf
    rw [h1 fuel hf, ← e1]
  · rw [← e2]; decide

/-- C3 (amended). For every pattern and text (lengths summing to at most 32767), replaying
the edit script of the amortized-growth `edit_wavefronts_align` in the reverse of the order
produced, from `v = 0`, `h = 0` (`'M'` and `'X'` advance both, `'I'` advances `h`, `'D'`
advances `v`), consumes Pattern and Text exactly to completion, every `'M'` standing on equal
symbols and every `'X'` on different ones. -/
theorem c3_reverse_replay (pattern text : List Char)
    (hlen : pattern.length + text.length ≤ 32767) :
    ∃ score cigar, CPU.returns pattern text score cigar ∧
      replay pattern text cigar.reverse 0 0 = some (pattern.length, text.length) := by
  obtain ⟨c, h1, h2, _⟩ := cpu_returns_spec pattern text hlen
  exact ⟨_, c, h1, walk_back_replay pattern text c _ _ _ _ (le_refl _) (le_refl _) h2⟩

theorem c3_reverse_replay_witness :
    ['A', 'C', 'G', 'T'].length + ['A', 'G', 'T'].length ≤ 32767 ∧
    ∃ score cigar, CPU.returns ['A', 'C', 'G', 'T'] ['A', 'G', 'T'] score cigar ∧
      replay ['A', 'C', 'G', 'T'] ['A', 'G', 'T'] cigar.reverse 0 0 =
        some (['A', 'C', 'G', 'T'].length, ['A', 'G', 'T'].length) :=
  ⟨by decide, c3_reverse_replay ['A', 'C', 'G', 'T'] ['A', 'G', 'T'] (by decide)⟩

/-- C4 fails as stated: for an empty pattern and Text = 32768 times `'A'` the amortized-growth
run produces no script and no score.  Its backtrace starts on diagonal 32768 of generation
32768 and takes the match branch in every iteration, because the test
`offset == offsets[k-1] + 1` compares a 16-bit offset with 32767 + 1: the run returns nothing,
whatever the number of iterations allowed. -/
theorem c4_no_script_counterexample :
    (∀ fuel, CPU.wfa_edit_alignment_cpu fuel [] (List.replicate 32768 'A') = none) ∧
    ¬ ∃ score cigar, CPU.returns [] (List.replicate 32768 'A') score cigar ∧
      non_match_count cigar = score := by
  have key : ∀ T : List Char, T.length = 32768 →
      (∀ fuel, CPU.wfa_edit_alignment_cpu fuel [] T = none) ∧
      ¬ ∃ score cigar, CPU.returns [] T score cigar ∧ non_match_count cigar = score := by
    intro T hT
    have h := cpu_run_empty_pattern T hT
    refine ⟨h, ?_⟩
    rintro ⟨score, cigar, h1, _⟩
    exact cpu_not_returns h score cigar h1
  exact key _ (List.length_replicate _ _)

/-- C4 (amended). For every pattern and text (lengths summing to at most 32767), the number of
symbols other than `'M'` in the edit script produced by `edit_wavefronts_align` equals the
returned score, in the amortized-growth variant and, for every initial 16-bit content of the
buffer, in the dense variant. -/
theorem c4_non_match_count_is_score (pattern text : List Char)
    (offsets_wavefronts : Int → Int) (hlen : pattern.length + text.length ≤ 32767)
    (hcells : FPGA.cells_in_range offsets_wavefronts) :
    (∃ score cigar, CPU.returns pattern text score cigar ∧ non_match_count cigar = score) ∧
    (∃ score cigar, FPGA.returns offsets_wavefronts pattern text score cigar ∧
      non_match_count cigar = score) := by
  obtain ⟨c1, h1, _, h1'⟩ := cpu_returns_spec pattern text hlen
  obtain ⟨c2, h2, h2'⟩ := fpga_returns_spec pattern text hlen offsets_wavefronts hcells
  exact ⟨⟨_, c1, h1, h1'⟩, ⟨_, c2, h2, h2'⟩⟩

theorem c4_non_match_count_is_score_witness :
    (['A', 'C', 'G', 'T'].length + ['A', 'G', 'T'].length ≤ 32767 ∧
      FPGA.cells_in_range (fun _ => 0)) ∧
    ((∃ score cigar, CPU.returns ['A', 'C', 'G', 'T'] ['A', 'G', 'T'] score cigar ∧
      non_match_count cigar = score) ∧
    (∃ score cigar, FPGA.returns (fun _ => 0) ['A', 'C', 'G', 'T'] ['A', 'G', 'T'] score cigar ∧
      non_match_count cigar = score)) :=
  ⟨⟨by decide, fun _ => ⟨by simp, by simp⟩⟩,
    c4_non_match_count_is_score ['A', 'C', 'G', 'T'] ['A', 'G', 'T'] (fun _ => 0) (by decide)
      (fun _ => ⟨by simp, by simp⟩)⟩

/-- C5 fails as stated: for P = 32768 times `'A'` the offset that the extend step stores and the
target offset both wrap to -32768 in the 16-bit offset type; the run returns score 0 and the
empty script, not 32768 times `'M'`. -/
theorem c5_align_self_counterexample :
    CPU.returns (List.replicate 32768 'A') (List.replicate 32768 'A') 0 [] ∧
    ¬ CPU.returns (List.replicate 32768 'A') (List.replicate 32768 'A') 0
      (List.replicate (List.replicate 32768 'A').length 'M') := by
  have key : ∀ P : List Char, P.length = 32768 →
      CPU.returns P P 0 [] ∧ ¬ CPU.returns P P 0 (List.replicate P.length 'M') := by
    intro P hP
    have r : CPU.returns P P 0 [] := ⟨0, fun fuel _ => cpu_run_self_wrapped P hP fuel⟩
    refine ⟨r, ?_⟩
    intro h
    obtain ⟨_, e⟩ := cpu_returns_unique h r
    have e2 := congrArg List.length e
    rw [List.length_replicate, hP, List.length_nil] at e2
    exact absurd e2 (by norm_num)
  exact key _ (List.length_replicate _ _)

/-- C5 (amended). For every sequence P of at most 32767 symbols, aligning P against itself in the
amortized-growth variant returns score 0 and an edit script of exactly `len(P)` symbols, all
`'M'`. -/
theorem c5_align_self (pattern : List Char) (hlen : pattern.length ≤ 32767) :
    CPU.returns pattern pattern 0 (List.replicate pattern.length 'M') := by
  refine ⟨0, ?_⟩
  intro fuel _
  rw [cpu_run_self, to_offset_eq _ (by omega) (by omega),
    backtrace_matches_eq _ _ pattern.length (by simp) (by simp) (by omega)]

theorem c5_align_self_witness :
    ['A', 'C', 'G', 'T'].length ≤ 32767 ∧
    CPU.returns ['A', 'C', 'G', 'T'] ['A', 'C', 'G', 'T'] 0 ['M', 'M', 'M', 'M'] :=
  ⟨by decide, c5_align_self ['A', 'C', 'G', 'T'] (by decide)⟩

/-- C6 fails as stated: for an empty pattern and Text = 32768 times `'A'` the amortized-growth
run does not return score 32768 and 32768 times `'I'`: it returns nothing, whatever the number
of iterations allowed to the backtrace loop.  The insertion test
`offset == offsets[k-1] + 1` compares a 16-bit offset with 32767 + 1 and never holds, so the
loop stays in its match branch. -/
theorem c6_align_empty_counterexample :
    (∀ fuel, CPU.wfa_edit_alignment_cpu fuel [] (List.replicate 32768 'A') = none) ∧
    ¬ CPU.returns [] (List.replicate 32768 'A') (List.replicate 32768 'A').length
      (List.replicate (List.replicate 32768 'A').length 'I') := by
  have key : ∀ T : List Char, T.length = 32768 →
      (∀ fuel, CPU.wfa_edit_alignment_cpu fuel [] T = none) ∧
      ¬ CPU.returns [] T T.length (List.replicate T.length 'I') := by
    intro T hT
    have h := cpu_run_empty_pattern T hT
    exact ⟨h, cpu_not_returns h _ _⟩
  exact key _ (List.length_replicate _ _)

/-- C6 (amended). Zero-length inputs are valid in the amortized-growth variant: for an empty
pattern and any text T of at most 32767 symbols `edit_wavefronts_align` returns score
`len(T)` and a script of `len(T)` symbols, all `'I'`; for any pattern P and an empty text it
returns score `len(P)` and a script of `len(P)` symbols, all `'D'`. -/
theorem c6_align_empty (pattern text : List Char) (ht : text.length ≤ 32767) :
    CPU.returns [] text text.length (List.replicate text.length 'I') ∧
    CPU.returns pattern [] pattern.length (List.replicate pattern.length 'D') := by
  constructor
  · obtain ⟨c, h1, h2, _⟩ := cpu_returns_spec [] text (by simp only [List.length_nil]; omega)
    rw [lev_nil_left] at h1
    rw [walk_back_left_edge [] text c _ h2] at h1
    exact h1
  · exact ⟨pattern.length, fun fuel hf => cpu_run_empty_text pattern fuel hf⟩

theorem c6_align_empty_witness :
    ['A', 'G', 'T'].length ≤ 32767 ∧
    (CPU.returns [] ['A', 'G', 'T'] 3 ['I', 'I', 'I'] ∧
      CPU.returns ['A', 'C', 'G', 'T'] [] 4 ['D', 'D', 'D', 'D']) :=
  ⟨by decide, c6_align_empty ['A', 'C', 'G', 'T'] ['A', 'G', 'T'] (by decide)⟩

/-- C7 fails as stated: for P empty and T = 32768 times `'A'` the run on (pattern = P, text = T)
returns nothing, whatever the number of iterations allowed to the backtrace loop, while the
run on (pattern = T, text = P) returns score 32768 and 32768 times `'D'`. -/
theorem c7_score_asymmetric_counterexample :
    (∀ fuel, CPU.wfa_edit_alignment_cpu fuel [] (List.replicate 32768 'A') = none) ∧
    CPU.returns (List.replicate 32768 'A') [] 32768 (List.replicate 32768 'D') ∧
    ¬ ∃ score cigar cigar', CPU.returns [] (List.replicate 32768 'A') score cigar ∧
      CPU.returns (List.replicate 32768 'A') [] score cigar' := by
  have key : ∀ T : List Char, T.length = 32768 →
      (∀ fuel, CPU.wfa_edit_alignment_cpu fuel [] T = none) ∧
      CPU.returns T [] 32768 (List.replicate 32768 'D') ∧
      ¬ ∃ score cigar cigar', CPU.returns [] T score cigar ∧ CPU.returns T [] score cigar' := by
    intro T hT
    have h := cpu_run_empty_pattern T hT
    refine ⟨h, ?_, ?_⟩
    · refine ⟨32768, fun fuel hf => ?_⟩
      have := cpu_run_empty_text T fuel (by rw [hT]; exact hf)
      rw [hT] at this
      exact this
    · rintro ⟨score, cigar, _, h1, _⟩
      exact cpu_not_returns h score cigar h1
  exact key _ (List.length_replicate _ _)

/-- C7 (amended). The score is symmetric: for all sequences P and T (lengths summing to at most
32767) the score `edit_wavefronts_align` returns for (pattern = P, text = T) equals the score it
returns for (pattern = T, text = P). -/
theorem c7_score_symmetric (pattern text : List Char)
    (hlen : pattern.length + text.length ≤ 32767) :
    ∃ score cigar cigar', CPU.returns pattern text score cigar ∧
      CPU.returns text pattern score cigar' := by
  obtain ⟨c1, h1, _, _⟩ := cpu_returns_spec pattern text hlen
  obtain ⟨c2, h2, _, _⟩ := cpu_returns_spec text pattern (by omega)
  rw [lev_symm text pattern] at h2
  exact ⟨_, c1, c2, h1, h2⟩

theorem c7_score_symmetric_witness :
    ['A', 'C', 'G', 'T'].length + ['A', 'G', 'T'].length ≤ 32767 ∧
    ∃ score cigar cigar', CPU.returns ['A', 'C', 'G', 'T'] ['A', 'G', 'T'] score cigar ∧
      CPU.returns ['A', 'G', 'T'] ['A', 'C', 'G', 'T'] score cigar' :=
  ⟨by decide, c7_score_symmetric ['A', 'C', 'G', 'T'] ['A', 'G', 'T'] (by decide)⟩

/-- C8 fails as stated: for A and B empty and C = 32768 times `'A'` the run on (A, C) returns no
score, whatever the number of iterations allowed to the backtrace loop, while the run on
(A, B) returns score 0; there are no three returned scores to compare. -/
theorem c8_score_triangle_counterexample :
    (∀ fuel, CPU.wfa_edit_alignment_cpu fuel [] (List.replicate 32768 'A') = none) ∧
    CPU.returns [] [] 0 [] ∧
    ¬ ∃ score_ac score_ab score_bc cigar_ac cigar_ab cigar_bc,
      CPU.returns [] (List.replicate 32768 'A') score_ac cigar_ac ∧
      CPU.returns [] [] score_ab cigar_ab ∧
      CPU.returns [] (List.replicate 32768 'A') score_bc cigar_bc ∧
      score_ac ≤ score_ab + score_bc := by
  have key : ∀ T : List Char, T.length = 32768 →
      (∀ fuel, CPU.wfa_edit_alignment_cpu fuel [] T = none) ∧
      CPU.returns [] [] 0 [] ∧
      ¬ ∃ score_ac score_ab score_bc cigar_ac cigar_ab cigar_bc,
        CPU.returns [] T score_ac cigar_ac ∧ CPU.returns [] [] score_ab cigar_ab ∧
        CPU.returns [] T score_bc cigar_bc ∧ score_ac ≤ score_ab + score_bc := by
    intro T hT
    have h := cpu_run_empty_pattern T hT
    refine ⟨h, cpu_returns_of_run (by decide : CPU.wfa_edit_alignment_cpu 0 _ _ = _), ?_⟩
    rintro ⟨s1, _, _, c1, _, _, h1, _⟩
    exact cpu_not_returns h s1 c1 h1
  exact key _ (List.length_replicate _ _)

/-- C8 (amended). The score satisfies the triangle inequality: for all sequences A, B, C (each pair
of lengths summing to at most 32767), `Score(A, C) ≤ Score(A, B) + Score(B, C)`, where `Score`
is the value returned by `edit_wavefronts_align`. -/
theorem c8_score_triangle (a b c : List Char) (hab : a.length + b.length ≤ 32767)
    (hbc : b.length + c.length ≤ 32767) (hac : a.length + c.length ≤ 32767) :
    ∃ score_ac score_ab score_bc cigar_ac cigar_ab cigar_bc,
      CPU.returns a c score_ac cigar_ac ∧ CPU.returns a b score_ab cigar_ab ∧
      CPU.returns b c score_bc cigar_bc ∧ score_ac ≤ score_ab + score_bc := by
  obtain ⟨c1, h1, _, _⟩ := cpu_returns_spec a c hac
  obtain ⟨c2, h2, _, _⟩ := cpu_returns_spec a b hab
  obtain ⟨c3, h3, _, _⟩ := cpu_returns_spec b c hbc
  exact ⟨_, _, _, c1, c2, c3, h1, h2, h3, lev_triangle a b c⟩

theorem c8_score_triangle_witness :
    (['A', 'C', 'G', 'T'].length + ['A', 'G', 'T'].length ≤ 32767 ∧
      ['A', 'G', 'T'].length + ['G', 'T'].length ≤ 32767 ∧
      ['A', 'C', 'G', 'T'].length + ['G', 'T'].length ≤ 32767) ∧
    ∃ score_ac score_ab score_bc cigar_ac cigar_ab cigar_bc,
      CPU.returns ['A', 'C', 'G', 'T'] ['G', 'T'] score_ac cigar_ac ∧
      CPU.returns ['A', 'C', 'G', 'T'] ['A', 'G', 'T'] score_ab cigar_ab ∧
      CPU.returns ['A', 'G', 'T'] ['G', 'T'] score_bc cigar_bc ∧
      score_ac ≤ score_ab + score_bc :=
  ⟨⟨by decide, by decide, by decide⟩,
    c8_score_triangle ['A', 'C', 'G', 'T'] ['A', 'G', 'T'] ['G', 'T'] (by decide) (by decide)
      (by decide)⟩

/-- C9 fails as stated: for Pattern = Text = 32768 times `'A'` the driver loop of the
amortized-growth variant stops at generation 0 with the offset -32768 stored for diagonal
`n - m = 0`, not `n = 32768`: the stored offset and the target offset, both of the 16-bit
offset type, wrap alike, so the exit test holds while the stored offset is not `n`. -/
theorem c9_driver_loop_counterexample :
    (CPU.driver_loop (List.replicate 32768 'A') (List.replicate 32768 'A')).1 = 0 ∧
    ((CPU.driver_loop (List.replicate 32768 'A') (List.replicate 32768 'A')).2.wavefronts
      (CPU.driver_loop (List.replicate 32768 'A') (List.replicate 32768 'A')).1).offsets
      (((List.replicate 32768 'A').length : Int) - (List.replicate 32768 'A').length) =
        -32768 ∧
    ((List.replicate 32768 'A').length : Int) = 32768 := by
  have key : ∀ P : List Char, P.length = 32768 →
      (CPU.driver_loop P P).1 = 0 ∧
      ((CPU.driver_loop P P).2.wavefronts (CPU.driver_loop P P).1).offsets
        ((P.length : Int) - P.length) = -32768 ∧
      (P.length : Int) = 32768 := by
    intro P hP
    obtain ⟨h1, h2⟩ := cpu_driver_loop_self P
    refine ⟨h1, ?_, by rw [hP]; rfl⟩
    rw [h1, sub_self, h2, hP]
    rfl
  exact key _ (List.length_replicate _ _)

/-- C9 (amended). For every pattern and text (lengths summing to at most 32767), the driver loop of
`edit_wavefronts_align` stops in the Found state, in both variants: it stops at a generation
`d ≤ m + n` with `|n - m| ≤ d` and with the offset stored for diagonal `n - m` at generation
`d` equal to `n`. -/
theorem c9_driver_loop_found (pattern text : List Char) (offsets_wavefronts : Int → Int)
    (hlen : pattern.length + text.length ≤ 32767)
    (hcells : FPGA.cells_in_range offsets_wavefronts) :
    ((CPU.driver_loop pattern text).1 ≤ pattern.length + text.length ∧
      ABS ((text.length : Int) - pattern.length) ≤ ((CPU.driver_loop pattern text).1 : Int) ∧
      ((CPU.driver_loop pattern text).2.wavefronts (CPU.driver_loop pattern text).1).offsets
        ((text.length : Int) - pattern.length) = text.length) ∧
    ((FPGA.driver_loop offsets_wavefronts pattern text).1 ≤ pattern.length + text.length ∧
      ABS ((text.length : Int) - pattern.length) ≤
        ((FPGA.driver_loop offsets_wavefronts pattern text).1 : Int) ∧
      (FPGA.driver_loop offsets_wavefronts pattern text).2
        (FPGA.OFFSET_IDX ((FPGA.driver_loop offsets_wavefronts pattern text).1 : Int)
          ((text.length : Int) - pattern.length)) = text.length) := by
  have ex := furthest_exit pattern text
  have l := lev_le_max pattern text
  obtain ⟨hs, hst⟩ := cpu_driver_loop_spec pattern text hlen
  obtain ⟨hs', hst', _, _⟩ := fpga_driver_loop_spec pattern text hlen offsets_wavefronts hcells
  refine ⟨⟨by omega, ?_, ?_⟩, ⟨by omega, ?_, ?_⟩⟩
  · rw [hs]; exact (ABS_le_iff _ _).2 ⟨ex.1, ex.2.1⟩
  · rw [hs, (hst _ (le_refl _)).2.2 _ ex.1 ex.2.1]; exact ex.2.2
  · rw [hs']; exact (ABS_le_iff _ _).2 ⟨ex.1, ex.2.1⟩
  · rw [hs', hst' _ (le_refl _) _ ex.1 ex.2.1]; exact ex.2.2

theorem c9_driver_loop_found_witness :
    (['A', 'C', 'G', 'T'].length + ['A', 'G', 'T'].length ≤ 32767 ∧
      FPGA.cells_in_range (fun _ => 0)) ∧
    (((CPU.driver_loop ['A', 'C', 'G', 'T'] ['A', 'G', 'T']).1 ≤
        ['A', 'C', 'G', 'T'].length + ['A', 'G', 'T'].length ∧
      ABS ((['A', 'G', 'T'].length : Int) - ['A', 'C', 'G', 'T'].length) ≤
        ((CPU.driver_loop ['A', 'C', 'G', 'T'] ['A', 'G', 'T']).1 : Int) ∧
      ((CPU.driver_loop ['A', 'C', 'G', 'T'] ['A', 'G', 'T']).2.wavefronts
        (CPU.driver_loop ['A', 'C', 'G', 'T'] ['A', 'G', 'T']).1).offsets
        ((['A', 'G', 'T'].length : Int) - ['A', 'C', 'G', 'T'].length) =
          ['A', 'G', 'T'].length) ∧
    ((FPGA.driver_loop (fun _ => 0) ['A', 'C', 'G', 'T'] ['A', 'G', 'T']).1 ≤
        ['A', 'C', 'G', 'T'].length + ['A', 'G', 'T'].length ∧
      ABS ((['A', 'G', 'T'].length : Int) - ['A', 'C', 'G', 'T'].length) ≤
        ((FPGA.driver_loop (fun _ => 0) ['A', 'C', 'G', 'T'] ['A', 'G', 'T']).1 : Int) ∧
      (FPGA.driver_loop (fun _ => 0) ['A', 'C', 'G', 'T'] ['A', 'G', 'T']).2
        (FPGA.OFFSET_IDX
          ((FPGA.driver_loop (fun _ => 0) ['A', 'C', 'G', 'T'] ['A', 'G', 'T']).1 : Int)
          ((['A', 'G', 'T'].length : Int) - ['A', 'C', 'G', 'T'].length)) =
            ['A', 'G', 'T'].length)) :=
  ⟨⟨by decide, fun _ => ⟨by simp, by simp⟩⟩,
    c9_driver_loop_found ['A', 'C', 'G', 'T'] ['A', 'G', 'T'] (fun _ => 0) (by decide)
      (fun _ => ⟨by simp, by simp⟩)⟩

/-- C10 fails as stated: for an empty pattern and Text = 32768 times `'A'` the backtrace of the
amortized-growth variant does not terminate: no number of iterations of its first loop gives
a result.  It stays in the match branch, which writes one more `'M'` per iteration, past any
buffer. -/
theorem c10_backtrace_counterexample :
    (∀ fuel, CPU.wfa_edit_alignment_cpu fuel [] (List.replicate 32768 'A') = none) ∧
    ¬ ∃ score cigar,
      (∀ fuel : Nat, ([] : List Char).length + (List.replicate 32768 'A').length ≤ fuel →
        CPU.wfa_edit_alignment_cpu fuel [] (List.replicate 32768 'A') = some (score, cigar)) ∧
      cigar.length ≤ ([] : List Char).length + (List.replicate 32768 'A').length ∧
      ∀ c ∈ cigar, c = 'M' ∨ c = 'X' ∨ c = 'I' ∨ c = 'D' := by
  have key : ∀ T : List Char, T.length = 32768 →
      (∀ fuel, CPU.wfa_edit_alignment_cpu fuel [] T = none) ∧
      ¬ ∃ score cigar,
        (∀ fuel : Nat, ([] : List Char).length + T.length ≤ fuel →
          CPU.wfa_edit_alignment_cpu fuel [] T = some (score, cigar)) ∧
        cigar.length ≤ ([] : List Char).length + T.length ∧
        ∀ c ∈ cigar, c = 'M' ∨ c = 'X' ∨ c = 'I' ∨ c = 'D' := by
    intro T hT
    have h := cpu_run_empty_pattern T hT
    refine ⟨h, ?_⟩
    rintro ⟨score, cigar, h1, _⟩
    have := h1 _ (le_refl _)
    rw [h] at this
    exact Option.noConfusion this
  exact key _ (List.length_replicate _ _)

/-- C10 (amended). For every pattern and text (lengths summing to at most 32767), the backtrace run
by the amortized-growth `edit_wavefronts_align` terminates (within `m + n` iterations of its
first loop), the edit script it writes has length at most `m + n`, the size of the `edit_cigar`
buffer, and every symbol it writes is one of `'M'`, `'X'`, `'I'`, `'D'`. -/
theorem c10_backtrace_within_buffer (pattern text : List Char)
    (hlen : pattern.length + text.length ≤ 32767) :
    ∃ score cigar,
      (∀ fuel : Nat, pattern.length + text.length ≤ fuel →
        CPU.wfa_edit_alignment_cpu fuel pattern text = some (score, cigar)) ∧
      cigar.length ≤ pattern.length + text.length ∧
      ∀ c ∈ cigar, c = 'M' ∨ c = 'X' ∨ c = 'I' ∨ c = 'D' := by
  obtain ⟨c, h1, h2, _⟩ := cpu_run_spec pattern text hlen
  have hl := walk_back_length pattern text c _ _ _ _ h2
  exact ⟨_, c, h1, by omega, walk_back_symbols pattern text c _ _ _ _ h2⟩

theorem c10_backtrace_within_buffer_witness :
    ['A', 'C', 'G', 'T'].length + ['A', 'G', 'T'].length ≤ 32767 ∧
    ∃ score cigar,
      (∀ fuel : Nat, ['A', 'C', 'G', 'T'].length + ['A', 'G', 'T'].length ≤ fuel →
        CPU.wfa_edit_alignment_cpu fuel ['A', 'C', 'G', 'T'] ['A', 'G', 'T'] =
          some (score, cigar)) ∧
      cigar.length ≤ ['A', 'C', 'G', 'T'].length + ['A', 'G', 'T'].length ∧
      ∀ c ∈ cigar, c = 'M' ∨ c = 'X' ∨ c = 'I' ∨ c = 'D' :=
  ⟨by decide, c10_backtrace_within_buffer ['A', 'C', 'G', 'T'] ['A', 'G', 'T'] (by decide)⟩

/-! ## Claims C11 to C20 -/

/-- C11. Aligning Pattern = "ACGT" with Text = "AGT" in the amortized-growth variant returns
score 1 and, in the order produced, the script "MMDM": exactly one `'D'`, no `'I'`, no `'X'`,
the other three symbols being `'M'`. -/
theorem c11_acgt_agt_script :
    CPU.returns ['A', 'C', 'G', 'T'] ['A', 'G', 'T'] 1 ['M', 'M', 'D', 'M'] ∧
    List.count 'D' ['M', 'M', 'D', 'M'] = 1 ∧ List.count 'I' ['M', 'M', 'D', 'M'] = 0 ∧
    List.count 'X' ['M', 'M', 'D', 'M'] = 0 ∧ List.count 'M' ['M', 'M', 'D', 'M'] = 3 :=
  ⟨cpu_returns_of_run (by decide : CPU.wfa_edit_alignment_cpu 7 _ _ = _), by decide, by decide,
    by decide, by decide⟩

/-- C12, the code at Pattern = "AB", Text = "BA": both variants return score 2, but the
amortized-growth variant returns the script "DMI", which walks from `(2,2)` back to `(0,0)`,
while the dense variant (on a zeroed buffer) returns "DXM", which is no valid walk: its `'X'`
stands on equal symbols.  The dense backtrace tests the range of generation `distance` where
the amortized one tests the stored range of generation `distance - 1`. -/
theorem c12_dense_script_differs :
    CPU.returns ['A', 'B'] ['B', 'A'] 2 ['D', 'M', 'I'] ∧
    FPGA.returns (fun _ => 0) ['A', 'B'] ['B', 'A'] 2 ['D', 'X', 'M'] ∧
    walk_back ['A', 'B'] ['B', 'A'] ['D', 'M', 'I'] 2 2 = some (0, 0) ∧
    walk_back ['A', 'B'] ['B', 'A'] ['D', 'X', 'M'] 2 2 = none :=
  ⟨cpu_returns_of_run (by decide : CPU.wfa_edit_alignment_cpu 3 _ _ = _),
    fpga_returns_of_run (by decide : FPGA.wfa_edit_alignment_fpga 3 _ _ _ = _),
    by decide, by decide⟩

/-- C13. Reuse of the dense store needs no clearing: for every pattern and text and for any
two initial memories that differ only inside the offsets buffer (the indices from `0` below
`(m+n)²`), the dense `edit_wavefronts_align`, which only resets cell 0 to 0, gives the same
result, score and edit script, for every number of iterations allowed to its backtrace loop,
so that one run returns a score and a script exactly when the other returns them; and when
the lengths sum to at most 32767 and the cells are 16-bit values both runs do return, the
edit distance and one common script. -/
theorem c13_buffer_content_irrelevant (pattern text : List Char) (mem1 mem2 : Int → Int)
    (hout : ∀ i : Int, (i < 0 ∨ ((pattern.length : Int) + text.length) *
      ((pattern.length : Int) + text.length) ≤ i) → mem1 i = mem2 i) :
    (∀ fuel : Nat, FPGA.wfa_edit_alignment_fpga fuel mem1 pattern text =
      FPGA.wfa_edit_alignment_fpga fuel mem2 pattern text) ∧
    (∀ (score : Nat) (cigar : List Char), FPGA.returns mem1 pattern text score cigar ↔
      FPGA.returns mem2 pattern text score cigar) ∧
    (pattern.length + text.length ≤ 32767 → FPGA.cells_in_range mem1 →
      FPGA.cells_in_range mem2 →
      ∃ cigar, FPGA.returns mem1 pattern text
          (levenshtein Levenshtein.defaultCost pattern text) cigar ∧
        FPGA.returns mem2 pattern text
          (levenshtein Levenshtein.defaultCost pattern text) cigar) := by
  have h := fpga_run_agree pattern text mem1 mem2 (fun i hi => hout i (Or.inl hi))
  refine ⟨h, ?_, ?_⟩
  · intro score cigar
    unfold FPGA.returns
    simp only [h]
  · intro hlen hr1 hr2
    exact fpga_returns_of_agree pattern text hlen mem1 mem2 hr1 hr2 (hout (-1) (Or.inl (by omega)))

theorem c13_buffer_content_irrelevant_witness :
    (∀ i : Int, (i < 0 ∨ ((['A'].length : Int) + ['B'].length) *
      ((['A'].length : Int) + ['B'].length) ≤ i) →
      (fun _ => (0 : Int)) i = (fun j : Int => if 0 ≤ j ∧ j < 4 then (7 : Int) else 0) i) ∧
    ((∀ fuel : Nat, FPGA.wfa_edit_alignment_fpga fuel (fun _ => 0) ['A'] ['B'] =
      FPGA.wfa_edit_alignment_fpga fuel (fun j => if 0 ≤ j ∧ j < 4 then 7 else 0) ['A'] ['B']) ∧
    (∀ (score : Nat) (cigar : List Char), FPGA.returns (fun _ => 0) ['A'] ['B'] score cigar ↔
      FPGA.returns (fun j => if 0 ≤ j ∧ j < 4 then 7 else 0) ['A'] ['B'] score cigar) ∧
    (['A'].length + ['B'].length ≤ 32767 → FPGA.cells_in_range (fun _ => 0) →
      FPGA.cells_in_range (fun j => if 0 ≤ j ∧ j < 4 then 7 else 0) →
      ∃ cigar, FPGA.returns (fun _ => 0) ['A'] ['B']
          (levenshtein Levenshtein.defaultCost ['A'] ['B']) cigar ∧
        FPGA.returns (fun j => if 0 ≤ j ∧ j < 4 then 7 else 0) ['A'] ['B']
          (levenshtein Levenshtein.defaultCost ['A'] ['B']) cigar)) :=
  ⟨fun i hi => by
      simp only [List.length_singleton, Nat.cast_one] at hi
      dsimp only
      rw [if_neg (by omega)],
    c13_buffer_content_irrelevant ['A'] ['B'] (fun _ => 0)
      (fun j => if 0 ≤ j ∧ j < 4 then 7 else 0) (fun i hi => by
        simp only [List.length_singleton, Nat.cast_one] at hi
        dsimp only
        rw [if_neg (by omega)])⟩

/-- C14, the code at two inputs.  For Pattern = "A", Text = "B" (a buffer of `2 * 2` cells)
the backtrace of the dense variant reads index `-1`.  For an empty pattern and Text = "A" (a
buffer of `1 * 1` cell) the driver loop computes generation 1 and so writes the value 1 to
index 3. -/
theorem c14_dense_index_out_of_range :
    ((-1 : Int) ∈ FPGA.edit_wavefronts_backtrace_reads 1
        (FPGA.driver_loop (fun _ => 0) ['A'] ['B']).2
        (EWAVEFRONT_DIAGONAL (['B'].length : Int) (['A'].length : Int))
        (FPGA.driver_loop (fun _ => 0) ['A'] ['B']).1) ∧
    ((([] : List Char).length : Int) + (['A'].length : Int)) *
        ((([] : List Char).length : Int) + (['A'].length : Int)) = 1 ∧
    (fun _ => (0 : Int)) 3 = 0 ∧
    (FPGA.driver_loop (fun _ => 0) [] ['A']).2 3 = 1 := by
  decide

/-- C15, the code at an empty pattern and Text = "A": `edit_wavefronts_init` reserves
`max_distance = 1` slot, the driver loop stops with `distance = 1`, the generation at which
the backtrace starts, and slot 1 holds the generation with range `[-1, 1]` that the compute
step allocated there. -/
theorem c15_generation_slot_out_of_range :
    (CPU.edit_wavefronts_init (([] : List Char).length : Int)
      (['A'].length : Int)).max_distance = 1 ∧
    (CPU.driver_loop [] ['A']).1 = 1 ∧
    ((CPU.driver_loop [] ['A']).2.wavefronts 1).lo = -1 ∧
    ((CPU.driver_loop [] ['A']).2.wavefronts 1).hi = 1 := by
  decide

/-- C16, the code at score 1 and script "MMDM": `edit_wavefronts_write_result` writes
"1", a newline and "MMDM", and `edit_wavefronts_check` returns `false` on exactly that
content.  Its loop compares every reference character with `cigar[0]` and leaves `i` at `0`,
so the closing test `i != cigar_length` rejects. -/
theorem c16_check_rejects_written_result :
    edit_wavefronts_write_result ['M', 'M', 'D', 'M'] 4 1 = ['1', '\n', 'M', 'M', 'D', 'M'] ∧
    edit_wavefronts_check ['M', 'M', 'D', 'M'] 4 1
      (some (edit_wavefronts_write_result ['M', 'M', 'D', 'M'] 4 1)) = false := by
  decide

/-- C17, the code at the values of `ALIGNED`: `"1"` makes `aligned` false, `"0"` makes it
true, any other value makes it false instead of being rejected, and an unset variable gives
true.  The `DEBUG` block next to it, written with `!strcmp`, gives `"1"` true, `"0"` false and
rejects any other value. -/
theorem c17_aligned_flag_inverted :
    FPGA.main_aligned (some ['1']) = some false ∧ FPGA.main_aligned (some ['0']) = some true ∧
    FPGA.main_aligned none = some true ∧ FPGA.main_aligned (some ['x']) = some false ∧
    FPGA.main_debug (some ['1']) = some true ∧ FPGA.main_debug (some ['0']) = some false ∧
    FPGA.main_debug (some ['x']) = none := by
  decide

/-- C18 fails as stated: a current generation with range `[0, 0]` and the non-negative offset
`cur[0] = 32767` is left by `edit_wavefronts_compute_wavefront` with `next[1] = -32768`, not
`cur[0] + 1 = 32768`, in both variants: the sum is stored in the 16-bit offset type. -/
theorem c18_compute_wraps_counterexample :
    (∀ k : Int, 0 ≤ k → k ≤ 0 →
      0 ≤ CPU.offset_of
        { CPU.edit_wavefronts_allocate_wavefront (CPU.edit_wavefronts_init 32767 32767) 0 0 0 with
          wavefronts := Function.update (CPU.edit_wavefronts_allocate_wavefront
            (CPU.edit_wavefronts_init 32767 32767) 0 0 0).wavefronts 0
            { lo := 0, hi := 0, offsets := Function.update (fun _ => 0) 0 32767 } } 0 k) ∧
    CPU.offset_of
        { CPU.edit_wavefronts_allocate_wavefront (CPU.edit_wavefronts_init 32767 32767) 0 0 0 with
          wavefronts := Function.update (CPU.edit_wavefronts_allocate_wavefront
            (CPU.edit_wavefronts_init 32767 32767) 0 0 0).wavefronts 0
            { lo := 0, hi := 0, offsets := Function.update (fun _ => 0) 0 32767 } } 0 0 + 1
      = 32768 ∧
    CPU.offset_of (CPU.edit_wavefronts_compute_wavefront
        { CPU.edit_wavefronts_allocate_wavefront (CPU.edit_wavefronts_init 32767 32767) 0 0 0 with
          wavefronts := Function.update (CPU.edit_wavefronts_allocate_wavefront
            (CPU.edit_wavefronts_init 32767 32767) 0 0 0).wavefronts 0
            { lo := 0, hi := 0, offsets := Function.update (fun _ => 0) 0 32767 } } (0 + 1))
      (0 + 1) (0 + 1) = -32768 ∧
    ¬ spec_recurrence
      (CPU.offset_of
        { CPU.edit_wavefronts_allocate_wavefront (CPU.edit_wavefronts_init 32767 32767) 0 0 0 with
          wavefronts := Function.update (CPU.edit_wavefronts_allocate_wavefront
            (CPU.edit_wavefronts_init 32767 32767) 0 0 0).wavefronts 0
            { lo := 0, hi := 0, offsets := Function.update (fun _ => 0) 0 32767 } } 0)
      (CPU.offset_of (CPU.edit_wavefronts_compute_wavefront
        { CPU.edit_wavefronts_allocate_wavefront (CPU.edit_wavefronts_init 32767 32767) 0 0 0 with
          wavefronts := Function.update (CPU.edit_wavefronts_allocate_wavefront
            (CPU.edit_wavefronts_init 32767 32767) 0 0 0).wavefronts 0
            { lo := 0, hi := 0, offsets := Function.update (fun _ => 0) 0 32767 } } (0 + 1))
        (0 + 1)) 0 0 ∧
    FPGA.offset_of (Function.update (fun _ => 0) 0 32767) 0 0 + 1 = 32768 ∧
    FPGA.offset_of (FPGA.edit_wavefronts_compute_wavefront
      (Function.update (fun _ => 0) 0 32767) (0 + 1)) (0 + 1) (0 + 1) = -32768 ∧
    ¬ spec_recurrence (FPGA.offset_of (Function.update (fun _ => 0) 0 32767) 0)
      (FPGA.offset_of (FPGA.edit_wavefronts_compute_wavefront
        (Function.update (fun _ => 0) 0 32767) (0 + 1)) (0 + 1)) 0 0 := by
  refine ⟨?_, by decide, by decide, fun h => absurd h.2.2.2.2 (by decide), by decide,
    by decide, fun h => absurd h.2.2.2.2 (by decide)⟩
  intro k h1 h2
  have hk : k = 0 := by omega
  subst hk
  decide

/-- C18 (amended). The compute step implements the recurrence exactly, in both variants: for every
current generation with range `[lo, hi]`, `lo ≤ hi`, whose offsets are non-negative (and at
most 32766, so that adding 1 stays within the 16-bit offset type),
`edit_wavefronts_compute_wavefront` leaves the next generation with the range
`[lo - 1, hi + 1]` and the offsets `next[lo-1] = cur[lo]`,
`next[lo] = max(cur[lo]+1, cur[lo+1])` (the second only when `lo+1 ≤ hi`),
`next[k] = max(cur[k]+1, cur[k-1]+1, cur[k+1])` for `lo < k < hi`,
`next[hi] = max(cur[hi], cur[hi-1]) + 1` (the second only when `hi-1 ≥ lo`) and
`next[hi+1] = cur[hi] + 1`; for `lo = hi` both boundary rules give the same cell
`cur[lo] + 1`.  In the dense variant the range of generation `distance` is
`[-distance, distance]`. -/
theorem c18_compute_recurrence (distance : Nat) :
    (∀ (wavefronts : CPU.edit_wavefronts_t) (lo hi : Int),
      (wavefronts.wavefronts distance).lo = lo → (wavefronts.wavefronts distance).hi = hi →
      lo ≤ hi →
      (∀ k : Int, lo ≤ k → k ≤ hi →
        0 ≤ CPU.offset_of wavefronts distance k ∧ CPU.offset_of wavefronts distance k ≤ 32766) →
      ((CPU.edit_wavefronts_compute_wavefront wavefronts (distance + 1)).wavefronts
          (distance + 1)).lo = lo - 1 ∧
      ((CPU.edit_wavefronts_compute_wavefront wavefronts (distance + 1)).wavefronts
          (distance + 1)).hi = hi + 1 ∧
      spec_recurrence (CPU.offset_of wavefronts distance)
        (CPU.offset_of (CPU.edit_wavefronts_compute_wavefront wavefronts (distance + 1))
          (distance + 1)) lo hi) ∧
    (∀ (offsets_wavefronts : Int → Int) (lo hi : Int),
      FPGA.LO_IDX distance = lo → FPGA.HI_IDX distance = hi →
      (∀ k : Int, lo ≤ k → k ≤ hi →
        0 ≤ FPGA.offset_of offsets_wavefronts distance k ∧
          FPGA.offset_of offsets_wavefronts distance k ≤ 32766) →
      spec_recurrence (FPGA.offset_of offsets_wavefronts distance)
        (FPGA.offset_of (FPGA.edit_wavefronts_compute_wavefront offsets_wavefronts
          (distance + 1)) (distance + 1)) lo hi) := by
  unfold spec_recurrence
  constructor
  · intro wavefronts lo hi hlo hhi hle hb
    unfold CPU.offset_of at hb ⊢
    have blo := hb lo (le_refl _) hle
    have bhi := hb hi hle (le_refl _)
    unfold CPU.edit_wavefronts_compute_wavefront CPU.edit_wavefronts_allocate_wavefront
    simp only [Nat.add_sub_cancel, Function.update_same, hlo, hhi]
    refine ⟨trivial, trivial, ?_, ?_, ?_, ?_, ?_⟩
    · simp (disch := omega) only [Function.update_noteq, Function.update_same,
        cpu_compute_for_apply, if_neg]
      exact to_offset_eq _ (by omega) (by omega)
    · by_cases h1 : lo + 1 ≤ hi
      · have b1 := hb (lo + 1) (by omega) h1
        simp (disch := omega) only [Function.update_noteq, Function.update_same,
          cpu_compute_for_apply, if_neg, if_pos, MAX_eq_max]
        unfold to_offset; omega
      · have e : hi = lo := by omega
        subst e
        simp (disch := omega) only [Function.update_noteq, Function.update_same,
          cpu_compute_for_apply, if_neg, if_pos, MAX_eq_max]
        unfold to_offset; omega
    · intro k h1 h2
      have bm := hb (k - 1) (by omega) (by omega)
      have b0 := hb k (by omega) (by omega)
      have bp := hb (k + 1) (by omega) (by omega)
      simp (disch := omega) only [Function.update_noteq, Function.update_same,
        cpu_compute_for_apply, if_neg, if_pos, MAX_eq_max]
      unfold to_offset; omega
    · by_cases h1 : hi - 1 ≥ lo
      · have b1 := hb (hi - 1) (by omega) (by omega)
        have h1' : lo ≤ hi - 1 := h1
        simp (disch := omega) only [Function.update_noteq, Function.update_same,
          cpu_compute_for_apply, if_neg, if_pos, MAX_eq_max]
        unfold to_offset; omega
      · have h1' : ¬ lo ≤ hi - 1 := h1
        simp (disch := omega) only [Function.update_noteq, Function.update_same,
          cpu_compute_for_apply, if_neg, if_pos, MAX_eq_max]
        unfold to_offset; omega
    · exact to_offset_eq _ (by omega) (by omega)
  · intro mem lo hi hlo hhi hb
    unfold FPGA.LO_IDX at hlo
    unfold FPGA.HI_IDX at hhi
    subst hlo hhi
    have hg : FPGA.gen_holds mem distance (fun k => FPGA.offset_of mem distance k) :=
      fun k _ _ => rfl
    have hs := (fpga_compute_spec mem distance _ hg hb).2
    have hcell : ∀ k : Int, -((distance : Int) + 1) ≤ k → k ≤ (distance : Int) + 1 →
        FPGA.offset_of (FPGA.edit_wavefronts_compute_wavefront mem (distance + 1))
          (distance + 1) k = next_start (fun k => FPGA.offset_of mem distance k) distance k := by
      intro k h1 h2
      exact hs k (by push_cast; omega) (by push_cast; omega)
    have blo := hb (-(distance : Int)) (le_refl _) (by omega)
    have bhi := hb (distance : Int) (by omega) (le_refl _)
    refine ⟨?_, ?_, ?_, ?_, ?_⟩
    · rw [hcell _ (by omega) (by omega)]
      unfold next_start
      have e : -(distance : Int) - 1 + 1 = -(distance : Int) := by ring
      simp only [e]
      split_ifs <;> omega
    · rw [hcell _ (by omega) (by omega)]
      unfold next_start
      have b1 := hb (-(distance : Int) + 1)
      dsimp only
      split_ifs <;> omega
    · intro k h1 h2
      rw [hcell _ (by omega) (by omega)]
      have bm := hb (k - 1) (by omega) (by omega)
      have b0 := hb k (by omega) (by omega)
      have bp := hb (k + 1) (by omega) (by omega)
      unfold next_start
      dsimp only
      split_ifs <;> omega
    · rw [hcell _ (by omega) (by omega)]
      unfold next_start
      have b1 := hb ((distance : Int) - 1)
      dsimp only
      split_ifs <;> omega
    · rw [hcell _ (by omega) (by omega)]
      unfold next_start
      have e : (distance : Int) + 1 - 1 = (distance : Int) := by ring
      simp only [e]
      split_ifs <;> omega

theorem c18_compute_recurrence_witness :
    (((CPU.edit_wavefronts_compute_wavefront
        (CPU.edit_wavefronts_allocate_wavefront (CPU.edit_wavefronts_init 1 1) 0 0 0)
        1).wavefronts 1).lo = -1 ∧
      ((CPU.edit_wavefronts_compute_wavefront
        (CPU.edit_wavefronts_allocate_wavefront (CPU.edit_wavefronts_init 1 1) 0 0 0)
        1).wavefronts 1).hi = 1 ∧ (-1 : Int) ≤ 1) ∧
    spec_recurrence
      (CPU.offset_of (CPU.edit_wavefronts_compute_wavefront
        (CPU.edit_wavefronts_allocate_wavefront (CPU.edit_wavefronts_init 1 1) 0 0 0) 1) 1)
      (CPU.offset_of (CPU.edit_wavefronts_compute_wavefront
        (CPU.edit_wavefronts_compute_wavefront
          (CPU.edit_wavefronts_allocate_wavefront (CPU.edit_wavefronts_init 1 1) 0 0 0) 1)
        (1 + 1)) (1 + 1)) (-1) 1 ∧
    spec_recurrence
      (FPGA.offset_of (FPGA.edit_wavefronts_compute_wavefront (fun _ => 0) 1) 1)
      (FPGA.offset_of (FPGA.edit_wavefronts_compute_wavefront
        (FPGA.edit_wavefronts_compute_wavefront (fun _ => 0) 1) (1 + 1)) (1 + 1)) (-1) 1 :=
  ⟨⟨by decide, by decide, by decide⟩,
    ((c18_compute_recurrence 1).1
      (CPU.edit_wavefronts_compute_wavefront
        (CPU.edit_wavefronts_allocate_wavefront (CPU.edit_wavefronts_init 1 1) 0 0 0) 1) (-1) 1
      (by decide) (by decide) (by decide)
      (fun k h1 h2 => by
        have hk : k = -1 ∨ k = 0 ∨ k = 1 := by omega
        rcases hk with rfl | rfl | rfl <;> decide)).2.2,
    (c18_compute_recurrence 1).2 (FPGA.edit_wavefronts_compute_wavefront (fun _ => 0) 1) (-1) 1
      (by decide) (by decide)
      (fun k h1 h2 => by
        have hk : k = -1 ∨ k = 0 ∨ k = 1 := by omega
        rcases hk with rfl | rfl | rfl <;> decide)⟩

/-- C19 fails as stated: for Pattern = Text = 32768 times `'A'`, generation 0 with range `[0, 0]`
and starting offset `o = 0` on diagonal 0, the longest common prefix of `Pattern[0..m)` and
`Text[0..n)` has 32768 symbols, but after `edit_wavefronts_extend_wavefront` the offset of
diagonal 0 is -32768, not `o + 32768`: `++offsets[k]` wraps in the 16-bit offset type. -/
theorem c19_extend_wraps_counterexample :
    ((CPU.edit_wavefronts_allocate_wavefront (CPU.edit_wavefronts_init 32768 32768) 0 0
        0).wavefronts 0).lo ≤ 0 ∧
    0 ≤ ((CPU.edit_wavefronts_allocate_wavefront (CPU.edit_wavefronts_init 32768 32768) 0 0
        0).wavefronts 0).hi ∧
    CPU.offset_of
      (CPU.edit_wavefronts_allocate_wavefront (CPU.edit_wavefronts_init 32768 32768) 0 0 0)
      0 0 = 0 ∧
    CPU.offset_of (CPU.edit_wavefronts_extend_wavefront
      (CPU.edit_wavefronts_allocate_wavefront (CPU.edit_wavefronts_init 32768 32768) 0 0 0)
      (List.replicate 32768 'A') (List.replicate 32768 'A').length
      (List.replicate 32768 'A') (List.replicate 32768 'A').length 0) 0 0 = -32768 ∧
    lcp ((List.replicate 32768 'A').drop ((0 : Int) - 0).toNat)
      ((List.replicate 32768 'A').drop (0 : Int).toNat) = 32768 := by
  have key : ∀ P : List Char, P.length = 32768 →
      ((CPU.edit_wavefronts_allocate_wavefront (CPU.edit_wavefronts_init 32768 32768) 0 0
          0).wavefronts 0).lo ≤ 0 ∧
      0 ≤ ((CPU.edit_wavefronts_allocate_wavefront (CPU.edit_wavefronts_init 32768 32768) 0 0
          0).wavefronts 0).hi ∧
      CPU.offset_of
        (CPU.edit_wavefronts_allocate_wavefront (CPU.edit_wavefronts_init 32768 32768) 0 0 0)
        0 0 = 0 ∧
      CPU.offset_of (CPU.edit_wavefronts_extend_wavefront
        (CPU.edit_wavefronts_allocate_wavefront (CPU.edit_wavefronts_init 32768 32768) 0 0 0)
        P P.length P P.length 0) 0 0 = -32768 ∧
      lcp (P.drop ((0 : Int) - 0).toNat) (P.drop (0 : Int).toNat) = 32768 := by
    intro P hP
    refine ⟨by decide, by decide, by decide, ?_, ?_⟩
    · unfold CPU.offset_of
      rw [cpu_extend_self _ P (by decide) (by decide) (by decide), hP]
      rfl
    · simp only [sub_zero, Int.toNat_zero, List.drop_zero]
      rw [lcp_self, hP]
  exact key _ (List.length_replicate _ _)

/-- C19 (amended). The extend step is the greedy match run on each diagonal independently, in both
variants.  For a text of length at most 32767 (so that offsets fit the 16-bit type), every
generation and every diagonal `k` of its range with starting offset `o`, `o ≥ 0` and
`v = o - k ≥ 0`: after `edit_wavefronts_extend_wavefront` the offset of `k` is `o` plus the
length of the longest common prefix of `Pattern[v..m)` and `Text[o..n)`; the new offset of
`k` is the same in any other store with the same old offset of `k`; and no other generation
(in the dense variant: no cell outside generation `distance`) is changed. -/
theorem c19_extend_greedy (pattern text : List Char) (distance : Nat) (k : Int)
    (hn : text.length ≤ 32767) :
    (∀ wavefronts : CPU.edit_wavefronts_t,
      (wavefronts.wavefronts distance).lo ≤ k → k ≤ (wavefronts.wavefronts distance).hi →
      (0 ≤ CPU.offset_of wavefronts distance k → k ≤ CPU.offset_of wavefronts distance k →
        CPU.offset_of wavefronts distance k ≤ 32767 →
        CPU.offset_of (CPU.edit_wavefronts_extend_wavefront wavefronts pattern pattern.length
            text text.length distance) distance k =
          CPU.offset_of wavefronts distance k +
            lcp (pattern.drop (CPU.offset_of wavefronts distance k - k).toNat)
              (text.drop (CPU.offset_of wavefronts distance k).toNat)) ∧
      (∀ other : CPU.edit_wavefronts_t,
        (other.wavefronts distance).lo ≤ k → k ≤ (other.wavefronts distance).hi →
        CPU.offset_of other distance k = CPU.offset_of wavefronts distance k →
        CPU.offset_of (CPU.edit_wavefronts_extend_wavefront other pattern pattern.length
            text text.length distance) distance k =
          CPU.offset_of (CPU.edit_wavefronts_extend_wavefront wavefronts pattern
            pattern.length text text.length distance) distance k) ∧
      ∀ d : Nat, d ≠ distance →
        (CPU.edit_wavefronts_extend_wavefront wavefronts pattern pattern.length text
          text.length distance).wavefronts d = wavefronts.wavefronts d) ∧
    (∀ offsets_wavefronts : Int → Int, -(distance : Int) ≤ k → k ≤ distance →
      (0 ≤ FPGA.offset_of offsets_wavefronts distance k →
        k ≤ FPGA.offset_of offsets_wavefronts distance k →
        FPGA.offset_of offsets_wavefronts distance k ≤ 32767 →
        FPGA.offset_of (FPGA.edit_wavefronts_extend_wavefront offsets_wavefronts pattern
            pattern.length text text.length distance) distance k =
          FPGA.offset_of offsets_wavefronts distance k +
            lcp (pattern.drop (FPGA.offset_of offsets_wavefronts distance k - k).toNat)
              (text.drop (FPGA.offset_of offsets_wavefronts distance k).toNat)) ∧
      (∀ other : Int → Int,
        FPGA.offset_of other distance k = FPGA.offset_of offsets_wavefronts distance k →
        FPGA.offset_of (FPGA.edit_wavefronts_extend_wavefront other pattern pattern.length
            text text.length distance) distance k =
          FPGA.offset_of (FPGA.edit_wavefronts_extend_wavefront offsets_wavefronts pattern
            pattern.length text text.length distance) distance k) ∧
      ∀ i : Int, (i < FPGA.OFFSET_IDX distance (-(distance : Int)) ∨
          FPGA.OFFSET_IDX distance distance < i) →
        FPGA.edit_wavefronts_extend_wavefront offsets_wavefronts pattern pattern.length text
          text.length distance i = offsets_wavefronts i) := by
  constructor
  · intro wavefronts h1 h2
    have key : ∀ w : CPU.edit_wavefronts_t,
        (w.wavefronts distance).lo ≤ k → k ≤ (w.wavefronts distance).hi →
        CPU.offset_of (CPU.edit_wavefronts_extend_wavefront w pattern pattern.length
            text text.length distance) distance k =
          extend_while pattern pattern.length text text.length
            ((text.length : Int) - CPU.offset_of w distance k).toNat
            (CPU.offset_of w distance k - k) (CPU.offset_of w distance k)
            (CPU.offset_of w distance k) := by
      intro w g1 g2
      unfold CPU.offset_of CPU.edit_wavefronts_extend_wavefront
      simp only [Function.update_same]
      rw [cpu_extend_for_apply, if_pos (by omega)]
    refine ⟨?_, ?_, ?_⟩
    · intro a b c
      rw [key wavefronts h1 h2]
      exact extend_while_eq_lcp pattern text k _ hn a b c
    · intro other g1 g2 e
      rw [key wavefronts h1 h2, key other g1 g2, e]
    · intro d hd
      unfold CPU.edit_wavefronts_extend_wavefront
      simp only [Function.update_noteq hd]
  · intro mem h1 h2
    have key : ∀ w : Int → Int,
        FPGA.offset_of (FPGA.edit_wavefronts_extend_wavefront w pattern pattern.length
            text text.length distance) distance k =
          extend_while pattern pattern.length text text.length
            ((text.length : Int) - FPGA.offset_of w distance k).toNat
            (FPGA.offset_of w distance k - k) (FPGA.offset_of w distance k)
            (FPGA.offset_of w distance k) := by
      intro w
      unfold FPGA.offset_of FPGA.edit_wavefronts_extend_wavefront FPGA.LO_IDX FPGA.HI_IDX
      rw [fpga_extend_for_apply, offset_idx_eq distance k, if_pos (by omega)]
      have e : FPGA.OFFSET_IDX (distance : Int) 0 + k - FPGA.OFFSET_IDX (distance : Int) 0 = k := by
        omega
      rw [e]
    refine ⟨?_, ?_, ?_⟩
    · intro a b c
      rw [key mem]
      exact extend_while_eq_lcp pattern text k _ hn a b c
    · intro other e
      rw [key mem, key other, e]
    · intro i hi
      rw [offset_idx_eq distance (-(distance : Int)), offset_idx_eq distance (distance : Int)] at hi
      unfold FPGA.edit_wavefronts_extend_wavefront FPGA.LO_IDX FPGA.HI_IDX
      rw [fpga_extend_for_apply, if_neg (by omega)]

theorem c19_extend_greedy_witness :
    ['A', 'G', 'T'].length ≤ 32767 ∧
    CPU.offset_of (CPU.edit_wavefronts_extend_wavefront
        (CPU.edit_wavefronts_allocate_wavefront (CPU.edit_wavefronts_init 4 3) 0 0 0)
        ['A', 'C', 'G', 'T'] (['A', 'C', 'G', 'T'].length : Nat) ['A', 'G', 'T']
        (['A', 'G', 'T'].length : Nat) 0) 0 0 =
      CPU.offset_of
          (CPU.edit_wavefronts_allocate_wavefront (CPU.edit_wavefronts_init 4 3) 0 0 0) 0 0 +
        lcp (['A', 'C', 'G', 'T'].drop (CPU.offset_of
            (CPU.edit_wavefronts_allocate_wavefront (CPU.edit_wavefronts_init 4 3) 0 0 0)
            0 0 - 0).toNat)
          (['A', 'G', 'T'].drop (CPU.offset_of
            (CPU.edit_wavefronts_allocate_wavefront (CPU.edit_wavefronts_init 4 3) 0 0 0)
            0 0).toNat) ∧
    FPGA.offset_of (FPGA.edit_wavefronts_extend_wavefront (fun _ => 0)
        ['A', 'C', 'G', 'T'] (['A', 'C', 'G', 'T'].length : Nat) ['A', 'G', 'T']
        (['A', 'G', 'T'].length : Nat) 0) 0 0 =
      FPGA.offset_of (fun _ => 0) 0 0 +
        lcp (['A', 'C', 'G', 'T'].drop (FPGA.offset_of (fun _ => 0) 0 0 - 0).toNat)
          (['A', 'G', 'T'].drop (FPGA.offset_of (fun _ => 0) 0 0).toNat) :=
  ⟨by decide,
    ((c19_extend_greedy ['A', 'C', 'G', 'T'] ['A', 'G', 'T'] 0 0 (by decide)).1
      (CPU.edit_wavefronts_allocate_wavefront (CPU.edit_wavefronts_init 4 3) 0 0 0)
      (by decide) (by decide)).1
      (by decide) (by decide) (by decide),
    ((c19_extend_greedy ['A', 'C', 'G', 'T'] ['A', 'G', 'T'] 0 0 (by decide)).2
      (fun _ => 0) (by decide) (by decide)).1 (by decide) (by decide) (by decide)⟩

/-- C20 fails as stated: for Pattern = "AB", Text = "C" the driver loop extends generation 2,
whose diagonal 0 holds the offset 2 after the extend step, above
`min(n, m + k) = min(1, 2) = 1`. -/
theorem c20_offset_exceeds_bound :
    ∃ step ∈ CPU.extend_steps ['A', 'B'] ['C'], ∃ k : Int,
      (step.2.1.wavefronts step.1).lo ≤ k ∧ k ≤ (step.2.1.wavefronts step.1).hi ∧
      ¬ (CPU.offset_of step.2.2 step.1 k ≤
        min (['C'].length : Int) ((['A', 'B'].length : Int) + k)) :=
  ⟨(CPU.extend_steps ['A', 'B'] ['C']).get ⟨2, by decide⟩, List.get_mem _ _ _, 0,
    by decide, by decide, by decide⟩

/-- C20 (amended). For every pattern and text (lengths summing to at most 32767), the driver
loop of the amortized-growth variant extends the generations `0, 1, ...` up to the edit
distance (never generation `m + n`), and for every generation it extends and every diagonal
`k` of it the offset of `k` after the extend step is at least its offset before the extend
step, at most the larger of that offset and `min(n, m + k)`, and at most `m + n`. -/
theorem c20_extend_monotone_bounded (pattern text : List Char)
    (hlen : pattern.length + text.length ≤ 32767) :
    (CPU.extend_steps pattern text).map Prod.fst =
      List.range (min (levenshtein Levenshtein.defaultCost pattern text + 1)
        (pattern.length + text.length)) ∧
    ∀ step ∈ CPU.extend_steps pattern text, ∀ k : Int,
      (step.2.1.wavefronts step.1).lo ≤ k → k ≤ (step.2.1.wavefronts step.1).hi →
      CPU.offset_of step.2.1 step.1 k ≤ CPU.offset_of step.2.2 step.1 k ∧
      CPU.offset_of step.2.2 step.1 k ≤
        max (CPU.offset_of step.2.1 step.1 k)
          (min (text.length : Int) ((pattern.length : Int) + k)) ∧
      CPU.offset_of step.2.2 step.1 k ≤ (pattern.length : Int) + text.length := by
  refine ⟨cpu_extend_steps_generations pattern text hlen, ?_⟩
  intro step hstep k h1 h2
  obtain ⟨hd, hs, he⟩ := cpu_extend_steps_spec pattern text hlen step hstep
  rw [hs.1] at h1
  rw [hs.2.1] at h2
  unfold CPU.offset_of
  rw [hs.2.2 k h1 h2, he.2.2 k h1 h2]
  have g := furthest_ge_start pattern text step.1 k
  have t := furthest_le_total pattern text step.1 k hd h1 h2
  have a := ext_run_le pattern text
    ((text.length : Int) - furthest_start pattern text step.1 k).toNat k
    (furthest_start pattern text step.1 k)
  have b := ext_run_le_pattern pattern text
    ((text.length : Int) - furthest_start pattern text step.1 k).toNat k
    (furthest_start pattern text step.1 k)
  have e : furthest pattern text step.1 k = ext_run pattern text
    ((text.length : Int) - furthest_start pattern text step.1 k).toNat k
    (furthest_start pattern text step.1 k) := rfl
  rw [← e] at a b
  refine ⟨g, ?_, ?_⟩ <;> omega

theorem c20_extend_monotone_bounded_witness :
    ['A', 'B'].length + ['C'].length ≤ 32767 ∧
    (CPU.extend_steps ['A', 'B'] ['C']).map Prod.fst =
      List.range (min (levenshtein Levenshtein.defaultCost ['A', 'B'] ['C'] + 1)
        (['A', 'B'].length + ['C'].length)) ∧
    ∀ step ∈ CPU.extend_steps ['A', 'B'] ['C'], ∀ k : Int,
      (step.2.1.wavefronts step.1).lo ≤ k → k ≤ (step.2.1.wavefronts step.1).hi →
      CPU.offset_of step.2.1 step.1 k ≤ CPU.offset_of step.2.2 step.1 k ∧
      CPU.offset_of step.2.2 step.1 k ≤
        max (CPU.offset_of step.2.1 step.1 k)
          (min ((['C'].length : Nat) : Int) (((['A', 'B'].length : Nat) : Int) + k)) ∧
      CPU.offset_of step.2.2 step.1 k ≤
        ((['A', 'B'].length : Nat) : Int) + (['C'].length : Nat) :=
  ⟨by decide, c20_extend_monotone_bounded ['A', 'B'] ['C'] (by decide)⟩

/-! ## Claims C21 to C29 -/

/-- C21, the code at Pattern = "A", Text = "B": generation 0 has the single diagonal 0, and
the backtrace of the amortized-growth variant consults exactly that one.  The backtrace of
the dense variant (on a zeroed buffer), at `distance = 1`, consults the diagonals `1` and
`-1` of generation 0, which do not exist there: it tests them against the range `[-1, 1]` of
generation `distance` instead of the range `[0, 0]` of generation `distance - 1`. -/
theorem c21_dense_backtrace_consults_absent_diagonals :
    FPGA.run_backtrace_consults 1 (fun _ => 0) ['A'] ['B'] = [(0, 1), (0, -1)] ∧
    CPU.run_backtrace_consults 1 ['A'] ['B'] = [(0, 0)] ∧
    (FPGA.driver_loop (fun _ => 0) ['A'] ['B']).1 = 1 ∧
    ((CPU.driver_loop ['A'] ['B']).2.wavefronts 0).lo = 0 ∧
    ((CPU.driver_loop ['A'] ['B']).2.wavefronts 0).hi = 0 := by
  decide

/-- C22. The dense index formula `OFFSET_IDX(distance,k) = distance*(distance+1) + k` is
injective on the valid pairs (`distance ≥ 0`, `-distance ≤ k ≤ distance`); it maps the
diagonals of generation `distance` into the index interval
`[distance², (distance+1)² - 1]` and onto all of it; and the cells of the generations
`0 .. D-1` are exactly the indices `0 .. D² - 1`. -/
theorem c22_offset_idx_bijection :
    (∀ d d' k k' : Int, 0 ≤ d → 0 ≤ d' → -d ≤ k → k ≤ d → -d' ≤ k' → k' ≤ d' →
      FPGA.OFFSET_IDX d k = FPGA.OFFSET_IDX d' k' → d = d' ∧ k = k') ∧
    (∀ d k : Int, 0 ≤ d → -d ≤ k → k ≤ d →
      d * d ≤ FPGA.OFFSET_IDX d k ∧ FPGA.OFFSET_IDX d k ≤ (d + 1) * (d + 1) - 1) ∧
    (∀ d i : Int, 0 ≤ d → d * d ≤ i → i ≤ (d + 1) * (d + 1) - 1 →
      ∃ k : Int, -d ≤ k ∧ k ≤ d ∧ FPGA.OFFSET_IDX d k = i) ∧
    (∀ D i : Int, 0 ≤ D →
      ((0 ≤ i ∧ i < D * D) ↔
        ∃ d k : Int, 0 ≤ d ∧ d < D ∧ -d ≤ k ∧ k ≤ d ∧ FPGA.OFFSET_IDX d k = i)) := by
  refine ⟨?_, ?_, ?_, ?_⟩
  · intro d d' k k' hd hd' h1 h2 h1' h2' he
    exact offset_idx_inj d d' k k' hd hd' h1 h2 h1' h2' he
  · intro d k _ h1 h2
    exact offset_idx_interval d k h1 h2
  · intro d i _ h1 h2
    refine ⟨i - d * (d + 1), ?_, ?_, ?_⟩
    · nlinarith
    · nlinarith
    · unfold FPGA.OFFSET_IDX; ring
  · intro D i hD
    constructor
    · rintro ⟨h0, h1⟩
      obtain ⟨L, rfl⟩ := Int.eq_ofNat_of_zero_le hD
      cases L with
      | zero => simp at h1; omega
      | succ L =>
        have h1' : i < ((L : Int) + 1) * ((L : Int) + 1) := by push_cast at h1; exact h1
        obtain ⟨d, k, hd, k1, k2, e⟩ := offset_idx_surj L i h0 h1'
        refine ⟨(d : Int), k, Int.natCast_nonneg d, ?_, k1, k2, e.symm⟩
        push_cast
        omega
    · rintro ⟨d, k, hd, hdD, h1, h2, rfl⟩
      have a := offset_idx_interval d k h1 h2
      constructor
      · nlinarith
      · have : (d + 1) * (d + 1) ≤ D * D := by nlinarith
        omega

theorem c22_offset_idx_bijection_witness :
    ((0 : Int) ≤ 2 ∧ -(2 : Int) ≤ -1 ∧ (-1 : Int) ≤ 2) ∧
    ((2 : Int) * 2 ≤ FPGA.OFFSET_IDX 2 (-1) ∧ FPGA.OFFSET_IDX 2 (-1) ≤ (2 + 1) * (2 + 1) - 1) :=
  ⟨⟨by decide, by decide, by decide⟩,
    c22_offset_idx_bijection.2.1 2 (-1) (by decide) (by decide) (by decide)⟩

/-- C23 fails as stated: for Pattern = 32767 times `'A'` then `'B'` and Text = 32767 times `'A'`
then `'C'`, generation 0 holds the offset 32767 on diagonal 0 after its extend step, the exit
test fails, and the compute step stores -32768 on diagonal 0 of generation 1: the offset of
diagonal 0 decreases. -/
theorem c23_offsets_decrease_counterexample :
    ∃ c ∈ CPU.compute_steps (List.replicate 32767 'A' ++ ['B'])
        (List.replicate 32767 'A' ++ ['C']),
      ∃ k : Int, -(c.1 : Int) ≤ k ∧ k ≤ c.1 ∧
        CPU.offset_of c.2.1 c.1 k = 32767 ∧ CPU.offset_of c.2.2 (c.1 + 1) k = -32768 ∧
        ¬ (CPU.offset_of c.2.1 c.1 k ≤ CPU.offset_of c.2.2 (c.1 + 1) k) := by
  have key : ∀ P T : List Char, P.length = 32768 → T.length = 32768 → lcp P T = 32767 →
      ∃ c ∈ CPU.compute_steps P T, ∃ k : Int, -(c.1 : Int) ≤ k ∧ k ≤ c.1 ∧
        CPU.offset_of c.2.1 c.1 k = 32767 ∧ CPU.offset_of c.2.2 (c.1 + 1) k = -32768 ∧
        ¬ (CPU.offset_of c.2.1 c.1 k ≤ CPU.offset_of c.2.2 (c.1 + 1) k) := by
    intro P T hP hT hl
    obtain ⟨c, hc, h1, h2, h3⟩ := cpu_compute_steps_first P T (by rw [hP, hT])
      (by rw [hP]; norm_num) (by rw [hl])
      (by
        rw [hT, hl]
        have e : to_offset ((32768 : Nat) : Int) = -32768 := rfl
        rw [e]
        norm_num)
    rw [hl] at h2 h3
    have e3 : to_offset (((32767 : Nat) : Int) + 1) = -32768 := rfl
    rw [e3] at h3
    refine ⟨c, hc, 0, ?_, ?_, ?_, ?_, ?_⟩
    · rw [h1]; simp
    · rw [h1]; simp
    · rw [h1]; exact h2
    · rw [h1]; exact h3
    · rw [h1]
      have h2' : CPU.offset_of c.2.1 0 0 = 32767 := h2
      have h3' : CPU.offset_of c.2.2 (0 + 1) 0 = -32768 := h3
      rw [h2', h3']
      norm_num
  exact key _ _ (by rw [List.length_append, List.length_replicate]; rfl)
    (by rw [List.length_append, List.length_replicate]; rfl)
    (by rw [lcp_replicate_append]; rfl)

/-- C23 (amended). Offsets are non-decreasing across generations in the amortized-growth variant,
for every pattern and text (lengths summing to at most 32767): the driver loop computes
generation `d + 1` for every `d` below the edit distance, and for each such `d` and every
diagonal `k` with `-d ≤ k ≤ d` the offset of `k` at generation `d + 1`, as the compute step
leaves it and as the extend step of generation `d + 1` leaves it, is at least the offset of `k`
at generation `d` after its extend step. -/
theorem c23_offsets_nondecreasing (pattern text : List Char)
    (hlen : pattern.length + text.length ≤ 32767) :
    (CPU.compute_steps pattern text).map Prod.fst =
      List.range (levenshtein Levenshtein.defaultCost pattern text) ∧
    (∀ c ∈ CPU.compute_steps pattern text, ∀ k : Int, -(c.1 : Int) ≤ k → k ≤ c.1 →
      CPU.offset_of c.2.1 c.1 k ≤ CPU.offset_of c.2.2 (c.1 + 1) k) ∧
    (∀ c ∈ CPU.compute_steps pattern text, ∀ e ∈ CPU.extend_steps pattern text,
      e.1 = c.1 + 1 → ∀ k : Int, -(c.1 : Int) ≤ k → k ≤ c.1 →
        CPU.offset_of c.2.1 c.1 k ≤ CPU.offset_of e.2.2 e.1 k) := by
  obtain ⟨g, hc⟩ := cpu_compute_steps_spec pattern text hlen
  have he := cpu_extend_steps_spec pattern text hlen
  refine ⟨g, ?_, ?_⟩
  · intro c hcm k h1 h2
    obtain ⟨_, c2, c3⟩ := hc c hcm
    unfold CPU.offset_of
    rw [c2.2.2 k h1 h2, c3.2.2 k (by push_cast; omega) (by push_cast; omega),
      furthest_start_succ]
    have := (next_start_ge (furthest pattern text c.1) c.1 k).2.2 h1 h2
    omega
  · intro c hcm e hem hgen k h1 h2
    obtain ⟨_, c2, _⟩ := hc c hcm
    obtain ⟨_, _, e3⟩ := he e hem
    unfold CPU.offset_of
    rw [c2.2.2 k h1 h2, e3.2.2 k (by rw [hgen]; push_cast; omega)
      (by rw [hgen]; push_cast; omega), hgen]
    have a := furthest_ge_start pattern text (c.1 + 1) k
    rw [furthest_start_succ] at a
    have := (next_start_ge (furthest pattern text c.1) c.1 k).2.2 h1 h2
    omega

theorem c23_offsets_nondecreasing_witness :
    ['A', 'B'].length + ['C'].length ≤ 32767 ∧
    ((CPU.compute_steps ['A', 'B'] ['C']).map Prod.fst =
      List.range (levenshtein Levenshtein.defaultCost ['A', 'B'] ['C']) ∧
    (∀ c ∈ CPU.compute_steps ['A', 'B'] ['C'], ∀ k : Int, -(c.1 : Int) ≤ k → k ≤ c.1 →
      CPU.offset_of c.2.1 c.1 k ≤ CPU.offset_of c.2.2 (c.1 + 1) k) ∧
    (∀ c ∈ CPU.compute_steps ['A', 'B'] ['C'], ∀ e ∈ CPU.extend_steps ['A', 'B'] ['C'],
      e.1 = c.1 + 1 → ∀ k : Int, -(c.1 : Int) ≤ k → k ≤ c.1 →
        CPU.offset_of c.2.1 c.1 k ≤ CPU.offset_of e.2.2 e.1 k)) :=
  ⟨by decide, c23_offsets_nondecreasing ['A', 'B'] ['C'] (by decide)⟩

/-- C24. In the amortized-growth variant, for every pattern and text, in the store with which
the driver loop of `edit_wavefronts_align` stops every generation `d` up to the final
`distance`, that is every generation that was allocated, has the stored range `lo = -d`,
`hi = d`; the slots beyond are untouched; and the store and score that
`edit_wavefronts_align` returns are that store (with the CIGAR written) and that
`distance`. -/
theorem c24_allocated_ranges (pattern text : List Char) :
    (∀ d : Nat, d ≤ (CPU.driver_loop pattern text).1 →
      ((CPU.driver_loop pattern text).2.wavefronts d).lo = -(d : Int) ∧
      ((CPU.driver_loop pattern text).2.wavefronts d).hi = d) ∧
    (∀ d : Nat, (CPU.driver_loop pattern text).1 < d →
      (CPU.driver_loop pattern text).2.wavefronts d = CPU.wavefront_zero) ∧
    (∀ (fuel : Nat) (r : CPU.edit_wavefronts_t × Nat),
      CPU.edit_wavefronts_align fuel (CPU.edit_wavefronts_init pattern.length text.length)
        pattern pattern.length text text.length = some r →
      r.2 = (CPU.driver_loop pattern text).1 ∧
      r.1.wavefronts = (CPU.driver_loop pattern text).2.wavefronts) :=
  ⟨(cpu_driver_loop_ranges pattern text).1, (cpu_driver_loop_ranges pattern text).2,
    fun fuel r h => cpu_align_result fuel pattern text r h⟩

theorem c24_allocated_ranges_witness :
    1 ≤ (CPU.driver_loop ['A', 'C', 'G', 'T'] ['A', 'G', 'T']).1 ∧
    ((CPU.driver_loop ['A', 'C', 'G', 'T'] ['A', 'G', 'T']).2.wavefronts 1).lo = -((1 : Nat) : Int) ∧
    ((CPU.driver_loop ['A', 'C', 'G', 'T'] ['A', 'G', 'T']).2.wavefronts 1).hi = ((1 : Nat) : Int) :=
  ⟨by decide, (c24_allocated_ranges ['A', 'C', 'G', 'T'] ['A', 'G', 'T']).1 1 (by decide)⟩

/-- C25. Offsets fit the offset type whenever `m + n` does.  For every pattern and text with
`m + n ≤ 32767`, at every extend step of the driver loop (amortized-growth variant) the
offsets of the generation extended, before and after the step, and at every compute step the
offsets of the generation computed, are the values of the recurrence and of the greedy run
in unbounded integer arithmetic (`furthest_start`, `furthest`): no store into the 16-bit
`ewf_offset_t` wraps or truncates; and every one of these offsets lies between `0` and
`m + n`. -/
theorem c25_offsets_fit (pattern text : List Char)
    (hlen : pattern.length + text.length ≤ 32767) :
    (∀ e ∈ CPU.extend_steps pattern text, ∀ k : Int, -(e.1 : Int) ≤ k → k ≤ e.1 →
      CPU.offset_of e.2.1 e.1 k = furthest_start pattern text e.1 k ∧
      CPU.offset_of e.2.2 e.1 k = furthest pattern text e.1 k ∧
      0 ≤ CPU.offset_of e.2.1 e.1 k ∧
      CPU.offset_of e.2.1 e.1 k ≤ (pattern.length : Int) + text.length ∧
      0 ≤ CPU.offset_of e.2.2 e.1 k ∧
      CPU.offset_of e.2.2 e.1 k ≤ (pattern.length : Int) + text.length) ∧
    (∀ c ∈ CPU.compute_steps pattern text, ∀ k : Int,
      -((c.1 : Int) + 1) ≤ k → k ≤ (c.1 : Int) + 1 →
      CPU.offset_of c.2.2 (c.1 + 1) k = furthest_start pattern text (c.1 + 1) k ∧
      0 ≤ CPU.offset_of c.2.2 (c.1 + 1) k ∧
      CPU.offset_of c.2.2 (c.1 + 1) k ≤ (pattern.length : Int) + text.length) := by
  obtain ⟨_, hc⟩ := cpu_compute_steps_spec pattern text hlen
  have he := cpu_extend_steps_spec pattern text hlen
  constructor
  · intro e hem k h1 h2
    obtain ⟨e1, e2, e3⟩ := he e hem
    unfold CPU.offset_of
    rw [e2.2.2 k h1 h2, e3.2.2 k h1 h2]
    have b := furthest_bounds pattern text e.1 k h1 h2
    have t := furthest_le_total pattern text e.1 k e1 h1 h2
    refine ⟨rfl, rfl, ?_, ?_, ?_, ?_⟩ <;> omega
  · intro c hcm k h1 h2
    obtain ⟨c1, _, c3⟩ := hc c hcm
    have h1' : -(((c.1 + 1 : Nat)) : Int) ≤ k := by push_cast; omega
    have h2' : k ≤ ((c.1 + 1 : Nat) : Int) := by push_cast; omega
    unfold CPU.offset_of
    rw [c3.2.2 k h1' h2']
    have b := furthest_bounds pattern text (c.1 + 1) k h1' h2'
    have t := furthest_le_total pattern text (c.1 + 1) k (by omega) h1' h2'
    refine ⟨rfl, ?_, ?_⟩ <;> omega

theorem c25_offsets_fit_witness :
    ['A', 'B'].length + ['C'].length ≤ 32767 ∧
    ((∀ e ∈ CPU.extend_steps ['A', 'B'] ['C'], ∀ k : Int, -(e.1 : Int) ≤ k → k ≤ e.1 →
      CPU.offset_of e.2.1 e.1 k = furthest_start ['A', 'B'] ['C'] e.1 k ∧
      CPU.offset_of e.2.2 e.1 k = furthest ['A', 'B'] ['C'] e.1 k ∧
      0 ≤ CPU.offset_of e.2.1 e.1 k ∧
      CPU.offset_of e.2.1 e.1 k ≤ ((['A', 'B'].length : Nat) : Int) + (['C'].length : Nat) ∧
      0 ≤ CPU.offset_of e.2.2 e.1 k ∧
      CPU.offset_of e.2.2 e.1 k ≤ ((['A', 'B'].length : Nat) : Int) + (['C'].length : Nat)) ∧
    (∀ c ∈ CPU.compute_steps ['A', 'B'] ['C'], ∀ k : Int,
      -((c.1 : Int) + 1) ≤ k → k ≤ (c.1 : Int) + 1 →
      CPU.offset_of c.2.2 (c.1 + 1) k = furthest_start ['A', 'B'] ['C'] (c.1 + 1) k ∧
      0 ≤ CPU.offset_of c.2.2 (c.1 + 1) k ∧
      CPU.offset_of c.2.2 (c.1 + 1) k ≤
        ((['A', 'B'].length : Nat) : Int) + (['C'].length : Nat))) :=
  ⟨by decide, c25_offsets_fit ['A', 'B'] ['C'] (by decide)⟩

/-- C26. In the dense variant `edit_wavefronts_compute_wavefront(distance)` with
`distance ≥ 1` leaves every cell outside the cells `OFFSET_IDX(distance,k)`,
`-distance ≤ k ≤ distance`, unchanged, in particular every cell of the generations
`0 .. distance-1`; and it writes every cell of generation `distance` with a value that
depends on the cells of generation `distance - 1` only: two buffers that agree on generation
`distance - 1` get the same generation `distance`, whatever they held there before. -/
theorem c26_compute_frame (offsets_wavefronts : Int → Int) (distance : Nat)
    (hdist : 1 ≤ distance) :
    (∀ i : Int, (i < FPGA.OFFSET_IDX distance (-(distance : Int)) ∨
        FPGA.OFFSET_IDX distance distance < i) →
      FPGA.edit_wavefronts_compute_wavefront offsets_wavefronts distance i =
        offsets_wavefronts i) ∧
    (∀ (d : Nat) (k : Int), d < distance → -(d : Int) ≤ k → k ≤ d →
      FPGA.offset_of (FPGA.edit_wavefronts_compute_wavefront offsets_wavefronts distance) d k =
        FPGA.offset_of offsets_wavefronts d k) ∧
    (∀ other : Int → Int,
      (∀ k : Int, -((distance : Int) - 1) ≤ k → k ≤ (distance : Int) - 1 →
        FPGA.offset_of other (distance - 1) k =
          FPGA.offset_of offsets_wavefronts (distance - 1) k) →
      ∀ k : Int, -(distance : Int) ≤ k → k ≤ distance →
        FPGA.offset_of (FPGA.edit_wavefronts_compute_wavefront other distance) distance k =
          FPGA.offset_of (FPGA.edit_wavefronts_compute_wavefront offsets_wavefronts distance)
            distance k) := by
  obtain ⟨d0, rfl⟩ : ∃ d0, distance = d0 + 1 := ⟨distance - 1, by omega⟩
  refine ⟨?_, ?_, ?_⟩
  · intro i hi
    rw [offset_idx_eq (d0 + 1) (-((d0 + 1 : Nat) : Int)),
      offset_idx_eq (d0 + 1) ((d0 + 1 : Nat) : Int)] at hi
    exact fpga_compute_frame offsets_wavefronts d0 i (by omega)
  · intro d k hd h1 h2
    unfold FPGA.offset_of
    have hlt := offset_idx_lt d (d0 + 1) hd
    rw [offset_idx_eq d k]
    exact fpga_compute_frame offsets_wavefronts d0 _ (Or.inl (by omega))
  · intro other hag k h1 h2
    unfold FPGA.offset_of at hag ⊢
    rw [offset_idx_eq (d0 + 1) k]
    apply fpga_compute_agree
    · intro j j1 j2
      have := hag j (by push_cast; omega) (by push_cast; omega)
      rw [Nat.add_sub_cancel, offset_idx_eq d0 j] at this
      exact this
    · push_cast at h1; omega
    · push_cast at h2; omega

theorem c26_compute_frame_witness :
    1 ≤ 1 ∧
    (∀ i : Int, (i < FPGA.OFFSET_IDX (1 : Nat) (-((1 : Nat) : Int)) ∨
        FPGA.OFFSET_IDX (1 : Nat) (1 : Nat) < i) →
      FPGA.edit_wavefronts_compute_wavefront (fun _ => 0) 1 i = (fun _ => (0 : Int)) i) :=
  ⟨le_refl 1, (c26_compute_frame (fun _ => 0) 1 (le_refl 1)).1⟩

/-- C27, the code in the non-aligned branch when the allocation of the offsets buffer
succeeds and `malloc` for the CIGAR buffer returns a null pointer:
`edit_wavefronts_init` returns `EXIT_SUCCESS` with `edit_cigar` null, because the second test
of that branch is again `wavefronts->offsets == NULL`.  The aligned branch tests
`wavefronts->edit_cigar == NULL` and returns `EXIT_FAILURE` on the same failure. -/
theorem c27_init_misses_cigar_failure :
    (FPGA.edit_wavefronts_init ⟨none, none⟩ false (some 4096) none).2 = EXIT_SUCCESS ∧
    (FPGA.edit_wavefronts_init ⟨none, none⟩ false (some 4096) none).1.edit_cigar = none ∧
    (FPGA.edit_wavefronts_init ⟨none, none⟩ true (some 4096) none).2 = EXIT_FAILURE ∧
    EXIT_SUCCESS ≠ EXIT_FAILURE := by
  decide

/-- C28 fails as stated: for Pattern = Text = 32768 times `'A'` the extend step of generation 0
leaves the offset -32768 on diagonal 0, below `max(0, k) = 0`. -/
theorem c28_negative_offset_counterexample :
    ∃ e ∈ CPU.extend_steps (List.replicate 32768 'A') (List.replicate 32768 'A'),
      ∃ k : Int, -(e.1 : Int) ≤ k ∧ k ≤ e.1 ∧ CPU.offset_of e.2.2 e.1 k = -32768 ∧
        ¬ (max 0 k ≤ CPU.offset_of e.2.2 e.1 k) := by
  have key : ∀ P : List Char, P.length = 32768 →
      ∃ e ∈ CPU.extend_steps P P, ∃ k : Int, -(e.1 : Int) ≤ k ∧ k ≤ e.1 ∧
        CPU.offset_of e.2.2 e.1 k = -32768 ∧ ¬ (max 0 k ≤ CPU.offset_of e.2.2 e.1 k) := by
    intro P hP
    obtain ⟨e, he, h1, h2⟩ := cpu_extend_steps_self P (by rw [hP]; norm_num)
    rw [hP] at h2
    have e3 : to_offset ((32768 : Nat) : Int) = -32768 := rfl
    rw [e3] at h2
    refine ⟨e, he, 0, ?_, ?_, ?_, ?_⟩
    · rw [h1]; simp
    · rw [h1]; simp
    · rw [h1]; exact h2
    · rw [h1, h2]; norm_num
  exact key _ (List.length_replicate _ _)

/-- C28 (amended). Every offset the driver loop stores keeps both coordinates non-negative, in both
variants, for every pattern and text (lengths summing to at most 32767; the dense variant for
every initial 16-bit content of the buffer): at every extend step, for every diagonal `k`
with `-d ≤ k ≤ d` of the generation `d` extended, the offset before the step and the offset
after it are at least `max(0, k)`, so that the extend step starts at `h ≥ 0` and `v ≥ 0`;
and in the state in which the driver loop stops every generation `d` up to the final
`distance` holds offsets of at least `max(0, k)`. -/
theorem c28_offsets_nonnegative (pattern text : List Char) (offsets_wavefronts : Int → Int)
    (hlen : pattern.length + text.length ≤ 32767)
    (hcells : FPGA.cells_in_range offsets_wavefronts) :
    ((∀ e ∈ CPU.extend_steps pattern text, ∀ k : Int, -(e.1 : Int) ≤ k → k ≤ e.1 →
        max 0 k ≤ CPU.offset_of e.2.1 e.1 k ∧ max 0 k ≤ CPU.offset_of e.2.2 e.1 k ∧
        0 ≤ EWAVEFRONT_H k (CPU.offset_of e.2.1 e.1 k) ∧
        0 ≤ EWAVEFRONT_V k (CPU.offset_of e.2.1 e.1 k)) ∧
      ∀ (d : Nat) (k : Int), d ≤ (CPU.driver_loop pattern text).1 → -(d : Int) ≤ k → k ≤ d →
        max 0 k ≤ CPU.offset_of (CPU.driver_loop pattern text).2 d k) ∧
    ((∀ e ∈ FPGA.extend_steps offsets_wavefronts pattern text, ∀ k : Int,
        -(e.1 : Int) ≤ k → k ≤ e.1 →
        max 0 k ≤ FPGA.offset_of e.2.1 e.1 k ∧ max 0 k ≤ FPGA.offset_of e.2.2 e.1 k ∧
        0 ≤ EWAVEFRONT_H k (FPGA.offset_of e.2.1 e.1 k) ∧
        0 ≤ EWAVEFRONT_V k (FPGA.offset_of e.2.1 e.1 k)) ∧
      ∀ (d : Nat) (k : Int), d ≤ (FPGA.driver_loop offsets_wavefronts pattern text).1 →
        -(d : Int) ≤ k → k ≤ d →
        max 0 k ≤ FPGA.offset_of (FPGA.driver_loop offsets_wavefronts pattern text).2 d k) := by
  have hce := cpu_extend_steps_spec pattern text hlen
  obtain ⟨cs, cst⟩ := cpu_driver_loop_spec pattern text hlen
  obtain ⟨_, hfe⟩ := fpga_extend_steps_spec pattern text hlen offsets_wavefronts
  obtain ⟨fs, fst, _, _⟩ := fpga_driver_loop_spec pattern text hlen offsets_wavefronts hcells
  refine ⟨⟨?_, ?_⟩, ⟨?_, ?_⟩⟩
  · intro e hem k h1 h2
    obtain ⟨_, e2, e3⟩ := hce e hem
    unfold CPU.offset_of EWAVEFRONT_H EWAVEFRONT_V
    rw [e2.2.2 k h1 h2, e3.2.2 k h1 h2]
    have b := furthest_bounds pattern text e.1 k h1 h2
    refine ⟨?_, ?_, ?_, ?_⟩ <;> omega
  · intro d k hd h1 h2
    rw [cs] at hd
    unfold CPU.offset_of
    rw [(cst d hd).2.2 k h1 h2]
    have b := furthest_bounds pattern text d k h1 h2
    omega
  · intro e hem k h1 h2
    obtain ⟨_, e2, e3⟩ := hfe e hem
    unfold FPGA.offset_of EWAVEFRONT_H EWAVEFRONT_V
    rw [e2 k h1 h2, e3 k h1 h2]
    have b := furthest_bounds pattern text e.1 k h1 h2
    refine ⟨?_, ?_, ?_, ?_⟩ <;> omega
  · intro d k hd h1 h2
    rw [fs] at hd
    unfold FPGA.offset_of
    rw [fst d hd k h1 h2]
    have b := furthest_bounds pattern text d k h1 h2
    omega

theorem c28_offsets_nonnegative_witness :
    (['A', 'B'].length + ['C'].length ≤ 32767 ∧ FPGA.cells_in_range (fun _ => 0)) ∧
    (((∀ e ∈ CPU.extend_steps ['A', 'B'] ['C'], ∀ k : Int, -(e.1 : Int) ≤ k → k ≤ e.1 →
        max 0 k ≤ CPU.offset_of e.2.1 e.1 k ∧ max 0 k ≤ CPU.offset_of e.2.2 e.1 k ∧
        0 ≤ EWAVEFRONT_H k (CPU.offset_of e.2.1 e.1 k) ∧
        0 ≤ EWAVEFRONT_V k (CPU.offset_of e.2.1 e.1 k)) ∧
      ∀ (d : Nat) (k : Int), d ≤ (CPU.driver_loop ['A', 'B'] ['C']).1 → -(d : Int) ≤ k →
        k ≤ d → max 0 k ≤ CPU.offset_of (CPU.driver_loop ['A', 'B'] ['C']).2 d k) ∧
    ((∀ e ∈ FPGA.extend_steps (fun _ => 0) ['A', 'B'] ['C'], ∀ k : Int,
        -(e.1 : Int) ≤ k → k ≤ e.1 →
        max 0 k ≤ FPGA.offset_of e.2.1 e.1 k ∧ max 0 k ≤ FPGA.offset_of e.2.2 e.1 k ∧
        0 ≤ EWAVEFRONT_H k (FPGA.offset_of e.2.1 e.1 k) ∧
        0 ≤ EWAVEFRONT_V k (FPGA.offset_of e.2.1 e.1 k)) ∧
      ∀ (d : Nat) (k : Int), d ≤ (FPGA.driver_loop (fun _ => 0) ['A', 'B'] ['C']).1 →
        -(d : Int) ≤ k → k ≤ d →
        max 0 k ≤ FPGA.offset_of (FPGA.driver_loop (fun _ => 0) ['A', 'B'] ['C']).2 d k)) :=
  ⟨⟨by decide, fun _ => ⟨by simp, by simp⟩⟩,
    c28_offsets_nonnegative ['A', 'B'] ['C'] (fun _ => 0) (by decide)
      (fun _ => ⟨by simp, by simp⟩)⟩

/-- C29, the code with `CHECK` set.  For score 1 and script "MMDM" against a reference file
with the score 2, `edit_wavefronts_check` returns `false` (no match) and the repetition goes
on to the write step instead of returning `EXIT_FAILURE`.  For score 0 and the empty script
against the reference "0" and a newline, `edit_wavefronts_check` returns `true` (match) and
`main` returns `EXIT_FAILURE`.  The test in `main` is
`if (edit_wavefronts_check(...)) return EXIT_FAILURE;`, without negation. -/
theorem c29_check_result_inverted :
    edit_wavefronts_check ['M', 'M', 'D', 'M'] 4 1
      (some ['2', '\n', 'M', 'M', 'D', 'M']) = false ∧
    main_check_results true ['M', 'M', 'D', 'M'] 4 1
      (some ['2', '\n', 'M', 'M', 'D', 'M']) = none ∧
    edit_wavefronts_check [] 0 0 (some ['0', '\n']) = true ∧
    main_check_results true [] 0 0 (some ['0', '\n']) = some EXIT_FAILURE := by
  decide

end WFA
